import Mathlib

/-!
Verification of the TSP solving engine of the Traveling-Salesperson-Visualizer
repository (`src/utils/tsp-algorithms.ts`).

The embedding models the JavaScript numbers used as distances/costs by
`WithTop α` for an arbitrary linearly ordered additive commutative monoid
`α`: the value `⊤` plays the role of `Infinity`, finite values live in `α`
(instantiating `α` with `ℝ` or `ℚ` recovers real/rational distances;
concrete witnesses instantiate `α := ℤ`, where the kernel can evaluate).
A distance matrix is a total function `ℕ → ℕ → WithTop α` together with
its dimension `n`; the algorithms only access entries with both indices
below `n` on valid inputs.  JavaScript's `performance.now()` elapsed time
is modelled by an explicit `elapsed` parameter that is simply stored in
the result, which is exactly how the source uses it.  The `-1` sentinels
of the source become `Option ℕ` (`none` = `-1`).  Step `description` /
`additionalInfo` strings keep the static parts of the source's strings;
no theorem depends on them.
-/

set_option maxHeartbeats 1000000

namespace TSP

variable {α : Type} [LinearOrderedAddCommMonoid α]

/-- JS number used as a distance/cost: a finite value or `Infinity` (`⊤`). -/
abbrev QInf (α : Type) := WithTop α

/-- Distance matrix as a total function; entries outside `n × n` are never
used by the algorithms on valid inputs. -/
abbrev Mat (α : Type) := ℕ → ℕ → QInf α

/-- Mirror of the `AlgorithmStep` interface: optional fields become
`Option`s, edges become pairs `(from, to)`. -/
structure AlgorithmStep (α : Type) where
  description : String
  currentNode : Option ℕ := none
  visitedNodes : List ℕ
  currentPath : List ℕ
  exploringEdges : Option (List (ℕ × ℕ)) := none
  highlightEdge : Option (ℕ × ℕ) := none
  cost : Option (QInf α) := none
  additionalInfo : Option String := none
deriving DecidableEq

instance : Inhabited (AlgorithmStep α) :=
  ⟨{ description := "", visitedNodes := [], currentPath := [] }⟩

/-- Mirror of the `TSPResult` interface. -/
structure TSPResult (α : Type) where
  path : List ℕ
  cost : QInf α
  executionTime : ℚ
  steps : List (AlgorithmStep α)
deriving DecidableEq

/-- Validity of a distance matrix as assumed throughout the spec:
dimension at least 1, entries below `n` finite, non-negative and
symmetric, zero diagonal. -/
def ValidMatrix (d : Mat α) (n : ℕ) : Prop :=
  1 ≤ n ∧
  (∀ i, i < n → ∀ j, j < n → d i j ≠ ⊤ ∧ 0 ≤ d i j ∧ d i j = d j i) ∧
  (∀ i, i < n → d i i = 0)

instance (d : Mat α) (n : ℕ) : Decidable (ValidMatrix d n) := by
  unfold ValidMatrix; infer_instance

/-- The weaker precondition of the greedy safety claim: a square matrix
with `n ≥ 1` whose entries below `n` are finite and non-negative — no
symmetry or zero-diagonal assumption. -/
def FiniteNonnegMatrix (d : Mat α) (n : ℕ) : Prop :=
  1 ≤ n ∧ ∀ i, i < n → ∀ j, j < n → d i j ≠ ⊤ ∧ 0 ≤ d i j

instance (d : Mat α) (n : ℕ) : Decidable (FiniteNonnegMatrix d n) := by
  unfold FiniteNonnegMatrix; infer_instance

theorem validMatrix_finiteNonneg {d : Mat α} {n : ℕ}
    (h : ValidMatrix d n) : FiniteNonnegMatrix d n :=
  ⟨h.1, fun i hi j hj => ⟨(h.2.1 i hi j hj).1, (h.2.1 i hi j hj).2.1⟩⟩

/-! ## Greedy solver (nearest neighbor) -/

/-- State of the greedy main loop: the partial path, the visited flags,
the running cost and the recorded steps. -/
structure GreedyState (α : Type) where
  path : List ℕ
  visited : ℕ → Bool
  totalCost : QInf α
  steps : List (AlgorithmStep α)

/-- The inner scan of `greedyTSP`: starting from `(nearest, minDistance) =
(-1, Infinity)`, for `j = 0..n-1`, if `j` is unvisited and
`d current j < minDistance`, record `j` as nearest.  Returns the final
`(nearest, minDistance)` with `-1` rendered as `none`. -/
def findNearest (d : Mat α) (n current : ℕ) (visited : ℕ → Bool) :
    Option ℕ × QInf α :=
  (List.range n).foldl
    (fun acc j =>
      if visited j = false ∧ d current j < acc.2 then (some j, d current j)
      else acc)
    (none, ⊤)

/-- One iteration of the greedy outer loop: push the "exploring" step, scan
for the nearest unvisited node and, when one exists, move to it (push it on
the path, mark it visited, accumulate the distance, push the "move" step). -/
def greedyStep (d : Mat α) (n : ℕ) (s : GreedyState α) : GreedyState α :=
  let current := s.path.getLastD 0
  let exploringEdges :=
    ((List.range n).filter (fun j => !s.visited j)).map (fun j => (current, j))
  let s1 : GreedyState α :=
    { s with steps := s.steps ++
        [{ description := "At node, exploring unvisited neighbors"
           currentNode := some current
           visitedNodes := s.path
           currentPath := s.path
           exploringEdges := some exploringEdges
           cost := some s.totalCost
           additionalInfo := some "Looking for the nearest unvisited node" }] }
  let r := findNearest d n current s.visited
  match r.1 with
  | none => s1
  | some nearest =>
      { path := s1.path ++ [nearest]
        visited := fun k => if k = nearest then true else s1.visited k
        totalCost := s1.totalCost + r.2
        steps := s1.steps ++
          [{ description := "Move to nearest node"
             currentNode := some nearest
             visitedNodes := s1.path ++ [nearest]
             currentPath := s1.path ++ [nearest]
             highlightEdge := some (current, nearest)
             cost := some (s1.totalCost + r.2)
             additionalInfo := some "Added edge with its cost" }] }

/-- Initial state of `greedyTSP`: path `[0]`, node 0 visited, cost 0, and
the "Start at node 0" step already recorded. -/
def greedyInit : GreedyState α :=
  { path := [0]
    visited := fun k => k = 0
    totalCost := 0
    steps := [{ description := "Start at node 0"
                currentNode := some 0
                visitedNodes := [0]
                currentPath := [0]
                cost := some 0
                additionalInfo := some "Greedy algorithm always starts at node 0" }] }

/-- `greedyTSP`: run the outer loop `n - 1` times, then add the closing
edge back to node 0 and record the final step. -/
def greedyTSP (d : Mat α) (n : ℕ) (elapsed : ℚ) : TSPResult α :=
  let s := (List.range (n - 1)).foldl (fun s _ => greedyStep d n s) greedyInit
  let finalCost := d (s.path.getLastD 0) (s.path.headD 0)
  let totalCost := s.totalCost + finalCost
  { path := s.path
    cost := totalCost
    executionTime := elapsed
    steps := s.steps ++
      [{ description := "Return to start node 0"
         currentNode := some 0
         visitedNodes := s.path ++ [0]
         currentPath := s.path ++ [0]
         highlightEdge := some (s.path.getLastD 0, 0)
         cost := some totalCost
         additionalInfo := some "Complete the tour" }] }

/-! ## Held-Karp solver (bitmask dynamic programming) -/

/-- The two DP tables of `heldKarpTSP`: `dp mask last` is the minimum cost
to visit exactly the nodes of `mask` ending at `last` (`Infinity` = `⊤`
when unreachable), `parent mask last` the predecessor achieving it
(`-1` = `none`). -/
structure HKState (α : Type) where
  dp : ℕ → ℕ → QInf α
  parent : ℕ → ℕ → Option ℕ

/-- Initial tables: everything `Infinity` / `-1` except `dp 1 0 = 0`. -/
def hkInit : HKState α :=
  { dp := fun mask last => if mask = 1 ∧ last = 0 then 0 else ⊤
    parent := fun _ _ => none }

/-- The innermost relaxation of `heldKarpTSP`: for a fixed `(mask, last)`,
try to extend to `next ∉ mask`, improving `dp (mask ||| 1 <<< next) next`
and recording `last` as parent on strict improvement. -/
def hkRelax (d : Mat α) (mask last : ℕ) (st : HKState α) (next : ℕ) :
    HKState α :=
  if mask.testBit next then st
  else
    let newMask := mask ||| (1 <<< next)
    let newCost := st.dp mask last + d last next
    if newCost < st.dp newMask next then
      { dp := fun m l => if m = newMask ∧ l = next then newCost else st.dp m l
        parent := fun m l =>
          if m = newMask ∧ l = next then some last else st.parent m l }
    else st

/-- The body of the `last` loop: skip if `last ∉ mask` or
`dp mask last = Infinity`, otherwise run the `next` loop. -/
def hkInner (d : Mat α) (n mask : ℕ) (st : HKState α) (last : ℕ) :
    HKState α :=
  if ¬ mask.testBit last then st
  else if st.dp mask last = ⊤ then st
  else (List.range n).foldl (hkRelax d mask last) st

/-- The full subset sweep: masks `1 .. 2^n - 1` in ascending order, each
with the `last` loop. -/
def hkRun (d : Mat α) (n : ℕ) : HKState α :=
  (List.range' 1 (2 ^ n - 1)).foldl
    (fun st mask => (List.range n).foldl (hkInner d n mask) st) hkInit

/-- The "find the best ending node" loop: over `i = 0..n-1` skipping `0`,
minimize `dp fullMask i + d i 0`; returns `(minCost, lastNode)` with
`-1` rendered as `none`. -/
def hkBest (d : Mat α) (n : ℕ) (dp : ℕ → ℕ → QInf α) : QInf α × Option ℕ :=
  (List.range n).foldl
    (fun acc i =>
      if i = 0 then acc
      else
        let cost := dp ((1 <<< n) - 1) i + d i 0
        if cost < acc.1 then (cost, some i) else acc)
    (⊤, none)

/-- The path-reconstruction loop of `heldKarpTSP`, with explicit fuel (the
source uses a `while`; under the invariants proved below the chain ends
before the fuel, which `heldKarpTSP` sets to `n + 1`, runs out): while
`curr ≠ -1`, push `curr`, clear its bit from `mask` and move to
`parent mask curr`. -/
def hkRebuild (parent : ℕ → ℕ → Option ℕ) :
    ℕ → ℕ → Option ℕ → List ℕ → List ℕ
  | 0, _, _, path => path
  | _ + 1, _, none, path => path
  | fuel + 1, mask, some c, path =>
      hkRebuild parent fuel (mask ^^^ (1 <<< c)) (parent mask c) (path ++ [c])

/-- The single step returned by the `n > 15` feasibility guard. -/
def hkGuardStep : AlgorithmStep α :=
  { description := "Graph too large for Held-Karp"
    visitedNodes := []
    currentPath := []
    additionalInfo := some "Held-Karp has O(n^2 2^n) complexity" }

/-- `heldKarpTSP`: feasibility guard for `n > 15`, otherwise the DP sweep,
the best-ending-node scan and path reconstruction (pushed nodes reversed). -/
def heldKarpTSP (d : Mat α) (n : ℕ) (elapsed : ℚ) : TSPResult α :=
  if n > 15 then
    { path := []
      cost := ⊤
      executionTime := elapsed
      steps := [hkGuardStep] }
  else
    let st := hkRun d n
    let best := hkBest d n st.dp
    let path := (hkRebuild st.parent (n + 1) ((1 <<< n) - 1) best.2 []).reverse
    { path := path
      cost := best.1
      executionTime := elapsed
      steps :=
        [{ description := "Initialize: Calculate distances from node 0 to all other nodes"
           currentNode := some 0
           visitedNodes := [0]
           currentPath := [0]
           additionalInfo := some "Dynamic programming approach: build solutions for subsets" },
         { description := "Build solutions for all subsets of nodes"
           visitedNodes := [0]
           currentPath := [0]
           additionalInfo := some "Computing optimal paths for each subset using dynamic programming" },
         { description := "Reconstructed optimal path"
           visitedNodes := path
           currentPath := path
           cost := some best.1
           additionalInfo := some "Found optimal tour" }] }

/-! ## Christofides solver -/

/-- MST edge as produced by `primMST`: `{from, to, weight}`. -/
structure MSTEdge (α : Type) where
  efrom : ℕ
  eto : ℕ
  weight : QInf α
deriving DecidableEq

/-- The inner double scan of `primMST`: over all visited `j` and unvisited
`k`, find the minimum-weight crossing edge; `(-1, -1)` rendered as `none`. -/
def findMinEdge (d : Mat α) (n : ℕ) (visited : ℕ → Bool) :
    QInf α × Option (ℕ × ℕ) :=
  (List.range n).foldl
    (fun acc j =>
      if visited j = false then acc
      else
        (List.range n).foldl
          (fun acc2 k =>
            if visited k = false ∧ d j k < acc2.1 then (d j k, some (j, k))
            else acc2)
          acc)
    (⊤, none)

/-- `primMST`: starting from node 0 visited, `n - 1` times add the
minimum-weight edge crossing the cut (when one exists). -/
def primMST (d : Mat α) (n : ℕ) : List (MSTEdge α) :=
  ((List.range (n - 1)).foldl
    (fun st _ =>
      let r := findMinEdge d n st.1
      match r.2 with
      | none => st
      | some jk =>
          (fun x => if x = jk.2 then true else st.1 x,
           st.2 ++ [⟨jk.1, jk.2, r.1⟩]))
    ((fun k => k == 0 : ℕ → Bool), ([] : List (MSTEdge α)))).2

/-- Increment a degree table at one vertex. -/
def bumpDeg (deg : ℕ → ℕ) (v : ℕ) : ℕ → ℕ :=
  fun x => if x = v then deg x + 1 else deg x

/-- Vertex degrees in the MST edge list (`degree[edge.from]++;
degree[edge.to]++`). -/
def mstDegree (mst : List (MSTEdge α)) : ℕ → ℕ :=
  mst.foldl (fun deg e => bumpDeg (bumpDeg deg e.efrom) e.eto) (fun _ => 0)

/-- Vertices `0 ≤ i < n` of odd degree, in ascending order. -/
def oddVertices (n : ℕ) (deg : ℕ → ℕ) : List ℕ :=
  (List.range n).filter (fun i => deg i % 2 == 1)

/-- The inner scan of `minimumWeightMatching`: among indices
`j = i+1 .. vertices.length - 1` whose vertex is unused, find the one at
minimal distance from `vertices[i]`; returns `(minDist, bestMatch)`. -/
def mwmInner (d : Mat α) (vertices : List ℕ) (used : ℕ → Bool) (i : ℕ) :
    QInf α × Option ℕ :=
  (List.range' (i + 1) (vertices.length - (i + 1))).foldl
    (fun acc j =>
      if used (vertices.getD j 0) then acc
      else if d (vertices.getD i 0) (vertices.getD j 0) < acc.1 then
        (d (vertices.getD i 0) (vertices.getD j 0), some j)
      else acc)
    (⊤, none)

/-- `minimumWeightMatching`: greedily pair each unused vertex (in index
order) with its nearest unused partner of larger index. -/
def minimumWeightMatching (d : Mat α) (vertices : List ℕ) : List (ℕ × ℕ) :=
  ((List.range vertices.length).foldl
    (fun st i =>
      if st.2 (vertices.getD i 0) then st
      else
        match (mwmInner d vertices st.2 i).2 with
        | none => st
        | some best =>
            (st.1 ++ [(vertices.getD i 0, vertices.getD best 0)],
             fun k =>
               if k = vertices.getD i 0 then true
               else if k = vertices.getD best 0 then true
               else st.2 k))
    (([] : List (ℕ × ℕ)), fun _ => false)).1

/-- Append an undirected edge to an adjacency-list multigraph
(`eulerianGraph[edge.from].push(edge.to)` and conversely). -/
def addEdgeAdj (g : List (List ℕ)) (a b : ℕ) : List (List ℕ) :=
  let g1 := g.set a ((g.getD a []) ++ [b])
  g1.set b ((g1.getD b []) ++ [a])

/-- The Eulerian multigraph of `christofidesTSP`: MST edges then matching
edges overlaid on `n` empty adjacency lists. -/
def buildEulerianGraph (n : ℕ) (mst : List (MSTEdge α))
    (matching : List (ℕ × ℕ)) : List (List ℕ) :=
  let g1 := mst.foldl (fun g e => addEdgeAdj g e.efrom e.eto)
    (List.replicate n ([] : List ℕ))
  matching.foldl (fun g p => addEdgeAdj g p.1 p.2) g1

/-- Total number of adjacency-list entries of a multigraph. -/
def adjTotal (g : List (List ℕ)) : ℕ := (g.map List.length).sum

/-- One iteration of the `findEulerianCircuit` loop: with `v` the stack
top, either traverse a remaining edge out of `v` (remove it in both
directions — `pop` the last entry of `adjList[v]`, erase the first
occurrence of `v` in `adjList[u]` — and push its far end `u`) or pop `v`
into the circuit. -/
def eulerStep (g : List (List ℕ)) (stack circuit : List ℕ) :
    List (List ℕ) × List ℕ × List ℕ :=
  match stack with
  | [] => (g, stack, circuit)
  | v :: rest =>
      if g.getD v [] = [] then (g, rest, circuit ++ [v])
      else
        ((g.set v (g.getD v []).dropLast).set ((g.getD v []).getLastD 0)
            (((g.set v (g.getD v []).dropLast).getD
              ((g.getD v []).getLastD 0) []).erase v),
         (g.getD v []).getLastD 0 :: v :: rest, circuit)

theorem getD_ne_nil_lt {g : List (List ℕ)} {v : ℕ}
    (h : g.getD v [] ≠ []) : v < g.length := by
  by_contra hv
  exact h (List.getD_eq_default _ _ (Nat.le_of_not_lt hv))

theorem adjTotal_set (g : List (List ℕ)) (v : ℕ) (l : List ℕ)
    (h : v < g.length) :
    adjTotal (g.set v l) + (g.getD v []).length = adjTotal g + l.length := by
  induction g generalizing v with
  | nil => simp at h
  | cons hd tl ih =>
      cases v with
      | zero => simp [adjTotal]; omega
      | succ v =>
          simp only [List.set, adjTotal, List.map_cons, List.sum_cons,
            List.getD_cons_succ]
          have := ih v (by simpa using Nat.lt_of_succ_lt_succ h)
          simp only [adjTotal] at this
          omega

theorem adjTotal_set_le (g : List (List ℕ)) (v : ℕ) (l : List ℕ)
    (hl : l.length ≤ (g.getD v []).length) :
    adjTotal (g.set v l) ≤ adjTotal g := by
  rcases Nat.lt_or_ge v g.length with hv | hv
  · have := adjTotal_set g v l hv
    omega
  · rw [List.set_eq_of_length_le hv]

theorem eulerStep_measure (g : List (List ℕ)) (v : ℕ)
    (rest circuit : List ℕ) :
    2 * adjTotal (eulerStep g (v :: rest) circuit).1
        + (eulerStep g (v :: rest) circuit).2.1.length
      < 2 * adjTotal g + (v :: rest).length := by
  by_cases h : g.getD v [] = []
  · simp only [eulerStep, if_pos h, List.length_cons]
    simp
  · simp only [eulerStep, if_neg h, List.length_cons]
    have hv : v < g.length := getD_ne_nil_lt h
    have hlen : (g.getD v []).length = (g.getD v []).dropLast.length + 1 := by
      have h1 := List.length_dropLast (g.getD v [])
      have h2 : 1 ≤ (g.getD v []).length :=
        Nat.succ_le_of_lt (List.length_pos.2 h)
      omega
    have h1 : adjTotal (g.set v (g.getD v []).dropLast) + 1 = adjTotal g := by
      have := adjTotal_set g v (g.getD v []).dropLast hv
      omega
    have h2 : adjTotal ((g.set v (g.getD v []).dropLast).set
        ((g.getD v []).getLastD 0)
        (((g.set v (g.getD v []).dropLast).getD
          ((g.getD v []).getLastD 0) []).erase v))
        ≤ adjTotal (g.set v (g.getD v []).dropLast) := by
      apply adjTotal_set_le
      exact (List.erase_sublist _ _).length_le
    omega

/-- The stack-based Hierholzer walk of `findEulerianCircuit`, iterating
`eulerStep` until the stack empties; total by well-founded recursion on
the lexicographic measure (total adjacency entries, stack length),
flattened here to `2 * adjTotal g + stack.length`. -/
def eulerLoop (g : List (List ℕ)) (stack circuit : List ℕ) : List ℕ :=
  match stack with
  | [] => circuit
  | v :: rest =>
      eulerLoop (eulerStep g (v :: rest) circuit).1
        (eulerStep g (v :: rest) circuit).2.1
        (eulerStep g (v :: rest) circuit).2.2
termination_by 2 * adjTotal g + stack.length
decreasing_by
  have h := eulerStep_measure g v rest circuit
  omega

/-- Structural (fuel-indexed) rendering of the same walk; used by
`findEulerianCircuit` so that the definition evaluates by kernel
reduction.  `eulerLoopF_eq_eulerLoop` below shows any fuel of at least
`2 * adjTotal g + stack.length` yields exactly the unbounded loop. -/
def eulerLoopF : ℕ → List (List ℕ) → List ℕ → List ℕ → List ℕ
  | 0, _, _, circuit => circuit
  | _ + 1, _, [], circuit => circuit
  | fuel + 1, g, v :: rest, circuit =>
      eulerLoopF fuel (eulerStep g (v :: rest) circuit).1
        (eulerStep g (v :: rest) circuit).2.1
        (eulerStep g (v :: rest) circuit).2.2

theorem eulerLoopF_eq_eulerLoop (fuel : ℕ) (g : List (List ℕ))
    (stack circuit : List ℕ)
    (h : 2 * adjTotal g + stack.length ≤ fuel) :
    eulerLoopF fuel g stack circuit = eulerLoop g stack circuit := by
  induction fuel generalizing g stack circuit with
  | zero =>
      match stack with
      | [] => rw [eulerLoopF, eulerLoop]
  | succ fuel ih =>
      match stack with
      | [] => rw [eulerLoopF, eulerLoop]
      | v :: rest =>
          rw [eulerLoopF, eulerLoop]
          apply ih
          have := eulerStep_measure g v rest circuit
          simp only [List.length_cons] at h this ⊢
          omega

/-- `findEulerianCircuit`: run the walk from `start` (the fuel covers the
measure of the initial state); the source pushes popped vertices and
reverses at the end. -/
def findEulerianCircuit (g : List (List ℕ)) (start : ℕ) : List ℕ :=
  (eulerLoopF (2 * adjTotal g + 2) g [start] []).reverse

/-- Step 6 of `christofidesTSP`: skip vertices already emitted. -/
def shortcut (circuit : List ℕ) : List ℕ :=
  (circuit.foldl
    (fun (st : List ℕ × (ℕ → Bool)) v =>
      if st.2 v then st
      else (st.1 ++ [v], fun k => if k = v then true else st.2 k))
    ([], fun _ => false)).1

/-- Sum of distances between consecutive path entries (the
`for i < path.length - 1` accumulation of the source). -/
def consecCost (d : Mat α) : List ℕ → QInf α
  | [] => 0
  | [_] => 0
  | a :: b :: rest => d a b + consecCost d (b :: rest)

/-- `christofidesTSP`: MST, odd-degree vertices, greedy matching, Eulerian
multigraph, circuit extraction and shortcutting. -/
def christofidesTSP (d : Mat α) (n : ℕ) (elapsed : ℚ) : TSPResult α :=
  let mst := primMST d n
  let deg := mstDegree mst
  let odd := oddVertices n deg
  let matching := minimumWeightMatching d odd
  let g := buildEulerianGraph n mst matching
  let circuit := findEulerianCircuit g 0
  let path := shortcut circuit
  let totalCost := consecCost d path + d (path.getLastD 0) (path.headD 0)
  let mstEdges := mst.map (fun e => (e.efrom, e.eto))
  let matchingEdges := matching
  { path := path
    cost := totalCost
    executionTime := elapsed
    steps :=
      [{ description := "Step 1: Find Minimum Spanning Tree (MST)"
         visitedNodes := []
         currentPath := []
         additionalInfo := some "Using Prim's algorithm to find MST" },
       { description := "MST computed"
         visitedNodes := []
         currentPath := []
         exploringEdges := some mstEdges },
       { description := "Step 2: Find vertices with odd degree"
         visitedNodes := odd
         currentPath := [] },
       { description := "Step 3: Find minimum weight perfect matching"
         visitedNodes := odd
         currentPath := []
         exploringEdges := some matchingEdges },
       { description := "Step 4: Combine MST and matching to form Eulerian graph"
         visitedNodes := []
         currentPath := []
         exploringEdges := some (mstEdges ++ matchingEdges)
         additionalInfo := some "All vertices now have even degree" },
       { description := "Step 5: Find Eulerian circuit"
         visitedNodes := circuit
         currentPath := circuit },
       { description := "Step 6: Create Hamiltonian circuit by removing duplicates"
         visitedNodes := path
         currentPath := path
         cost := some totalCost }] }

/-! ## Machinery for the greedy solver -/

theorem findNearest_succ (d : Mat α) (k current : ℕ) (visited : ℕ → Bool) :
    findNearest d (k + 1) current visited =
      (fun acc j =>
        if visited j = false ∧ d current j < acc.2 then (some j, d current j)
        else acc) (findNearest d k current visited) k := by
  unfold findNearest
  rw [List.range_succ, List.foldl_append, List.foldl_cons, List.foldl_nil]

/-- Full characterization of the inner scan: either no unvisited node with
a finite distance exists (result `(-1, Infinity)`), or the result is the
unvisited node at minimal distance, ties broken by lowest index. -/
theorem findNearest_spec (d : Mat α) (n current : ℕ) (visited : ℕ → Bool) :
    (findNearest d n current visited = (none, ⊤) ∧
      ∀ j, j < n → visited j = true ∨ d current j = ⊤) ∨
    (∃ u, findNearest d n current visited = (some u, d current u) ∧ u < n ∧
      visited u = false ∧ d current u ≠ ⊤ ∧
      (∀ j, j < n → visited j = false → d current u ≤ d current j) ∧
      (∀ j, j < u → visited j = false → d current u < d current j)) := by
  induction n with
  | zero => exact Or.inl ⟨rfl, fun j hj => absurd hj (Nat.not_lt_zero j)⟩
  | succ k ih =>
      rw [findNearest_succ]
      rcases ih with ⟨hfk, hall⟩ | ⟨u, hfk, hu, hvu, hne, hle, hlt⟩
      · rw [hfk]
        dsimp only
        by_cases hc : visited k = false ∧ d current k < (⊤ : QInf α)
        · right
          refine ⟨k, by rw [if_pos hc], Nat.lt_succ_self k, hc.1,
            ne_of_lt hc.2, ?_, ?_⟩
          · intro j hj hvj
            rcases Nat.lt_succ_iff_lt_or_eq.1 hj with hj | rfl
            · rcases hall j hj with h | h
              · rw [h] at hvj; cases hvj
              · rw [h]; exact le_top
            · exact le_refl _
          · intro j hj hvj
            rcases hall j hj with h | h
            · rw [h] at hvj; cases hvj
            · rw [h]; exact hc.2
        · left
          refine ⟨by rw [if_neg hc], ?_⟩
          intro j hj
          rcases Nat.lt_succ_iff_lt_or_eq.1 hj with hj | rfl
          · exact hall j hj
          · rcases Bool.eq_false_or_eq_true (visited j) with h | h
            · exact Or.inl h
            · right
              by_contra hne'
              exact hc ⟨h, lt_top_iff_ne_top.2 hne'⟩
      · rw [hfk]
        dsimp only
        by_cases hc : visited k = false ∧ d current k < d current u
        · right
          refine ⟨k, by rw [if_pos hc], Nat.lt_succ_self k, hc.1,
            ne_top_of_lt (lt_of_lt_of_le hc.2 le_top), ?_, ?_⟩
          · intro j hj hvj
            rcases Nat.lt_succ_iff_lt_or_eq.1 hj with hj | rfl
            · exact le_of_lt (lt_of_lt_of_le hc.2 (hle j hj hvj))
            · exact le_refl _
          · intro j hj hvj
            have hjk : j < k := hj
            have hjn : j < k := hjk
            exact lt_of_lt_of_le hc.2 (hle j (lt_of_lt_of_le hjn (Nat.le_of_lt_succ (Nat.lt_succ_self k))) hvj)
        · right
          refine ⟨u, by rw [if_neg hc], Nat.lt_succ_of_lt hu, hvu, hne, ?_, hlt⟩
          intro j hj hvj
          rcases Nat.lt_succ_iff_lt_or_eq.1 hj with hj | rfl
          · exact hle j hj hvj
          · exact le_of_not_lt (fun h' => hc ⟨hvj, h'⟩)

theorem exists_unvisited {p : List ℕ} {n : ℕ} (hn : p.Nodup)
    (hb : ∀ x ∈ p, x < n) (hl : p.length < n) : ∃ j, j < n ∧ j ∉ p := by
  by_contra h
  push_neg at h
  have hsub : Finset.range n ⊆ p.toFinset := fun j hj =>
    List.mem_toFinset.2 (h j (Finset.mem_range.1 hj))
  have hcard := Finset.card_le_card hsub
  rw [Finset.card_range, List.toFinset_card_of_nodup hn] at hcard
  omega

theorem nodup_bounded_mem_all {p : List ℕ} {n : ℕ} (hn : p.Nodup)
    (hb : ∀ x ∈ p, x < n) (hl : p.length = n) : ∀ a, a < n → a ∈ p := by
  by_contra h
  push_neg at h
  obtain ⟨a, ha, hap⟩ := h
  have hsub : p.toFinset ⊆ (Finset.range n).erase a := by
    intro x hx
    have hxp := List.mem_toFinset.1 hx
    exact Finset.mem_erase.2
      ⟨fun he => hap (he ▸ hxp), Finset.mem_range.2 (hb x hxp)⟩
  have hcard := Finset.card_le_card hsub
  rw [List.toFinset_card_of_nodup hn, hl] at hcard
  have herase := Finset.card_erase_of_mem (Finset.mem_range.2 ha)
  rw [Finset.card_range] at herase
  omega

theorem getLastD_cons_cons (a b : ℕ) (t : List ℕ) (dflt : ℕ) :
    (a :: b :: t).getLastD dflt = (b :: t).getLastD dflt := by
  simp [List.getLastD_eq_getLast?, List.getLast?_cons_cons]

theorem consecCost_append (d : Mat α) (p : List ℕ) (x : ℕ) (hp : p ≠ []) :
    consecCost d (p ++ [x]) = consecCost d p + d (p.getLastD 0) x := by
  induction p with
  | nil => exact absurd rfl hp
  | cons a t ih =>
      cases t with
      | nil => simp [consecCost]
      | cons b t' =>
          rw [show ((a :: b :: t' : List ℕ) ++ [x]) = a :: ((b :: t') ++ [x])
              from rfl]
          rw [show consecCost d (a :: ((b :: t') ++ [x]))
              = d a b + consecCost d ((b :: t') ++ [x]) from rfl]
          rw [show consecCost d (a :: b :: t')
              = d a b + consecCost d (b :: t') from rfl]
          rw [ih (by simp), add_assoc, getLastD_cons_cons]

theorem mem_getLastD {p : List ℕ} (hp : p ≠ []) (dflt : ℕ) :
    p.getLastD dflt ∈ p := by
  rw [List.getLastD_eq_getLast?, List.getLast?_eq_getLast p hp]
  exact List.getLast_mem hp

theorem getLastD_eq_getD {p : List ℕ} (hp : p ≠ []) (dflt : ℕ) :
    p.getLastD dflt = p.getD (p.length - 1) dflt := by
  rw [List.getLastD_eq_getLast?, List.getLast?_eq_getElem?,
    List.getD_eq_getElem?_getD]

theorem headD_append {p : List ℕ} (hp : p ≠ []) (x dflt : ℕ) :
    (p ++ [x]).headD dflt = p.headD dflt := by
  cases p with
  | nil => exact absurd rfl hp
  | cons a t => rfl

/-- Greedy selection property of the final path at step `k`: the node at
index `k + 1` is at minimal distance from the node at index `k` among the
nodes not yet visited at that step (the ones outside the first `k + 1`
path entries), ties broken by lowest index. -/
def SelAt (d : Mat α) (n : ℕ) (p : List ℕ) (k : ℕ) : Prop :=
  (∀ j, j < n → j ∉ p.take (k + 1) →
      d (p.getD k 0) (p.getD (k + 1) 0) ≤ d (p.getD k 0) j) ∧
  (∀ j, j < p.getD (k + 1) 0 → j ∉ p.take (k + 1) →
      d (p.getD k 0) (p.getD (k + 1) 0) < d (p.getD k 0) j)

/-- Loop invariant of the greedy solver. -/
structure GreedyInv (d : Mat α) (n : ℕ) (s : GreedyState α) : Prop where
  nodup : s.path.Nodup
  bounded : ∀ x ∈ s.path, x < n
  headzero : s.path.headD 0 = 0
  ne : s.path ≠ []
  visited_iff : ∀ j, s.visited j = true ↔ j ∈ s.path
  cost : s.totalCost = consecCost d s.path
  sel : ∀ k, k + 1 < s.path.length → SelAt d n s.path k

/-- The greedy outer loop after `i` iterations. -/
def greedyFold (d : Mat α) (n i : ℕ) : GreedyState α :=
  (List.range i).foldl (fun s _ => greedyStep d n s) greedyInit

theorem greedyFold_succ (d : Mat α) (n i : ℕ) :
    greedyFold d n (i + 1) = greedyStep d n (greedyFold d n i) := by
  unfold greedyFold
  rw [List.range_succ, List.foldl_append, List.foldl_cons, List.foldl_nil]

theorem greedyInit_inv {d : Mat α} {n : ℕ} (hval : FiniteNonnegMatrix d n) :
    GreedyInv d n (greedyInit (α := α)) := by
  refine ⟨List.nodup_singleton 0, ?_, rfl, ?_, ?_, rfl, ?_⟩
  · intro x hx
    have hx0 : x = 0 := by simpa [greedyInit] using hx
    exact hx0 ▸ hval.1
  · simp [greedyInit]
  · intro j
    simp [greedyInit]
  · intro k hk
    simp [greedyInit] at hk

theorem greedyStep_inv {d : Mat α} {n : ℕ} {s : GreedyState α}
    (hval : FiniteNonnegMatrix d n) (hinv : GreedyInv d n s)
    (hlen : s.path.length < n) :
    GreedyInv d n (greedyStep d n s) ∧
      (greedyStep d n s).path.length = s.path.length + 1 ∧
      (findNearest d n (s.path.getLastD 0) s.visited).1 ≠ none := by
  obtain ⟨j₀, hj₀n, hj₀p⟩ := exists_unvisited hinv.nodup hinv.bounded hlen
  have hcur : s.path.getLastD 0 ∈ s.path := mem_getLastD hinv.ne 0
  have hcurn : s.path.getLastD 0 < n := hinv.bounded _ hcur
  have hvj₀ : s.visited j₀ = false := by
    rcases Bool.eq_false_or_eq_true (s.visited j₀) with h | h
    · exact absurd ((hinv.visited_iff j₀).1 h) hj₀p
    · exact h
  have hdj₀ : d (s.path.getLastD 0) j₀ ≠ ⊤ :=
    (hval.2 _ hcurn _ hj₀n).1
  rcases findNearest_spec d n (s.path.getLastD 0) s.visited with
    ⟨_, hall⟩ | ⟨u, hfk, hun, hvu, hdu, hle, hlt⟩
  · rcases hall j₀ hj₀n with h | h
    · rw [h] at hvj₀; cases hvj₀
    · exact absurd h hdj₀
  · have hup : u ∉ s.path := fun hmem =>
      by rw [(hinv.visited_iff u).2 hmem] at hvu; cases hvu
    have hpath : (greedyStep d n s).path = s.path ++ [u] := by
      simp only [greedyStep, hfk]
    have hvis : (greedyStep d n s).visited
        = fun k => if k = u then true else s.visited k := by
      simp only [greedyStep, hfk]
    have hcost : (greedyStep d n s).totalCost
        = s.totalCost + d (s.path.getLastD 0) u := by
      simp only [greedyStep, hfk]
    refine ⟨⟨?_, ?_, ?_, ?_, ?_, ?_, ?_⟩, ?_, ?_⟩
    · rw [hpath, ← List.concat_eq_append]
      exact hinv.nodup.concat hup
    · rw [hpath]
      intro x hx
      rcases List.mem_append.1 hx with hx | hx
      · exact hinv.bounded x hx
      · rw [List.mem_singleton] at hx
        exact hx ▸ hun
    · rw [hpath, headD_append hinv.ne]
      exact hinv.headzero
    · rw [hpath]
      simp
    · intro j
      rw [hpath, hvis]
      by_cases hju : j = u
      · subst hju
        simp
      · simp only [if_neg hju, List.mem_append, List.mem_singleton]
        rw [hinv.visited_iff j]
        exact ⟨Or.inl, fun h => h.resolve_right hju⟩
    · rw [hpath, hcost, consecCost_append d s.path u hinv.ne, hinv.cost]
    · intro k hk
      rw [hpath] at hk ⊢
      rw [List.length_append, List.length_singleton] at hk
      rcases Nat.lt_succ_iff_lt_or_eq.1 hk with hk | hk
      · -- an old index: everything is computed inside the old path
        have hsel := hinv.sel k hk
        have e1 : (s.path ++ [u]).getD k 0 = s.path.getD k 0 :=
          List.getD_append _ _ _ _ (Nat.lt_of_succ_lt hk)
        have e2 : (s.path ++ [u]).getD (k + 1) 0 = s.path.getD (k + 1) 0 :=
          List.getD_append _ _ _ _ hk
        have e3 : (s.path ++ [u]).take (k + 1) = s.path.take (k + 1) :=
          List.take_append_of_le_length (Nat.le_of_lt hk)
        exact ⟨fun j hj hj' => by
            rw [e1, e2]
            exact hsel.1 j hj (by rwa [e3] at hj'),
          fun j hj hj' => by
            rw [e1, e2]
            refine hsel.2 j ?_ (by rwa [e3] at hj')
            rwa [e2] at hj⟩
      · -- the new index: the freshly appended node
        have hk1 : k = s.path.length - 1 := by omega
        have hkl : k < s.path.length := by omega
        have e1 : (s.path ++ [u]).getD k 0 = s.path.getLastD 0 := by
          rw [List.getD_append _ _ _ _ hkl, hk1,
            ← getLastD_eq_getD hinv.ne]
        have e2 : (s.path ++ [u]).getD (k + 1) 0 = u := by
          rw [hk]
          simp [List.getD_eq_getElem?_getD]
        have e3 : (s.path ++ [u]).take (k + 1) = s.path := by
          rw [hk, List.take_append_of_le_length (le_refl _),
            List.take_length]
        refine ⟨fun j hj hj' => ?_, fun j hj hj' => ?_⟩
        · rw [e1, e2]
          rw [e3] at hj'
          refine hle j hj ?_
          rcases Bool.eq_false_or_eq_true (s.visited j) with h | h
          · exact absurd ((hinv.visited_iff j).1 h) hj'
          · exact h
        · rw [e1, e2]
          rw [e2] at hj
          rw [e3] at hj'
          refine hlt j hj ?_
          rcases Bool.eq_false_or_eq_true (s.visited j) with h | h
          · exact absurd ((hinv.visited_iff j).1 h) hj'
          · exact h
    · rw [hpath, List.length_append, List.length_singleton]
    · rw [hfk]
      exact fun h => Option.noConfusion h

theorem greedyFold_inv {d : Mat α} {n : ℕ} (hval : FiniteNonnegMatrix d n)
    (i : ℕ) (hi : i ≤ n - 1) :
    GreedyInv d n (greedyFold d n i) ∧
      (greedyFold d n i).path.length = i + 1 := by
  induction i with
  | zero => exact ⟨greedyInit_inv hval, rfl⟩
  | succ k ih =>
      have hk : k ≤ n - 1 := Nat.le_of_succ_le hi
      obtain ⟨hinv, hlen⟩ := ih hk
      have hlt : (greedyFold d n k).path.length < n := by
        have h1 := hval.1
        omega
      obtain ⟨hinv', hlen', _⟩ := greedyStep_inv hval hinv hlt
      rw [greedyFold_succ]
      exact ⟨hinv', by rw [hlen', hlen]⟩

theorem greedyTSP_path (d : Mat α) (n : ℕ) (t : ℚ) :
    (greedyTSP d n t).path = (greedyFold d n (n - 1)).path := rfl

theorem greedyTSP_cost (d : Mat α) (n : ℕ) (t : ℚ) :
    (greedyTSP d n t).cost = (greedyFold d n (n - 1)).totalCost +
      d ((greedyFold d n (n - 1)).path.getLastD 0)
        ((greedyFold d n (n - 1)).path.headD 0) := rfl

/-- The greedy path is a permutation of `0 .. n-1` on valid matrices. -/
theorem greedy_path_perm {d : Mat α} {n : ℕ} (hval : ValidMatrix d n)
    (t : ℚ) : (greedyTSP d n t).path.Perm (List.range n) := by
  obtain ⟨hinv, hlen⟩ := greedyFold_inv (validMatrix_finiteNonneg hval) (n - 1) (le_refl _)
  have hlen' : (greedyFold d n (n - 1)).path.length = n := by
    have := hval.1
    omega
  rw [greedyTSP_path]
  refine (List.perm_ext_iff_of_nodup hinv.nodup (List.nodup_range n)).2 ?_
  intro a
  rw [List.mem_range]
  exact ⟨fun h => hinv.bounded a h,
    fun h => nodup_bounded_mem_all hinv.nodup hinv.bounded hlen' a h⟩

/-! ## Claims C6 and C10: the greedy solver -/

/-- Claim C6: on a valid matrix the greedy path starts at node 0, each
successive node is the unvisited node at strictly minimal distance from
the current one (ties broken by lowest index, `SelAt`), and the returned
cost is the sum of the matrix entries between consecutive path nodes plus
the closing edge back to the path head. -/
theorem claim_C6 (d : Mat α) (n : ℕ) (t : ℚ) (hval : ValidMatrix d n) :
    (greedyTSP d n t).path.head? = some 0 ∧
    (∀ k, k + 1 < (greedyTSP d n t).path.length →
      SelAt d n (greedyTSP d n t).path k) ∧
    (greedyTSP d n t).cost
      = consecCost d (greedyTSP d n t).path
        + d ((greedyTSP d n t).path.getLastD 0)
            ((greedyTSP d n t).path.headD 0) := by
  obtain ⟨hinv, _⟩ := greedyFold_inv (validMatrix_finiteNonneg hval) (n - 1) (le_refl _)
  refine ⟨?_, ?_, ?_⟩
  · rw [greedyTSP_path]
    rcases hp : (greedyFold d n (n - 1)).path with _ | ⟨a, tl⟩
    · exact absurd hp hinv.ne
    · have := hinv.headzero
      rw [hp] at this
      simpa using this
  · rw [greedyTSP_path]
    exact hinv.sel
  · rw [greedyTSP_cost, greedyTSP_path, hinv.cost]

/-- The concrete 3-node matrix used to witness the greedy claims. -/
def exMat3 : Mat ℤ := fun i j =>
  if i = j then 0 else if i + j = 3 then 3 else 1

/-- Claim C6 witnessed on a concrete 3-node matrix. -/
theorem claim_C6_witness :
    ValidMatrix exMat3 3 ∧
    ((greedyTSP exMat3 3 0).path.head? = some 0 ∧
      (∀ k, k + 1 < (greedyTSP exMat3 3 0).path.length →
        SelAt exMat3 3 (greedyTSP exMat3 3 0).path k) ∧
      (greedyTSP exMat3 3 0).cost
        = consecCost exMat3 (greedyTSP exMat3 3 0).path
          + exMat3 ((greedyTSP exMat3 3 0).path.getLastD 0)
              ((greedyTSP exMat3 3 0).path.headD 0)) :=
  ⟨by decide, claim_C6 exMat3 3 0 (by decide)⟩

/-- Claim C10: on a square matrix of finite non-negative entries with
`n ≥ 1` (no symmetry or zero-diagonal needed) every greedy iteration
finds an unvisited node (the `-1`/`none` branch is never taken), the
final path has length exactly `n`, and every index used in matrix
lookups — all path entries, in particular the endpoints of the closing
edge — is below `n`. -/
theorem claim_C10 (d : Mat α) (n : ℕ) (t : ℚ)
    (hval : FiniteNonnegMatrix d n) :
    (∀ i, i < n - 1 →
      (findNearest d n ((greedyFold d n i).path.getLastD 0)
        (greedyFold d n i).visited).1 ≠ none) ∧
    (greedyTSP d n t).path.length = n ∧
    (∀ x ∈ (greedyTSP d n t).path, x < n) ∧
    (greedyTSP d n t).path.getLastD 0 < n ∧
    (greedyTSP d n t).path.headD 0 < n := by
  obtain ⟨hinv, hlen⟩ := greedyFold_inv hval (n - 1) (le_refl _)
  have hn1 := hval.1
  have hlenn : (greedyTSP d n t).path.length = n := by
    rw [greedyTSP_path, hlen]
    omega
  refine ⟨?_, hlenn, ?_, ?_, ?_⟩
  · intro i hi
    obtain ⟨hinvi, hleni⟩ := greedyFold_inv hval i (by omega)
    have hlt : (greedyFold d n i).path.length < n := by omega
    exact (greedyStep_inv hval hinvi hlt).2.2
  · rw [greedyTSP_path]
    exact hinv.bounded
  · rw [greedyTSP_path]
    exact hinv.bounded _ (mem_getLastD hinv.ne 0)
  · rw [greedyTSP_path]
    have hh : (greedyFold d n (n - 1)).path.headD 0
        ∈ (greedyFold d n (n - 1)).path := by
      rcases hp : (greedyFold d n (n - 1)).path with _ | ⟨a, tl⟩
      · exact absurd hp hinv.ne
      · simp
    exact hinv.bounded _ hh

/-- An asymmetric 3-node matrix with a nonzero diagonal: finite and
non-negative, but not a `ValidMatrix`. -/
def exMatAsym3 : Mat ℤ := fun i j =>
  if i = j then 2 else if i < j then 1 else 4

/-- Claim C10 witnessed on a concrete asymmetric, nonzero-diagonal
3-node matrix (covered by the claim's precondition but not by
`ValidMatrix`). -/
theorem claim_C10_witness :
    FiniteNonnegMatrix exMatAsym3 3 ∧ ¬ValidMatrix exMatAsym3 3 ∧
    ((∀ i, i < 3 - 1 →
      (findNearest exMatAsym3 3 ((greedyFold exMatAsym3 3 i).path.getLastD 0)
        (greedyFold exMatAsym3 3 i).visited).1 ≠ none) ∧
    (greedyTSP exMatAsym3 3 0).path.length = 3 ∧
    (∀ x ∈ (greedyTSP exMatAsym3 3 0).path, x < 3) ∧
    (greedyTSP exMatAsym3 3 0).path.getLastD 0 < 3 ∧
    (greedyTSP exMatAsym3 3 0).path.headD 0 < 3) :=
  ⟨by decide, by decide, claim_C10 exMatAsym3 3 0 (by decide)⟩

/-! ## Claim C2: the `n > 15` feasibility guard -/

/-- Claim C2: for every distance matrix with `n > 15`, `heldKarpTSP`
returns an empty path, the `Infinity` (`⊤`) sentinel cost, and exactly the
single explanatory guard step, without running the DP sweep. -/
theorem claim_C2 (d : Mat α) (n : ℕ) (t : ℚ) (h : 15 < n) :
    (heldKarpTSP d n t).path = [] ∧ (heldKarpTSP d n t).cost = ⊤ ∧
      (heldKarpTSP d n t).steps = [hkGuardStep] := by
  rw [heldKarpTSP, if_pos h]
  exact ⟨rfl, rfl, rfl⟩

/-- Claim C2, witnessed at `n = 16` on the all-zero matrix. -/
theorem claim_C2_witness :
    15 < 16 ∧
      ((heldKarpTSP (α := ℤ) (fun _ _ => 0) 16 0).path = [] ∧
        (heldKarpTSP (α := ℤ) (fun _ _ => 0) 16 0).cost = ⊤ ∧
        (heldKarpTSP (α := ℤ) (fun _ _ => 0) 16 0).steps = [hkGuardStep]) :=
  ⟨by decide, claim_C2 (fun _ _ => 0) 16 0 (by decide)⟩

/-! ## Claim C8: determinism of path and cost -/

/-- Claim C8: each solver is deterministic in `path` and `cost`: two
invocations on the identical matrix agree on both, even with different
wall-clock readings (the `elapsed` arguments). -/
theorem claim_C8 (d : Mat α) (n : ℕ) (t₁ t₂ : ℚ) :
    (greedyTSP d n t₁).path = (greedyTSP d n t₂).path ∧
    (greedyTSP d n t₁).cost = (greedyTSP d n t₂).cost ∧
    (heldKarpTSP d n t₁).path = (heldKarpTSP d n t₂).path ∧
    (heldKarpTSP d n t₁).cost = (heldKarpTSP d n t₂).cost ∧
    (christofidesTSP d n t₁).path = (christofidesTSP d n t₂).path ∧
    (christofidesTSP d n t₁).cost = (christofidesTSP d n t₂).cost := by
  refine ⟨rfl, rfl, ?_, ?_, rfl, rfl⟩ <;>
    · rw [heldKarpTSP, heldKarpTSP]
      by_cases h : 15 < n <;> simp [h]

/-! ## Claim C7: the single-node instance -/

/-- Claim C7 probe: on the 1×1 zero matrix, `greedyTSP` and
`christofidesTSP` return path `[0]` with cost `0` as the spec demands, but
`heldKarpTSP` returns the empty path with cost `Infinity`: its
best-ending-node scan skips `i = 0`, finds no candidate, and reconstructs
nothing.  This contradicts the spec's single-node scenario and the
solver's own final step text claiming an optimal tour was found. -/
theorem claim_C7_code_bug :
    (greedyTSP (α := ℤ) (fun _ _ => 0) 1 0).path = [0] ∧
    (greedyTSP (α := ℤ) (fun _ _ => 0) 1 0).cost = 0 ∧
    (christofidesTSP (α := ℤ) (fun _ _ => 0) 1 0).path = [0] ∧
    (christofidesTSP (α := ℤ) (fun _ _ => 0) 1 0).cost = 0 ∧
    (heldKarpTSP (α := ℤ) (fun _ _ => 0) 1 0).path = [] ∧
    (heldKarpTSP (α := ℤ) (fun _ _ => 0) 1 0).cost = ⊤ := by
  refine ⟨?_, ?_, ?_, ?_, ?_, ?_⟩ <;> decide

/-! ## Claim C9: termination of `findEulerianCircuit` -/

/-- Claim C9: every iteration of the `findEulerianCircuit` loop either
removes at least one adjacency entry, or pops the stack leaving the
adjacency lists unchanged; hence the lexicographic measure
(total adjacency entries, stack length) strictly decreases, and running
the loop with fuel equal to that (flattened) measure already reaches the
fixed point of the unbounded well-founded loop. -/
theorem claim_C9 (g : List (List ℕ)) (stack circuit : List ℕ)
    (h : stack ≠ []) :
    ((adjTotal (eulerStep g stack circuit).1 < adjTotal g) ∨
      ((eulerStep g stack circuit).1 = g ∧
        (eulerStep g stack circuit).2.1.length < stack.length)) ∧
    Prod.Lex (· < ·) (· < ·)
      (adjTotal (eulerStep g stack circuit).1,
        (eulerStep g stack circuit).2.1.length)
      (adjTotal g, stack.length) ∧
    eulerLoopF (2 * adjTotal g + stack.length) g stack circuit
      = eulerLoop g stack circuit := by
  match stack with
  | [] => exact absurd rfl h
  | v :: rest =>
      have hmain :
          (adjTotal (eulerStep g (v :: rest) circuit).1 < adjTotal g) ∨
            ((eulerStep g (v :: rest) circuit).1 = g ∧
              (eulerStep g (v :: rest) circuit).2.1.length
                < (v :: rest).length) := by
        by_cases hv : g.getD v [] = []
        · right
          simp only [eulerStep, if_pos hv, List.length_cons]
          simp
        · left
          simp only [eulerStep, if_neg hv]
          have hvlt : v < g.length := getD_ne_nil_lt hv
          have hlen : (g.getD v []).length
              = (g.getD v []).dropLast.length + 1 := by
            have h1 := List.length_dropLast (g.getD v [])
            have h2 : 1 ≤ (g.getD v []).length :=
              Nat.succ_le_of_lt (List.length_pos.2 hv)
            omega
          have h1 : adjTotal (g.set v (g.getD v []).dropLast) + 1
              = adjTotal g := by
            have := adjTotal_set g v (g.getD v []).dropLast hvlt
            omega
          have h2 := adjTotal_set_le (g.set v (g.getD v []).dropLast)
            ((g.getD v []).getLastD 0)
            (((g.set v (g.getD v []).dropLast).getD
              ((g.getD v []).getLastD 0) []).erase v)
            ((List.erase_sublist _ _).length_le)
          omega
      refine ⟨hmain, ?_, ?_⟩
      · rcases hmain with hlt | ⟨heq, hlt⟩
        · exact Prod.Lex.left _ _ hlt
        · rw [heq]
          exact Prod.Lex.right _ hlt
      · exact eulerLoopF_eq_eulerLoop _ _ _ _ le_rfl

/-- Claim C9, witnessed on the two-vertex multigraph with a single edge. -/
theorem claim_C9_witness :
    ([0] ≠ ([] : List ℕ)) ∧
    (((adjTotal (eulerStep [[1], [0]] [0] []).1 < adjTotal [[1], [0]]) ∨
      ((eulerStep [[1], [0]] [0] []).1 = [[1], [0]] ∧
        (eulerStep [[1], [0]] [0] []).2.1.length < [0].length)) ∧
    Prod.Lex (· < ·) (· < ·)
      (adjTotal (eulerStep [[1], [0]] [0] []).1,
        (eulerStep [[1], [0]] [0] []).2.1.length)
      (adjTotal [[1], [0]], [0].length) ∧
    eulerLoopF (2 * adjTotal [[1], [0]] + [0].length) [[1], [0]] [0] []
      = eulerLoop [[1], [0]] [0] []) :=
  ⟨by decide, claim_C9 [[1], [0]] [0] [] (by decide)⟩

/-! ## Machinery for the Held-Karp solver: bit lemmas -/

theorem testBit_shiftLeft_one (c x : ℕ) :
    (1 <<< c).testBit x = decide (c = x) := by
  rw [Nat.shiftLeft_eq, one_mul, Nat.testBit_two_pow]

theorem lor_two_pow_lt {m c n : ℕ} (hm : m < 2 ^ n) (hc : c < n) :
    (m ||| (1 <<< c)) < 2 ^ n := by
  apply Nat.lt_pow_two_of_testBit
  intro i hi
  rw [Nat.testBit_lor, testBit_shiftLeft_one,
    Nat.testBit_lt_two_pow
      (lt_of_lt_of_le hm (Nat.pow_le_pow_right (by norm_num) hi))]
  simp only [Bool.false_or, decide_eq_false_iff_not]
  omega

theorem lt_lor_two_pow {m c : ℕ} (h : m.testBit c = false) :
    m < m ||| (1 <<< c) := by
  refine Nat.lt_of_testBit c h ?_ ?_
  · rw [Nat.testBit_lor, testBit_shiftLeft_one, h]
    simp
  · intro j hj
    rw [Nat.testBit_lor, testBit_shiftLeft_one]
    have hcj : ¬(c = j) := by omega
    simp [hcj]

theorem testBit_lor_two_pow (m c x : ℕ) :
    (m ||| (1 <<< c)).testBit x = (m.testBit x || decide (c = x)) := by
  rw [Nat.testBit_lor, testBit_shiftLeft_one]

theorem lor_two_pow_xor {m c : ℕ} (h : m.testBit c = false) :
    (m ||| (1 <<< c)) ^^^ (1 <<< c) = m := by
  apply Nat.eq_of_testBit_eq
  intro i
  rw [Nat.testBit_xor, Nat.testBit_lor, testBit_shiftLeft_one]
  by_cases hic : c = i
  · subst hic
    rw [h]
    simp
  · simp [hic]

theorem testBit_xor_two_pow (m c x : ℕ) :
    (m ^^^ (1 <<< c)).testBit x
      = if x = c then !(m.testBit c) else m.testBit x := by
  rw [Nat.testBit_xor, testBit_shiftLeft_one]
  by_cases hxc : x = c
  · subst hxc
    simp
  · have hcx : ¬(c = x) := fun h => hxc h.symm
    simp [hcx, hxc]

theorem xor_two_pow_lt_self {m c : ℕ} (h : m.testBit c = true) :
    m ^^^ (1 <<< c) < m := by
  refine Nat.lt_of_testBit c ?_ h ?_
  · rw [testBit_xor_two_pow, if_pos rfl, h]
    rfl
  · intro j hj
    rw [testBit_xor_two_pow, if_neg (by omega)]

theorem xor_two_pow_lt_two_pow {m c n : ℕ} (hm : m < 2 ^ n) (hc : c < n) :
    (m ^^^ (1 <<< c)) < 2 ^ n := by
  apply Nat.lt_pow_two_of_testBit
  intro i hi
  rw [testBit_xor_two_pow, if_neg (by omega),
    Nat.testBit_lt_two_pow
      (lt_of_lt_of_le hm (Nat.pow_le_pow_right (by norm_num) hi))]

theorem testBit_one_eq (x : ℕ) : (1 : ℕ).testBit x = decide (x = 0) := by
  have h : (1 : ℕ) = 1 <<< 0 := rfl
  rw [h, testBit_shiftLeft_one]
  simp [eq_comm]

theorem testBit_implies_lt {m x n : ℕ} (hm : m < 2 ^ n)
    (h : m.testBit x = true) : x < n := by
  by_contra hx
  rw [Nat.testBit_lt_two_pow
    (lt_of_lt_of_le hm
      (Nat.pow_le_pow_right (by norm_num) (Nat.le_of_not_lt hx)))] at h
  cases h

theorem testBit_full_mask {n x : ℕ} :
    ((1 <<< n) - 1).testBit x = decide (x < n) := by
  rw [Nat.shiftLeft_eq, one_mul, Nat.testBit_two_pow_sub_one]

/-! ## Machinery for the Held-Karp solver: generic fold lemmas -/

theorem foldl_hk_preserve {β : Type} {P : HKState α → Prop}
    (f : HKState α → β → HKState α) (xs : List β) (st : HKState α)
    (hf : ∀ s b, b ∈ xs → P s → P (f s b)) (hst : P st) :
    P (xs.foldl f st) := by
  induction xs generalizing st with
  | nil => exact hst
  | cons x xs ih =>
      exact ih (f st x) (fun s b hb => hf s b (List.mem_cons_of_mem _ hb))
        (hf st x (List.mem_cons_self _ _) hst)

theorem foldl_hk_dp_le {β : Type} (f : HKState α → β → HKState α)
    (xs : List β) (st : HKState α)
    (hf : ∀ s b, ∀ m l, (f s b).dp m l ≤ s.dp m l) (m l : ℕ) :
    (xs.foldl f st).dp m l ≤ st.dp m l := by
  induction xs generalizing st with
  | nil => exact le_refl _
  | cons x xs ih => exact le_trans (ih (f st x)) (hf st x m l)

theorem foldl_hk_frozen {β : Type} (f : HKState α → β → HKState α)
    (xs : List β) (st : HKState α) (M : ℕ)
    (hf : ∀ s b, b ∈ xs → ∀ m, m ≤ M → ∀ l,
      (f s b).dp m l = s.dp m l ∧ (f s b).parent m l = s.parent m l)
    (m : ℕ) (hm : m ≤ M) (l : ℕ) :
    (xs.foldl f st).dp m l = st.dp m l ∧
      (xs.foldl f st).parent m l = st.parent m l := by
  induction xs generalizing st with
  | nil => exact ⟨rfl, rfl⟩
  | cons x xs ih =>
      have h1 := hf st x (List.mem_cons_self _ _) m hm l
      have h2 := ih (f st x) (fun s b hb => hf s b (List.mem_cons_of_mem _ hb))
      exact ⟨h2.1.trans h1.1, h2.2.trans h1.2⟩

/-! ## Machinery for the Held-Karp solver: `hkRelax` -/

theorem hkRelax_dp_le (d : Mat α) (mask last : ℕ) (st : HKState α)
    (next m l : ℕ) : (hkRelax d mask last st next).dp m l ≤ st.dp m l := by
  simp only [hkRelax]
  by_cases h1 : mask.testBit next
  · rw [if_pos h1]
  · rw [if_neg h1]
    by_cases h2 : st.dp mask last + d last next
        < st.dp (mask ||| 1 <<< next) next
    · rw [if_pos h2]
      dsimp only
      by_cases h3 : m = mask ||| 1 <<< next ∧ l = next
      · rw [if_pos h3, h3.1, h3.2]
        exact le_of_lt h2
      · rw [if_neg h3]
    · rw [if_neg h2]

theorem hkRelax_frozen (d : Mat α) (mask last : ℕ) (st : HKState α)
    (next m : ℕ) (hm : m ≤ mask) (l : ℕ) :
    (hkRelax d mask last st next).dp m l = st.dp m l ∧
      (hkRelax d mask last st next).parent m l = st.parent m l := by
  simp only [hkRelax]
  by_cases h1 : mask.testBit next
  · rw [if_pos h1]
    exact ⟨rfl, rfl⟩
  · rw [if_neg h1]
    by_cases h2 : st.dp mask last + d last next
        < st.dp (mask ||| 1 <<< next) next
    · rw [if_pos h2]
      have hne : ¬(m = mask ||| 1 <<< next ∧ l = next) := by
        intro hc
        have hlt := lt_lor_two_pow (m := mask) (c := next)
          (Bool.eq_false_iff.2 h1)
        omega
      exact ⟨by dsimp only; rw [if_neg hne],
        by dsimp only; rw [if_neg hne]⟩
    · rw [if_neg h2]
      exact ⟨rfl, rfl⟩

theorem hkRelax_tri (d : Mat α) (mask last : ℕ) (st : HKState α)
    (next : ℕ) (h : mask.testBit next = false) :
    (hkRelax d mask last st next).dp (mask ||| (1 <<< next)) next
      ≤ st.dp mask last + d last next := by
  simp only [hkRelax]
  rw [if_neg (by rw [h]; exact Bool.false_ne_true)]
  by_cases h2 : st.dp mask last + d last next
      < st.dp (mask ||| 1 <<< next) next
  · rw [if_pos h2]
    dsimp only
    rw [if_pos ⟨rfl, rfl⟩]
  · rw [if_neg h2]
    exact le_of_not_lt h2

/-! ## Machinery for the Held-Karp solver: `hkInner`, `hkBody`, `hkRun` -/

/-- The body of the outer mask loop: run the `last` loop on one mask. -/
def hkBody (d : Mat α) (n : ℕ) (st : HKState α) (mask : ℕ) : HKState α :=
  (List.range n).foldl (hkInner d n mask) st

/-- The outer mask loop stopped after the masks `1 .. k`. -/
def hkRunPartial (d : Mat α) (n k : ℕ) : HKState α :=
  (List.range' 1 k).foldl (hkBody d n) hkInit

theorem hkRun_eq_partialRun (d : Mat α) (n : ℕ) :
    hkRun d n = hkRunPartial d n (2 ^ n - 1) := rfl

theorem hkRunPartial_succ (d : Mat α) (n k : ℕ) :
    hkRunPartial d n (k + 1) = hkBody d n (hkRunPartial d n k) (k + 1) := by
  unfold hkRunPartial
  rw [List.range'_concat, List.foldl_append, List.foldl_cons, List.foldl_nil]
  congr 1
  omega

theorem hkInner_dp_le (d : Mat α) (n mask : ℕ) (st : HKState α)
    (last m l : ℕ) : (hkInner d n mask st last).dp m l ≤ st.dp m l := by
  simp only [hkInner]
  by_cases h1 : ¬ mask.testBit last
  · rw [if_pos h1]
  · rw [if_neg h1]
    by_cases h2 : st.dp mask last = ⊤
    · rw [if_pos h2]
    · rw [if_neg h2]
      exact foldl_hk_dp_le _ _ _
        (fun s b m' l' => hkRelax_dp_le d mask last s b m' l') m l

theorem hkInner_frozen (d : Mat α) (n mask : ℕ) (st : HKState α)
    (last m : ℕ) (hm : m ≤ mask) (l : ℕ) :
    (hkInner d n mask st last).dp m l = st.dp m l ∧
      (hkInner d n mask st last).parent m l = st.parent m l := by
  simp only [hkInner]
  by_cases h1 : ¬ mask.testBit last
  · rw [if_pos h1]
    exact ⟨rfl, rfl⟩
  · rw [if_neg h1]
    by_cases h2 : st.dp mask last = ⊤
    · rw [if_pos h2]
      exact ⟨rfl, rfl⟩
    · rw [if_neg h2]
      exact foldl_hk_frozen _ _ _ mask
        (fun s b _ m' hm' l' => hkRelax_frozen d mask last s b m' hm' l')
        m hm l

theorem hkBody_dp_le (d : Mat α) (n : ℕ) (st : HKState α) (mask m l : ℕ) :
    (hkBody d n st mask).dp m l ≤ st.dp m l :=
  foldl_hk_dp_le _ _ _
    (fun s b m' l' => hkInner_dp_le d n mask s b m' l') m l

theorem hkBody_frozen (d : Mat α) (n : ℕ) (st : HKState α) (mask m : ℕ)
    (hm : m ≤ mask) (l : ℕ) :
    (hkBody d n st mask).dp m l = st.dp m l ∧
      (hkBody d n st mask).parent m l = st.parent m l :=
  foldl_hk_frozen _ _ _ mask
    (fun s b _ m' hm' l' => hkInner_frozen d n mask s b m' hm' l') m hm l

/-- After the `last` loop body for one `(mask, last)`, the relaxation
inequality into every `next ∉ mask` holds relative to the (unchanged)
value of `dp mask last`. -/
theorem hkInner_after (d : Mat α) (n mask : ℕ) (st : HKState α)
    (last next : ℕ) (hbl : mask.testBit last = true)
    (hbn : mask.testBit next = false) (hnext : next < n) :
    (hkInner d n mask st last).dp (mask ||| (1 <<< next)) next
      ≤ st.dp mask last + d last next := by
  simp only [hkInner]
  rw [if_neg (by simp [hbl])]
  by_cases hdp : st.dp mask last = ⊤
  · rw [if_pos hdp, hdp, top_add]
    exact le_top
  · rw [if_neg hdp]
    obtain ⟨s, t, hsplit⟩ := List.append_of_mem (List.mem_range.2 hnext)
    rw [hsplit, List.foldl_append, List.foldl_cons]
    have hfrozen := foldl_hk_frozen (hkRelax d mask last) s st mask
      (fun s' b _ m' hm' l' => hkRelax_frozen d mask last s' b m' hm' l')
      mask (le_refl _) last
    have htri := hkRelax_tri d mask last
      (s.foldl (hkRelax d mask last) st) next hbn
    rw [hfrozen.1] at htri
    exact le_trans
      (foldl_hk_dp_le _ _ _
        (fun s' b m' l' => hkRelax_dp_le d mask last s' b m' l') _ _)
      htri

/-- Relaxation inequality of the final table, relative to one mask. -/
def HKTri (d : Mat α) (n : ℕ) (st : HKState α) (mask : ℕ) : Prop :=
  ∀ last next, mask.testBit last = true → mask.testBit next = false →
    next < n →
    st.dp (mask ||| (1 <<< next)) next ≤ st.dp mask last + d last next

theorem hkBody_tri (d : Mat α) (n : ℕ) (st : HKState α) (mask : ℕ)
    (hm2n : mask < 2 ^ n) : HKTri d n (hkBody d n st mask) mask := by
  intro last next hbl hbn hnext
  have hlast : last < n := testBit_implies_lt hm2n hbl
  obtain ⟨s, t, hsplit⟩ := List.append_of_mem (List.mem_range.2 hlast)
  unfold hkBody
  rw [hsplit, List.foldl_append, List.foldl_cons]
  have hfrozen1 := foldl_hk_frozen (hkInner d n mask) s st mask
    (fun s' b _ m' hm' l' => hkInner_frozen d n mask s' b m' hm' l')
    mask (le_refl _) last
  have hfrozen2 := hkInner_frozen d n mask
    (s.foldl (hkInner d n mask) st) last mask (le_refl _) last
  have hfrozen3 := foldl_hk_frozen (hkInner d n mask) t
    (hkInner d n mask (s.foldl (hkInner d n mask) st) last) mask
    (fun s' b _ m' hm' l' => hkInner_frozen d n mask s' b m' hm' l')
    mask (le_refl _) last
  have hafter := hkInner_after d n mask (s.foldl (hkInner d n mask) st)
    last next hbl hbn hnext
  rw [hfrozen1.1] at hafter
  rw [hfrozen3.1, hfrozen2.1, hfrozen1.1]
  exact le_trans
    (foldl_hk_dp_le _ _ _
      (fun s' b m' l' => hkInner_dp_le d n mask s' b m' l') _ _)
    hafter

theorem hkRunPartial_tri (d : Mat α) (n : ℕ) (k : ℕ) :
    k < 2 ^ n →
    ∀ mask, 1 ≤ mask → mask ≤ k → HKTri d n (hkRunPartial d n k) mask := by
  induction k with
  | zero => intro hk mask h1 h0; omega
  | succ k ih =>
      intro hk mask h1 hmk
      rw [hkRunPartial_succ]
      rcases Nat.lt_succ_iff_lt_or_eq.1 (Nat.lt_succ_of_le hmk) with hm | rfl
      · intro last next hbl hbn hnext
        have htri := ih (by omega) mask h1 (by omega) last next hbl hbn hnext
        have hfr := hkBody_frozen d n (hkRunPartial d n k) (k + 1) mask
          (by omega) last
        rw [hfr.1]
        exact le_trans (hkBody_dp_le d n _ _ _ _) htri
      · exact hkBody_tri d n _ _ hk

theorem hkRun_tri (d : Mat α) (n : ℕ) :
    ∀ mask, 1 ≤ mask → mask < 2 ^ n → HKTri d n (hkRun d n) mask := by
  intro mask h1 h2
  rw [hkRun_eq_partialRun]
  have hpos : 0 < 2 ^ n := Nat.pos_pow_of_pos n (by norm_num)
  exact hkRunPartial_tri d n (2 ^ n - 1) (by omega) mask h1 (by omega)

/-! ## Machinery for the Held-Karp solver: the DP invariant -/

/-- Structural invariant of the DP tables: the base cell is pinned, every
finite cell lies inside a well-formed mask containing its endpoint and
node 0, and every finite non-base cell has a parent pointer into a finite
cell of the mask with its own bit removed. -/
def HKInv (n : ℕ) (st : HKState α) : Prop :=
  st.dp 1 0 = 0 ∧ st.parent 1 0 = none ∧
  (∀ m l, st.dp m l ≠ ⊤ →
    m.testBit l = true ∧ m.testBit 0 = true ∧ l < n ∧ m < 2 ^ n) ∧
  (∀ m l, st.dp m l ≠ ⊤ → m ≠ 1 → ∃ p, st.parent m l = some p ∧
    m.testBit p = true ∧ p ≠ l ∧ p < n ∧
    st.dp (m ^^^ (1 <<< l)) p ≠ ⊤)

theorem hkInit_inv (n : ℕ) (hn : 1 ≤ n) : HKInv n (hkInit (α := α)) := by
  refine ⟨by simp [hkInit], rfl, ?_, ?_⟩
  · intro m l hml
    simp only [hkInit] at hml
    by_cases h : m = 1 ∧ l = 0
    · obtain ⟨rfl, rfl⟩ := h
      refine ⟨by decide, by decide, hn, ?_⟩
      have := Nat.one_lt_two_pow_iff.2 (by omega : n ≠ 0)
      omega
    · rw [if_neg h] at hml
      exact absurd rfl hml
  · intro m l hml hm1
    simp only [hkInit] at hml
    by_cases h : m = 1 ∧ l = 0
    · exact absurd h.1 hm1
    · rw [if_neg h] at hml
      exact absurd rfl hml

theorem hkRelax_inv {d : Mat α} {n : ℕ} (mask last : ℕ) {st : HKState α}
    (next : ℕ) (hnext : next < n) (hinv : HKInv n st) :
    HKInv n (hkRelax d mask last st next) := by
  simp only [hkRelax]
  by_cases h1 : mask.testBit next
  · rw [if_pos h1]
    exact hinv
  · rw [if_neg h1]
    by_cases h2 : st.dp mask last + d last next
        < st.dp (mask ||| 1 <<< next) next
    · rw [if_pos h2]
      have hb1 : mask.testBit next = false := Bool.eq_false_iff.2 h1
      have hcne : st.dp mask last + d last next ≠ ⊤ := ne_top_of_lt h2
      have hdpml : st.dp mask last ≠ ⊤ := by
        intro h
        rw [h, top_add] at hcne
        exact hcne rfl
      obtain ⟨hbl, hb0, hln, hm2n⟩ := hinv.2.2.1 mask last hdpml
      have hmlt : mask < mask ||| 1 <<< next := lt_lor_two_pow hb1
      have hnot10 : ¬((1 : ℕ) = mask ||| 1 <<< next ∧ (0 : ℕ) = next) := by
        rintro ⟨h10, hnext0⟩
        rw [← hnext0] at hb1
        rw [hb0] at hb1
        cases hb1
      refine ⟨?_, ?_, ?_, ?_⟩
      · dsimp only
        rw [if_neg hnot10]
        exact hinv.1
      · dsimp only
        rw [if_neg hnot10]
        exact hinv.2.1
      · intro m l hml
        dsimp only at hml
        by_cases hc : m = mask ||| 1 <<< next ∧ l = next
        · obtain ⟨rfl, rfl⟩ := hc
          refine ⟨by rw [testBit_lor_two_pow]; simp, ?_, hnext,
            lor_two_pow_lt hm2n hnext⟩
          rw [testBit_lor_two_pow, hb0]
          rfl
        · rw [if_neg hc] at hml
          exact hinv.2.2.1 m l hml
      · intro m l hml hm1
        dsimp only at hml ⊢
        by_cases hc : m = mask ||| 1 <<< next ∧ l = next
        · obtain ⟨rfl, rfl⟩ := hc
          refine ⟨last, by rw [if_pos ⟨rfl, rfl⟩], ?_, ?_, hln, ?_⟩
          · rw [testBit_lor_two_pow, hbl]
            rfl
          · intro he
            rw [he] at hbl
            rw [hbl] at hb1
            cases hb1
          · rw [lor_two_pow_xor hb1]
            rw [if_neg (by
              rintro ⟨hmeq, -⟩
              omega)]
            exact hdpml
        · rw [if_neg hc] at hml
          obtain ⟨p, hp, hbp, hpl, hpn, hdp⟩ := hinv.2.2.2 m l hml hm1
          refine ⟨p, by rw [if_neg hc]; exact hp, hbp, hpl, hpn, ?_⟩
          by_cases hc2 : m ^^^ 1 <<< l = mask ||| 1 <<< next ∧ p = next
          · rw [if_pos hc2]
            exact hcne
          · rw [if_neg hc2]
            exact hdp
    · rw [if_neg h2]
      exact hinv

theorem hkInner_inv {d : Mat α} {n : ℕ} (mask : ℕ) {st : HKState α}
    (last : ℕ) (hinv : HKInv n st) :
    HKInv n (hkInner d n mask st last) := by
  simp only [hkInner]
  by_cases h1 : ¬ mask.testBit last
  · rw [if_pos h1]
    exact hinv
  · rw [if_neg h1]
    by_cases h2 : st.dp mask last = ⊤
    · rw [if_pos h2]
      exact hinv
    · rw [if_neg h2]
      exact foldl_hk_preserve _ _ _
        (fun s b hb h =>
          hkRelax_inv mask last b (List.mem_range.1 hb) h) hinv

theorem hkRun_inv (d : Mat α) (n : ℕ) (hn : 1 ≤ n) :
    HKInv n (hkRun d n) := by
  rw [hkRun_eq_partialRun]
  unfold hkRunPartial
  refine foldl_hk_preserve _ _ _ (fun s b _ h => ?_) (hkInit_inv n hn)
  unfold hkBody
  exact foldl_hk_preserve _ _ _ (fun s' b' _ h' => hkInner_inv b b' h') h

/-! ## Machinery for the Held-Karp solver: best ending node -/

/-- `hkBest` with the full mask abstracted and the scan cut at `k`. -/
def hkBestAux (d : Mat α) (full : ℕ) (dp : ℕ → ℕ → QInf α) (k : ℕ) :
    QInf α × Option ℕ :=
  (List.range k).foldl
    (fun acc i =>
      if i = 0 then acc
      else
        let cost := dp full i + d i 0
        if cost < acc.1 then (cost, some i) else acc)
    (⊤, none)

theorem hkBest_eq_aux (d : Mat α) (n : ℕ) (dp : ℕ → ℕ → QInf α) :
    hkBest d n dp = hkBestAux d ((1 <<< n) - 1) dp n := rfl

theorem hkBestAux_succ (d : Mat α) (full : ℕ) (dp : ℕ → ℕ → QInf α)
    (k : ℕ) :
    hkBestAux d full dp (k + 1) =
      (fun acc i =>
        if i = 0 then acc
        else
          let cost := dp full i + d i 0
          if cost < acc.1 then (cost, some i) else acc)
        (hkBestAux d full dp k) k := by
  unfold hkBestAux
  rw [List.range_succ, List.foldl_append, List.foldl_cons, List.foldl_nil]

theorem hkBestAux_spec (d : Mat α) (full : ℕ) (dp : ℕ → ℕ → QInf α)
    (k : ℕ) :
    (∀ i, 1 ≤ i → i < k → (hkBestAux d full dp k).1 ≤ dp full i + d i 0) ∧
    (hkBestAux d full dp k = (⊤, none) ∨
      ∃ i, 1 ≤ i ∧ i < k ∧
        hkBestAux d full dp k = (dp full i + d i 0, some i)) := by
  induction k with
  | zero => exact ⟨fun i h1 h0 => absurd h0 (by omega), Or.inl rfl⟩
  | succ k ih =>
      obtain ⟨ihle, ihshape⟩ := ih
      rw [hkBestAux_succ]
      dsimp only
      by_cases hk0 : k = 0
      · rw [if_pos hk0]
        refine ⟨fun i h1 hik => ?_, ?_⟩
        · have hik' : i < k := by omega
          exact ihle i h1 hik'
        · rcases ihshape with h | ⟨i, h1, hik, heq⟩
          · exact Or.inl h
          · exact Or.inr ⟨i, h1, by omega, heq⟩
      · rw [if_neg hk0]
        by_cases hc : dp full k + d k 0 < (hkBestAux d full dp k).1
        · rw [if_pos hc]
          refine ⟨fun i h1 hik => ?_, ?_⟩
          · rcases Nat.lt_succ_iff_lt_or_eq.1 hik with hik | rfl
            · exact le_of_lt (lt_of_lt_of_le hc (ihle i h1 hik))
            · exact le_refl _
          · exact Or.inr ⟨k, by omega, Nat.lt_succ_self k, rfl⟩
        · rw [if_neg hc]
          refine ⟨fun i h1 hik => ?_, ?_⟩
          · rcases Nat.lt_succ_iff_lt_or_eq.1 hik with hik | rfl
            · exact ihle i h1 hik
            · exact le_of_not_lt hc
          · rcases ihshape with h | ⟨i, h1, hik, heq⟩
            · exact Or.inl h
            · exact Or.inr ⟨i, h1, by omega, heq⟩

/-! ## Machinery for the Held-Karp solver: path reconstruction -/

/-- Number of set bits of `m` below `n`. -/
def cardBits (m n : ℕ) : ℕ :=
  ((Finset.range n).filter (fun i => m.testBit i = true)).card

theorem cardBits_pos {m n c : ℕ} (hc : c < n) (hb : m.testBit c = true) :
    0 < cardBits m n :=
  Finset.card_pos.2
    ⟨c, Finset.mem_filter.2 ⟨Finset.mem_range.2 hc, hb⟩⟩

theorem cardBits_xor {m n c : ℕ} (hc : c < n) (hb : m.testBit c = true) :
    cardBits (m ^^^ (1 <<< c)) n = cardBits m n - 1 := by
  unfold cardBits
  have hset : (Finset.range n).filter
        (fun i => (m ^^^ (1 <<< c)).testBit i = true)
      = ((Finset.range n).filter (fun i => m.testBit i = true)).erase c := by
    ext x
    rw [Finset.mem_erase, Finset.mem_filter, Finset.mem_filter,
      testBit_xor_two_pow]
    constructor
    · rintro ⟨hx, hbx⟩
      by_cases hxc : x = c
      · rw [if_pos hxc, hb] at hbx
        cases hbx
      · rw [if_neg hxc] at hbx
        exact ⟨hxc, hx, hbx⟩
    · rintro ⟨hxc, hx, hbx⟩
      rw [if_neg hxc]
      exact ⟨hx, hbx⟩
  rw [hset, Finset.card_erase_of_mem
    (Finset.mem_filter.2 ⟨Finset.mem_range.2 hc, hb⟩)]

/-- Walking the parent pointers from a finite cell `(mask, c)` pushes
exactly the bits of `mask`, each once. -/
theorem hkRebuild_chain {n : ℕ} {st : HKState α} (hinv : HKInv n st) :
    ∀ fuel mask c acc, mask.testBit c = true → st.dp mask c ≠ ⊤ →
      mask < 2 ^ n → cardBits mask n ≤ fuel →
      ∃ l, hkRebuild st.parent fuel mask (some c) acc = acc ++ l ∧
        l.Nodup ∧ ∀ x, x ∈ l ↔ mask.testBit x = true := by
  intro fuel
  induction fuel with
  | zero =>
      intro mask c acc hbc hdp hm2n hcard
      have hc : c < n := (hinv.2.2.1 mask c hdp).2.2.1
      have := cardBits_pos hc hbc
      omega
  | succ fuel ih =>
      intro mask c acc hbc hdp hm2n hcard
      rw [hkRebuild]
      by_cases hm1 : mask = 1
      · subst hm1
        have hc0 : c = 0 := by
          rw [testBit_one_eq] at hbc
          exact of_decide_eq_true hbc
        subst hc0
        rw [hinv.2.1]
        refine ⟨[0], ?_, List.nodup_singleton 0, ?_⟩
        · cases fuel with
          | zero => rfl
          | succ f => rfl
        · intro x
          rw [testBit_one_eq]
          simp
      · obtain ⟨p, hp, hbp, hpc, hpn, hdp'⟩ := hinv.2.2.2 mask c hdp hm1
        rw [hp]
        have hc : c < n := (hinv.2.2.1 mask c hdp).2.2.1
        have hbp' : (mask ^^^ (1 <<< c)).testBit p = true := by
          rw [testBit_xor_two_pow, if_neg hpc]
          exact hbp
        have hm2n' : (mask ^^^ (1 <<< c)) < 2 ^ n :=
          xor_two_pow_lt_two_pow hm2n hc
        have hcard' : cardBits (mask ^^^ (1 <<< c)) n ≤ fuel := by
          rw [cardBits_xor hc hbc]
          have := cardBits_pos hc hbc
          omega
        obtain ⟨l', hl', hnd, hmem⟩ :=
          ih (mask ^^^ (1 <<< c)) p (acc ++ [c]) hbp' hdp' hm2n' hcard'
        refine ⟨c :: l', ?_, ?_, ?_⟩
        · rw [hl', List.append_assoc]
          rfl
        · rw [List.nodup_cons]
          refine ⟨fun hcl => ?_, hnd⟩
          have hcb := (hmem c).1 hcl
          rw [testBit_xor_two_pow, if_pos rfl, hbc] at hcb
          cases hcb
        · intro x
          rw [List.mem_cons]
          constructor
          · rintro (rfl | hx)
            · exact hbc
            · have hxb := (hmem x).1 hx
              rw [testBit_xor_two_pow] at hxb
              by_cases hxc : x = c
              · rw [hxc]
                exact hbc
              · rw [if_neg hxc] at hxb
                exact hxb
          · intro hbx
            by_cases hxc : x = c
            · exact Or.inl hxc
            · right
              rw [hmem x, testBit_xor_two_pow, if_neg hxc]
              exact hbx

/-! ## Machinery for the Held-Karp solver: masks of visited prefixes -/

/-- Bitmask of a list of nodes. -/
def maskOf (l : List ℕ) : ℕ :=
  l.foldl (fun m x => m ||| (1 <<< x)) 0

theorem maskOf_aux_testBit (l : List ℕ) (acc x : ℕ) :
    (l.foldl (fun m y => m ||| (1 <<< y)) acc).testBit x = true ↔
      acc.testBit x = true ∨ x ∈ l := by
  induction l generalizing acc with
  | nil => simp
  | cons a t ih =>
      rw [List.foldl_cons, ih, testBit_lor_two_pow]
      constructor
      · rintro (h | h)
        · rcases Bool.or_eq_true_iff.1 h with h | h
          · exact Or.inl h
          · exact Or.inr (by
              rw [List.mem_cons]
              exact Or.inl (of_decide_eq_true h).symm)
        · exact Or.inr (List.mem_cons_of_mem a h)
      · rintro (h | h)
        · exact Or.inl (by rw [h]; simp)
        · rcases List.mem_cons.1 h with rfl | h
          · exact Or.inl (by simp)
          · exact Or.inr h

theorem maskOf_testBit (l : List ℕ) (x : ℕ) :
    (maskOf l).testBit x = true ↔ x ∈ l := by
  unfold maskOf
  rw [maskOf_aux_testBit, Nat.zero_testBit]
  simp

theorem maskOf_lt {l : List ℕ} {n : ℕ} (h : ∀ x ∈ l, x < n) :
    maskOf l < 2 ^ n := by
  apply Nat.lt_pow_two_of_testBit
  intro i hi
  rcases Bool.eq_false_or_eq_true ((maskOf l).testBit i) with hb | hb
  · have := h i ((maskOf_testBit l i).1 hb)
    omega
  · exact hb

theorem maskOf_append (q : List ℕ) (x : ℕ) :
    maskOf (q ++ [x]) = maskOf q ||| (1 <<< x) := by
  unfold maskOf
  rw [List.foldl_append, List.foldl_cons, List.foldl_nil]

theorem getLastD_concat (q : List ℕ) (x dflt : ℕ) :
    (q ++ [x]).getLastD dflt = x := by
  rw [List.getLastD_eq_getLast?, List.getLast?_concat]
  rfl

/-- The final DP table underestimates the cost of every simple path that
starts at node 0: `dp (maskOf q) (last q) ≤ consecCost q`. -/
theorem hk_dp_le_path (d : Mat α) (n : ℕ) (hval : ValidMatrix d n) :
    ∀ q : List ℕ, q ≠ [] → q.headD 0 = 0 → q.Nodup → (∀ y ∈ q, y < n) →
      (hkRun d n).dp (maskOf q) (q.getLastD 0) ≤ consecCost d q := by
  intro q
  induction q using List.reverseRecOn with
  | nil => intro h; exact absurd rfl h
  | append_singleton q x ih =>
      intro _ hhead hnodup hbound
      by_cases hq : q = []
      · subst hq
        have hx0 : x = 0 := by simpa using hhead
        subst hx0
        have h1 : maskOf ([] ++ [0]) = 1 := rfl
        rw [h1]
        have h2 : (([] : List ℕ) ++ [0]).getLastD 0 = 0 := rfl
        rw [h2, (hkRun_inv d n hval.1).1]
        exact le_refl _
      · have hhead' : q.headD 0 = 0 := by
          rwa [headD_append hq] at hhead
        have hnodup' : q.Nodup := hnodup.of_append_left
        have hxq : x ∉ q := by
          intro hmem
          exact (List.disjoint_of_nodup_append hnodup) hmem
            (List.mem_singleton_self x)
        have hbound' : ∀ y ∈ q, y < n := fun y hy =>
          hbound y (List.mem_append_left _ hy)
        have hxn : x < n :=
          hbound x (List.mem_append_right _ (List.mem_singleton_self x))
        have hlastq : q.getLastD 0 ∈ q := mem_getLastD hq 0
        have hbl : (maskOf q).testBit (q.getLastD 0) = true :=
          (maskOf_testBit q _).2 hlastq
        have hbn : (maskOf q).testBit x = false := by
          rcases Bool.eq_false_or_eq_true ((maskOf q).testBit x) with hb | hb
          · exact absurd ((maskOf_testBit q x).1 hb) hxq
          · exact hb
        have hm1 : 1 ≤ maskOf q := by
          rcases Nat.eq_zero_or_pos (maskOf q) with h0 | h0
          · rw [h0, Nat.zero_testBit] at hbl
            cases hbl
          · exact h0
        have htri := hkRun_tri d n (maskOf q) hm1 (maskOf_lt hbound')
          (q.getLastD 0) x hbl hbn hxn
        have hih := ih hq hhead' hnodup' hbound'
        rw [maskOf_append, getLastD_concat,
          consecCost_append d q x hq]
        exact le_trans htri (add_le_add_right hih _)

/-! ## Held-Karp main theorems -/

/-- On a valid matrix with `n ≤ 15`, whenever the Held-Karp result cost is
not the `Infinity` sentinel, its path is a permutation of `0 .. n-1`. -/
theorem heldKarp_path_perm {d : Mat α} {n : ℕ} (hval : ValidMatrix d n)
    (t : ℚ) (h15 : n ≤ 15) (hcost : (heldKarpTSP d n t).cost ≠ ⊤) :
    (heldKarpTSP d n t).path.Perm (List.range n) := by
  have hng : ¬(15 < n) := by omega
  have hcost' : (heldKarpTSP d n t).cost
      = (hkBest d n (hkRun d n).dp).1 := by
    rw [heldKarpTSP, if_neg hng]
  have hpath : (heldKarpTSP d n t).path
      = (hkRebuild (hkRun d n).parent (n + 1) ((1 <<< n) - 1)
          (hkBest d n (hkRun d n).dp).2 []).reverse := by
    rw [heldKarpTSP, if_neg hng]
  rw [hcost'] at hcost
  rcases (hkBestAux_spec d ((1 <<< n) - 1) (hkRun d n).dp n).2 with
    hshape | ⟨i₀, h1i, hin, heq⟩
  · rw [hkBest_eq_aux, hshape] at hcost
    exact absurd rfl hcost
  · rw [hkBest_eq_aux, heq] at hcost hpath
    have hdpne : (hkRun d n).dp ((1 <<< n) - 1) i₀ ≠ ⊤ := by
      intro h
      rw [h, top_add] at hcost
      exact hcost rfl
    have hfull : ((1 <<< n) - 1).testBit i₀ = true := by
      rw [testBit_full_mask]
      exact decide_eq_true hin
    have hfull2n : (1 <<< n) - 1 < 2 ^ n := by
      rw [Nat.shiftLeft_eq, one_mul]
      have : 0 < 2 ^ n := Nat.pos_pow_of_pos n (by norm_num)
      omega
    have hcard : cardBits ((1 <<< n) - 1) n = n := by
      unfold cardBits
      rw [Finset.filter_true_of_mem, Finset.card_range]
      intro x hx
      rw [testBit_full_mask]
      exact decide_eq_true (Finset.mem_range.1 hx)
    obtain ⟨l, hl, hnd, hmem⟩ :=
      hkRebuild_chain (hkRun_inv d n hval.1) (n + 1) ((1 <<< n) - 1) i₀ []
        hfull hdpne hfull2n (by omega)
    rw [hpath]
    dsimp only
    rw [hl, List.nil_append]
    refine (List.perm_ext_iff_of_nodup ((List.nodup_reverse).2 hnd)
      (List.nodup_range n)).2 ?_
    intro a
    rw [List.mem_reverse, List.mem_range, hmem, testBit_full_mask]
    simp

/-! ## Claim C3: Held-Karp cost vs greedy cost -/

/-- Claim C3 as stated is false at `n = 1`: on the valid 1×1 zero matrix
(`n = 1 ≤ 10`), Held-Karp returns the `Infinity` sentinel while greedy
returns 0, so the Held-Karp cost is not `≤` the greedy cost. -/
theorem claim_C3_counterexample :
    ValidMatrix (fun _ _ => (0 : QInf ℤ)) 1 ∧ (1 : ℕ) ≤ 10 ∧
      ¬((heldKarpTSP (α := ℤ) (fun _ _ => 0) 1 0).cost
        ≤ (greedyTSP (α := ℤ) (fun _ _ => 0) 1 0).cost) := by
  refine ⟨by decide, by decide, by decide⟩

/-- Claim C3, amended: for every valid distance matrix with
`2 ≤ n ≤ 10`, the Held-Karp cost is at most the greedy cost on the same
matrix. -/
theorem claim_C3 {d : Mat α} {n : ℕ} (t t' : ℚ) (hval : ValidMatrix d n)
    (h2 : 2 ≤ n) (h10 : n ≤ 10) :
    (heldKarpTSP d n t).cost ≤ (greedyTSP d n t').cost := by
  obtain ⟨hinv, hlen⟩ := greedyFold_inv (validMatrix_finiteNonneg hval) (n - 1) (le_refl _)
  have hlen' : (greedyFold d n (n - 1)).path.length = n := by
    have := hval.1
    omega
  have hne : (greedyFold d n (n - 1)).path ≠ [] := hinv.ne
  have hhead0 : (greedyFold d n (n - 1)).path.headD 0 = 0 := hinv.headzero
  have hnodup : (greedyFold d n (n - 1)).path.Nodup := hinv.nodup
  have hbound : ∀ x ∈ (greedyFold d n (n - 1)).path, x < n := hinv.bounded
  set p := (greedyFold d n (n - 1)).path with hp
  have hppath : (greedyTSP d n t').path = p := greedyTSP_path d n t'
  have hcostg : (greedyTSP d n t').cost
      = consecCost d p + d (p.getLastD 0) (p.headD 0) := by
    rw [greedyTSP_cost, hinv.cost]
  -- the greedy path is simple, spans all nodes, and starts at 0
  have hdp := hk_dp_le_path d n hval p hne hhead0 hnodup hbound
  have hmaskfull : maskOf p = (1 <<< n) - 1 := by
    apply Nat.eq_of_testBit_eq
    intro i
    rw [Bool.eq_iff_iff, maskOf_testBit, testBit_full_mask]
    constructor
    · intro h
      exact decide_eq_true (hbound i h)
    · intro h
      exact nodup_bounded_mem_all hnodup hbound hlen' i
        (of_decide_eq_true h)
  -- the last node of the greedy path is a nonzero node below n
  obtain ⟨tl, hptl⟩ : ∃ tl, p = 0 :: tl := by
    rcases hq : p with _ | ⟨a, tl⟩
    · exact absurd hq hne
    · have hh := hhead0
      rw [hq] at hh
      simp only [List.headD_cons] at hh
      exact ⟨tl, by rw [hh]⟩
  have htlne : tl ≠ [] := by
    intro h
    rw [hptl, h] at hlen'
    simp at hlen'
    omega
  have hlast_mem : p.getLastD 0 ∈ tl := by
    rw [hptl, List.getLastD_cons]
    exact mem_getLastD htlne 0
  have hlast_ne : p.getLastD 0 ≠ 0 := by
    intro h
    have h0tl : (0 : ℕ) ∈ tl := h ▸ hlast_mem
    have hnd := hnodup
    rw [hptl, List.nodup_cons] at hnd
    exact hnd.1 h0tl
  have hlast_lt : p.getLastD 0 < n :=
    hbound _ (mem_getLastD hne 0)
  -- assemble
  have hng : ¬(15 < n) := by omega
  have hcosth : (heldKarpTSP d n t).cost
      = (hkBest d n (hkRun d n).dp).1 := by
    rw [heldKarpTSP, if_neg hng]
  have hbestle := (hkBestAux_spec d ((1 <<< n) - 1) (hkRun d n).dp n).1
    (p.getLastD 0) (by omega) hlast_lt
  rw [hcosth, hkBest_eq_aux, hcostg]
  rw [hmaskfull] at hdp
  calc (hkBestAux d ((1 <<< n) - 1) (hkRun d n).dp n).1
      ≤ (hkRun d n).dp ((1 <<< n) - 1) (p.getLastD 0)
          + d (p.getLastD 0) 0 := hbestle
    _ ≤ consecCost d p + d (p.getLastD 0) 0 := add_le_add_right hdp _
    _ = consecCost d p + d (p.getLastD 0) (p.headD 0) := by
        rw [hhead0]

/-- Claim C3 (amended form), witnessed on a concrete valid 2-node
matrix. -/
theorem claim_C3_witness :
    ValidMatrix (fun i j => if i = j then (0 : QInf ℤ) else 1) 2 ∧
    (2 : ℕ) ≤ 2 ∧ (2 : ℕ) ≤ 10 ∧
    (heldKarpTSP (α := ℤ) (fun i j => if i = j then 0 else 1) 2 0).cost
      ≤ (greedyTSP (α := ℤ) (fun i j => if i = j then 0 else 1) 2 0).cost :=
  ⟨by decide, by decide, by decide,
    claim_C3 0 0 (by decide) (by decide) (by decide)⟩

/-! ## Machinery for Christofides: generic fold lemmas -/

theorem foldl_preserve_gen {σ β : Type} {P : σ → Prop}
    (f : σ → β → σ) (xs : List β) (st : σ)
    (hf : ∀ s b, b ∈ xs → P s → P (f s b)) (hst : P st) :
    P (xs.foldl f st) := by
  induction xs generalizing st with
  | nil => exact hst
  | cons x xs ih =>
      exact ih (f st x) (fun s b hb => hf s b (List.mem_cons_of_mem _ hb))
        (hf st x (List.mem_cons_self _ _) hst)

theorem foldl_snd_ne_none {β γ : Type}
    (f : QInf α × Option γ → β → QInf α × Option γ) (xs : List β)
    (acc : QInf α × Option γ)
    (hf : ∀ a b, a.2 ≠ none → (f a b).2 ≠ none) (ha : acc.2 ≠ none) :
    (xs.foldl f acc).2 ≠ none := by
  induction xs generalizing acc with
  | nil => exact ha
  | cons x xs ih => exact ih (f acc x) (hf acc x ha)

/-! ## Machinery for Christofides: `findMinEdge` and `primMST` -/

/-- The inner (`k`) step of the `findMinEdge` scan. -/
def fmeInner (d : Mat α) (visited : ℕ → Bool) (j : ℕ)
    (acc2 : QInf α × Option (ℕ × ℕ)) (k : ℕ) : QInf α × Option (ℕ × ℕ) :=
  if visited k = false ∧ d j k < acc2.1 then (d j k, some (j, k)) else acc2

/-- The outer (`j`) step of the `findMinEdge` scan. -/
def fmeOuter (d : Mat α) (n : ℕ) (visited : ℕ → Bool)
    (acc : QInf α × Option (ℕ × ℕ)) (j : ℕ) : QInf α × Option (ℕ × ℕ) :=
  if visited j = false then acc
  else (List.range n).foldl (fmeInner d visited j) acc

theorem findMinEdge_eq (d : Mat α) (n : ℕ) (visited : ℕ → Bool) :
    findMinEdge d n visited
      = (List.range n).foldl (fmeOuter d n visited) (⊤, none) := rfl

/-- Shape of the `findMinEdge` accumulator: a `-1` result keeps the
`Infinity` weight, and any selected pair is an edge crossing the cut with
both endpoints below `n`. -/
def FMEShape (n : ℕ) (visited : ℕ → Bool) (acc : QInf α × Option (ℕ × ℕ)) :
    Prop :=
  (acc.2 = none → acc.1 = ⊤) ∧
  (∀ jk, acc.2 = some jk → visited jk.1 = true ∧ visited jk.2 = false ∧
    jk.1 < n ∧ jk.2 < n)

theorem fmeInner_shape {d : Mat α} {n : ℕ} {visited : ℕ → Bool} {j : ℕ}
    (hj : visited j = true) (hjn : j < n)
    {acc : QInf α × Option (ℕ × ℕ)} {k : ℕ} (hk : k < n)
    (hacc : FMEShape n visited acc) :
    FMEShape n visited (fmeInner d visited j acc k) := by
  unfold fmeInner
  by_cases hc : visited k = false ∧ d j k < acc.1
  · rw [if_pos hc]
    refine ⟨fun h => Option.noConfusion h, fun jk h => ?_⟩
    obtain rfl : (j, k) = jk := Option.some_injective _ h
    exact ⟨hj, hc.1, hjn, hk⟩
  · rw [if_neg hc]
    exact hacc

theorem fmeOuter_shape {d : Mat α} {n : ℕ} {visited : ℕ → Bool}
    {acc : QInf α × Option (ℕ × ℕ)} {j : ℕ} (hjn : j < n)
    (hacc : FMEShape n visited acc) :
    FMEShape n visited (fmeOuter d n visited acc j) := by
  unfold fmeOuter
  by_cases hvj : visited j = false
  · rw [if_pos hvj]
    exact hacc
  · rw [if_neg hvj]
    have hj : visited j = true := by
      rcases Bool.eq_false_or_eq_true (visited j) with h | h
      · exact h
      · exact absurd h hvj
    exact foldl_preserve_gen _ _ _
      (fun a b hb h => fmeInner_shape hj hjn (List.mem_range.1 hb) h) hacc

theorem findMinEdge_shape (d : Mat α) (n : ℕ) (visited : ℕ → Bool) :
    FMEShape n visited (findMinEdge d n visited) := by
  rw [findMinEdge_eq]
  exact foldl_preserve_gen _ _ _
    (fun a b hb h => fmeOuter_shape (List.mem_range.1 hb) h)
    ⟨fun _ => rfl, fun jk h => Option.noConfusion h⟩

theorem fmeInner_none_top {d : Mat α} {visited : ℕ → Bool} {j : ℕ}
    {acc : QInf α × Option (ℕ × ℕ)} {k : ℕ}
    (hacc : acc.2 = none → acc.1 = ⊤) :
    (fmeInner d visited j acc k).2 = none
      → (fmeInner d visited j acc k).1 = ⊤ := by
  unfold fmeInner
  by_cases hc : visited k = false ∧ d j k < acc.1
  · rw [if_pos hc]
    exact fun h => Option.noConfusion h
  · rw [if_neg hc]
    exact hacc

theorem fmeInner_some {d : Mat α} {visited : ℕ → Bool} {j : ℕ}
    {acc : QInf α × Option (ℕ × ℕ)} {k : ℕ} (hacc : acc.2 ≠ none) :
    (fmeInner d visited j acc k).2 ≠ none := by
  unfold fmeInner
  by_cases hc : visited k = false ∧ d j k < acc.1
  · rw [if_pos hc]
    exact fun h => Option.noConfusion h
  · rw [if_neg hc]
    exact hacc

theorem fmeOuter_none_top {d : Mat α} {n : ℕ} {visited : ℕ → Bool}
    {acc : QInf α × Option (ℕ × ℕ)} {j : ℕ}
    (hacc : acc.2 = none → acc.1 = ⊤) :
    (fmeOuter d n visited acc j).2 = none
      → (fmeOuter d n visited acc j).1 = ⊤ := by
  unfold fmeOuter
  by_cases hvj : visited j = false
  · rw [if_pos hvj]
    exact hacc
  · rw [if_neg hvj]
    exact foldl_preserve_gen
      (P := fun a : QInf α × Option (ℕ × ℕ) => a.2 = none → a.1 = ⊤)
      _ _ _ (fun a b _ h => fmeInner_none_top h) hacc

theorem fmeOuter_some {d : Mat α} {n : ℕ} {visited : ℕ → Bool}
    {acc : QInf α × Option (ℕ × ℕ)} {j : ℕ} (hacc : acc.2 ≠ none) :
    (fmeOuter d n visited acc j).2 ≠ none := by
  unfold fmeOuter
  by_cases hvj : visited j = false
  · rw [if_pos hvj]
    exact hacc
  · rw [if_neg hvj]
    exact foldl_snd_ne_none _ _ _ (fun a b h => fmeInner_some h) hacc

/-- The inner scan produces a selection as soon as it passes an unvisited
`k₀` at finite distance. -/
theorem fmeInnerFold_some {d : Mat α} {n : ℕ} {visited : ℕ → Bool}
    {j₀ k₀ : ℕ} (hj₀ : visited j₀ = true) (hk₀ : visited k₀ = false)
    (hkn : k₀ < n) (hd : d j₀ k₀ ≠ ⊤)
    (acc : QInf α × Option (ℕ × ℕ)) (hacc : acc.2 = none → acc.1 = ⊤) :
    ((List.range n).foldl (fmeInner d visited j₀) acc).2 ≠ none := by
  obtain ⟨s, t, hsplit⟩ := List.append_of_mem (List.mem_range.2 hkn)
  rw [hsplit, List.foldl_append, List.foldl_cons]
  refine foldl_snd_ne_none _ _ _ (fun a b h => fmeInner_some h) ?_
  have haccS : (s.foldl (fmeInner d visited j₀) acc).2 = none
      → (s.foldl (fmeInner d visited j₀) acc).1 = ⊤ :=
    foldl_preserve_gen
      (P := fun a : QInf α × Option (ℕ × ℕ) => a.2 = none → a.1 = ⊤)
      _ _ _ (fun a b _ h => fmeInner_none_top h) hacc
  have hstep : ∀ (a : QInf α × Option (ℕ × ℕ)),
      fmeInner d visited j₀ a k₀
        = if visited k₀ = false ∧ d j₀ k₀ < a.1
          then (d j₀ k₀, some (j₀, k₀)) else a := fun a => rfl
  rw [hstep]
  by_cases hc : visited k₀ = false
      ∧ d j₀ k₀ < (s.foldl (fmeInner d visited j₀) acc).1
  · rw [if_pos hc]
    exact fun h => Option.noConfusion h
  · rw [if_neg hc]
    intro hnone
    rw [haccS hnone] at hc
    exact hc ⟨hk₀, lt_top_iff_ne_top.2 hd⟩

theorem findMinEdge_some (d : Mat α) (n : ℕ) (visited : ℕ → Bool)
    {j₀ k₀ : ℕ} (hj₀ : visited j₀ = true) (hk₀ : visited k₀ = false)
    (hjn : j₀ < n) (hkn : k₀ < n) (hd : d j₀ k₀ ≠ ⊤) :
    (findMinEdge d n visited).2 ≠ none := by
  rw [findMinEdge_eq]
  obtain ⟨s, t, hsplit⟩ := List.append_of_mem (List.mem_range.2 hjn)
  rw [hsplit, List.foldl_append, List.foldl_cons]
  refine foldl_snd_ne_none _ _ _ (fun a b h => fmeOuter_some h) ?_
  have haccS : (s.foldl (fmeOuter d n visited) (⊤, none)).2 = none
      → (s.foldl (fmeOuter d n visited) (⊤, none)).1 = ⊤ :=
    foldl_preserve_gen
      (P := fun a : QInf α × Option (ℕ × ℕ) => a.2 = none → a.1 = ⊤)
      _ _ _ (fun a b _ h => fmeOuter_none_top h) (fun _ => rfl)
  unfold fmeOuter
  rw [if_neg (by rw [hj₀]; exact fun h => Bool.noConfusion h)]
  exact fmeInnerFold_some hj₀ hk₀ hkn hd _ haccS

/-- One iteration of the Prim outer loop. -/
def primStep (d : Mat α) (n : ℕ) (st : (ℕ → Bool) × List (MSTEdge α)) :
    (ℕ → Bool) × List (MSTEdge α) :=
  let r := findMinEdge d n st.1
  match r.2 with
  | none => st
  | some jk =>
      (fun x => if x = jk.2 then true else st.1 x,
       st.2 ++ [⟨jk.1, jk.2, r.1⟩])

/-- The Prim outer loop stopped after `i` iterations. -/
def primFold (d : Mat α) (n i : ℕ) : (ℕ → Bool) × List (MSTEdge α) :=
  (List.range i).foldl (fun st _ => primStep d n st)
    ((fun k => k == 0 : ℕ → Bool), [])

theorem primMST_eq (d : Mat α) (n : ℕ) :
    primMST d n = (primFold d n (n - 1)).2 := rfl

theorem primFold_succ (d : Mat α) (n i : ℕ) :
    primFold d n (i + 1) = primStep d n (primFold d n i) := by
  unfold primFold
  rw [List.range_succ, List.foldl_append, List.foldl_cons, List.foldl_nil]

/-- Undirected edge relation generated by an MST edge list. -/
def EdgeRel (mst : List (MSTEdge α)) (a b : ℕ) : Prop :=
  ∃ e ∈ mst, (e.efrom = a ∧ e.eto = b) ∨ (e.efrom = b ∧ e.eto = a)

/-- Number of visited vertices below `n`. -/
def visCount (f : ℕ → Bool) (n : ℕ) : ℕ :=
  ((Finset.range n).filter (fun v => f v = true)).card

/-- Loop invariant of Prim's algorithm. -/
structure PrimInv (n : ℕ) (st : (ℕ → Bool) × List (MSTEdge α)) : Prop where
  v0 : st.1 0 = true
  bounded : ∀ v, st.1 v = true → v < n
  edges : ∀ e ∈ st.2, e.efrom < n ∧ e.eto < n ∧ e.efrom ≠ e.eto
  reach : ∀ v, st.1 v = true → Relation.ReflTransGen (EdgeRel st.2) 0 v
  count : visCount st.1 n = st.2.length + 1

theorem primInit_inv {n : ℕ} (hn : 1 ≤ n) :
    PrimInv (α := α) n ((fun k => k == 0 : ℕ → Bool), []) := by
  refine ⟨rfl, ?_, ?_, ?_, ?_⟩
  · intro v hv
    have : v = 0 := by simpa using hv
    omega
  · intro e he
    simp at he
  · intro v hv
    have hv0 : v = 0 := by simpa using hv
    rw [hv0]
  · unfold visCount
    have hset : (Finset.range n).filter (fun v => (v == 0) = true)
        = {0} := by
      ext v
      simp only [Finset.mem_filter, Finset.mem_range, beq_iff_eq,
        Finset.mem_singleton]
      constructor
      · rintro ⟨-, h⟩
        exact h
      · rintro rfl
        exact ⟨by omega, rfl⟩
    rw [hset]
    rfl

theorem primStep_inv {d : Mat α} {n : ℕ}
    {st : (ℕ → Bool) × List (MSTEdge α)} (hval : ValidMatrix d n)
    (hinv : PrimInv n st) (hlt : st.2.length + 1 < n) :
    PrimInv n (primStep d n st) ∧
      (primStep d n st).2.length = st.2.length + 1 := by
  -- an unvisited vertex below n exists
  obtain ⟨k₀, hk₀n, hk₀⟩ : ∃ k₀, k₀ < n ∧ st.1 k₀ = false := by
    by_contra h
    push_neg at h
    have hall : ∀ v ∈ Finset.range n,
        v ∈ (Finset.range n).filter (fun v => st.1 v = true) := by
      intro v hv
      rcases Bool.eq_false_or_eq_true (st.1 v) with hb | hb
      · exact Finset.mem_filter.2 ⟨hv, hb⟩
      · exact absurd hb (h v (Finset.mem_range.1 hv))
    have hsub := Finset.card_le_card
      (fun v hv => hall v hv : Finset.range n ⊆ _)
    rw [Finset.card_range] at hsub
    have := hinv.count
    unfold visCount at this
    omega
  have h0n : 0 < n := hinv.bounded 0 hinv.v0
  have hd : d 0 k₀ ≠ ⊤ := (hval.2.1 0 h0n k₀ hk₀n).1
  have hsome := findMinEdge_some d n st.1 hinv.v0 hk₀ h0n hk₀n hd
  obtain ⟨jk, hjk⟩ := Option.ne_none_iff_exists'.1 hsome
  obtain ⟨hvj, hvk, hjn, hkn⟩ :=
    (findMinEdge_shape d n st.1).2 jk hjk
  have hstep : primStep d n st
      = (fun x => if x = jk.2 then true else st.1 x,
         st.2 ++ [⟨jk.1, jk.2, (findMinEdge d n st.1).1⟩]) := by
    simp only [primStep, hjk]
  rw [hstep]
  have hne : jk.1 ≠ jk.2 := by
    intro h
    rw [h, hvk] at hvj
    cases hvj
  refine ⟨⟨?_, ?_, ?_, ?_, ?_⟩, ?_⟩
  · dsimp only
    by_cases h0 : (0 : ℕ) = jk.2
    · rw [if_pos h0]
    · rw [if_neg h0]
      exact hinv.v0
  · intro v hv
    dsimp only at hv
    by_cases hvjk : v = jk.2
    · omega
    · rw [if_neg hvjk] at hv
      exact hinv.bounded v hv
  · intro e he
    rcases List.mem_append.1 he with he | he
    · exact hinv.edges e he
    · rw [List.mem_singleton] at he
      rw [he]
      exact ⟨hjn, hkn, hne⟩
  · intro v hv
    dsimp only at hv
    have hmono : ∀ a b, EdgeRel st.2 a b →
        EdgeRel (st.2 ++ [(⟨jk.1, jk.2, (findMinEdge d n st.1).1⟩ :
          MSTEdge α)]) a b := by
      rintro a b ⟨e, he, hor⟩
      exact ⟨e, List.mem_append_left _ he, hor⟩
    by_cases hvjk : v = jk.2
    · subst hvjk
      have hreach1 := (hinv.reach jk.1 hvj).mono hmono
      refine hreach1.tail ?_
      exact ⟨⟨jk.1, jk.2, (findMinEdge d n st.1).1⟩,
        List.mem_append_right _ (List.mem_singleton_self _),
        Or.inl ⟨rfl, rfl⟩⟩
    · rw [if_neg hvjk] at hv
      exact (hinv.reach v hv).mono hmono
  · dsimp only
    have hset : (Finset.range n).filter
          (fun v => (if v = jk.2 then true else st.1 v) = true)
        = insert jk.2 ((Finset.range n).filter (fun v => st.1 v = true)) := by
      ext v
      simp only [Finset.mem_filter, Finset.mem_range, Finset.mem_insert]
      constructor
      · rintro ⟨hvn, hv⟩
        by_cases hvjk : v = jk.2
        · exact Or.inl hvjk
        · rw [if_neg hvjk] at hv
          exact Or.inr ⟨hvn, hv⟩
      · rintro (rfl | ⟨hvn, hv⟩)
        · exact ⟨hkn, by rw [if_pos rfl]⟩
        · refine ⟨hvn, ?_⟩
          by_cases hvjk : v = jk.2
          · rw [if_pos hvjk]
          · rw [if_neg hvjk]
            exact hv
    unfold visCount
    rw [hset, Finset.card_insert_of_not_mem (by
      intro hmem
      rw [(Finset.mem_filter.1 hmem).2] at hvk
      cases hvk)]
    have := hinv.count
    unfold visCount at this
    rw [this]
    simp
  · dsimp only
    rw [List.length_append, List.length_singleton]

theorem primFold_inv {d : Mat α} {n : ℕ} (hval : ValidMatrix d n)
    (i : ℕ) (hi : i ≤ n - 1) :
    PrimInv n (primFold d n i) ∧ (primFold d n i).2.length = i := by
  induction i with
  | zero => exact ⟨primInit_inv hval.1, rfl⟩
  | succ k ih =>
      obtain ⟨hinv, hlen⟩ := ih (by omega)
      have hlt : (primFold d n k).2.length + 1 < n := by
        have := hval.1
        omega
      obtain ⟨hinv', hlen'⟩ := primStep_inv hval hinv hlt
      rw [primFold_succ]
      exact ⟨hinv', by rw [hlen', hlen]⟩

theorem primMST_edges {d : Mat α} {n : ℕ} (hval : ValidMatrix d n) :
    ∀ e ∈ primMST d n, e.efrom < n ∧ e.eto < n ∧ e.efrom ≠ e.eto := by
  rw [primMST_eq]
  exact (primFold_inv hval (n - 1) (le_refl _)).1.edges

theorem primMST_spanning {d : Mat α} {n : ℕ} (hval : ValidMatrix d n) :
    ∀ v, v < n → Relation.ReflTransGen (EdgeRel (primMST d n)) 0 v := by
  intro v hv
  obtain ⟨hinv, hlen⟩ := primFold_inv (d := d) hval (n - 1) (le_refl _)
  have hcount := hinv.count
  rw [hlen] at hcount
  have hn1 := hval.1
  have hcn : visCount (primFold d n (n - 1)).1 n = n := by omega
  have hvis : (primFold d n (n - 1)).1 v = true := by
    unfold visCount at hcn
    have hsub : (Finset.range n).filter
        (fun w => (primFold d n (n - 1)).1 w = true) ⊆ Finset.range n :=
      Finset.filter_subset _ _
    have heq := Finset.eq_of_subset_of_card_le hsub
      (by rw [Finset.card_range, hcn])
    have hvmem : v ∈ Finset.range n := Finset.mem_range.2 hv
    rw [← heq] at hvmem
    exact (Finset.mem_filter.1 hvmem).2
  rw [primMST_eq]
  exact hinv.reach v hvis

/-! ## Machinery for Christofides: the handshake argument -/

theorem getD_mem {l : List ℕ} {i : ℕ} (h : i < l.length) (dflt : ℕ) :
    l.getD i dflt ∈ l := by
  rw [List.getD_eq_getElem l dflt h]
  exact l.getElem_mem h

theorem map_sum_bumpDeg (deg : ℕ → ℕ) (v : ℕ) (l : List ℕ) (hv : v ∈ l)
    (hnd : l.Nodup) :
    (l.map (bumpDeg deg v)).sum = (l.map deg).sum + 1 := by
  induction l with
  | nil => cases hv
  | cons a t ih =>
      rw [List.map_cons, List.map_cons, List.sum_cons, List.sum_cons]
      rcases List.mem_cons.1 hv with rfl | hvt
      · have hvt : v ∉ t := (List.nodup_cons.1 hnd).1
        have hmap : t.map (bumpDeg deg v) = t.map deg :=
          List.map_congr_left (fun x hx => by
            unfold bumpDeg
            rw [if_neg (fun h : x = v => hvt (h ▸ hx))])
        rw [hmap]
        unfold bumpDeg
        rw [if_pos rfl]
        omega
      · have hna : ¬(a = v) := by
          rintro rfl
          exact (List.nodup_cons.1 hnd).1 hvt
        have hha : bumpDeg deg v a = deg a := by
          unfold bumpDeg
          rw [if_neg hna]
        rw [hha, ih hvt (List.nodup_cons.1 hnd).2]
        omega

theorem mstDegree_append (mst : List (MSTEdge α)) (e : MSTEdge α) :
    mstDegree (mst ++ [e])
      = bumpDeg (bumpDeg (mstDegree mst) e.efrom) e.eto := by
  unfold mstDegree
  rw [List.foldl_append, List.foldl_cons, List.foldl_nil]

theorem mstDegree_sum {n : ℕ} (mst : List (MSTEdge α))
    (h : ∀ e ∈ mst, e.efrom < n ∧ e.eto < n) :
    ((List.range n).map (mstDegree mst)).sum = 2 * mst.length := by
  induction mst using List.reverseRecOn with
  | nil => simp [mstDegree]
  | append_singleton mst e ih =>
      have he := h e (List.mem_append_right _ (List.mem_singleton_self e))
      have hsub : ∀ e' ∈ mst, e'.efrom < n ∧ e'.eto < n := fun e' he' =>
        h e' (List.mem_append_left _ he')
      rw [mstDegree_append,
        map_sum_bumpDeg _ e.eto _ (List.mem_range.2 he.2)
          (List.nodup_range n),
        map_sum_bumpDeg _ e.efrom _ (List.mem_range.2 he.1)
          (List.nodup_range n),
        ih hsub, List.length_append, List.length_singleton]
      omega

theorem filter_odd_mod (deg : ℕ → ℕ) (l : List ℕ) :
    (l.filter (fun i => deg i % 2 == 1)).length % 2
      = ((l.map deg).sum) % 2 := by
  induction l with
  | nil => rfl
  | cons a t ih =>
      rw [List.map_cons, List.sum_cons]
      by_cases h : deg a % 2 = 1
      · rw [List.filter_cons_of_pos (by simpa using h), List.length_cons]
        omega
      · rw [List.filter_cons_of_neg (by simpa using h)]
        omega

/-- The set of odd-degree MST vertices always has even size. -/
theorem oddVertices_even_length {d : Mat α} {n : ℕ}
    (hval : ValidMatrix d n) :
    Even (oddVertices n (mstDegree (primMST d n))).length := by
  have hedges : ∀ e ∈ primMST d n, e.efrom < n ∧ e.eto < n := fun e he =>
    ⟨(primMST_edges hval e he).1, (primMST_edges hval e he).2.1⟩
  have hmod := filter_odd_mod (mstDegree (primMST d n)) (List.range n)
  rw [mstDegree_sum _ hedges] at hmod
  unfold oddVertices
  rw [Nat.even_iff, hmod]
  omega

/-! ## Machinery for Christofides: the greedy matching -/

/-- Flattened list of matched vertices, in pair order. -/
def pairNodes : List (ℕ × ℕ) → List ℕ
  | [] => []
  | p :: rest => p.1 :: p.2 :: pairNodes rest

theorem pairNodes_append (xs : List (ℕ × ℕ)) (p : ℕ × ℕ) :
    pairNodes (xs ++ [p]) = pairNodes xs ++ [p.1, p.2] := by
  induction xs with
  | nil => rfl
  | cons q rest ih =>
      show q.1 :: q.2 :: pairNodes (rest ++ [p]) = _
      rw [ih]
      rfl

theorem pairNodes_length (xs : List (ℕ × ℕ)) :
    (pairNodes xs).length = 2 * xs.length := by
  induction xs with
  | nil => rfl
  | cons q rest ih =>
      show (q.1 :: q.2 :: pairNodes rest).length = _
      rw [List.length_cons, List.length_cons, ih, List.length_cons]
      omega

theorem mem_pairNodes (xs : List (ℕ × ℕ)) (v : ℕ) :
    v ∈ pairNodes xs ↔ ∃ p ∈ xs, v = p.1 ∨ v = p.2 := by
  induction xs with
  | nil => simp [pairNodes]
  | cons q rest ih =>
      show v ∈ q.1 :: q.2 :: pairNodes rest ↔ _
      simp only [List.mem_cons, ih]
      constructor
      · rintro (h | h | ⟨p, hp, hv⟩)
        · exact ⟨q, Or.inl rfl, Or.inl h⟩
        · exact ⟨q, Or.inl rfl, Or.inr h⟩
        · exact ⟨p, Or.inr hp, hv⟩
      · rintro ⟨p, hp, hv⟩
        rcases hp with rfl | hp
        · rcases hv with h | h
          · exact Or.inl h
          · exact Or.inr (Or.inl h)
        · exact Or.inr (Or.inr ⟨p, hp, hv⟩)

/-- With pairwise-distinct, globally non-repeating pairs, a matched
vertex lies in exactly one pair. -/
theorem filter_pairs_eq_one (matching : List (ℕ × ℕ))
    (hnd : (pairNodes matching).Nodup) (v : ℕ)
    (hv : v ∈ pairNodes matching) :
    (matching.filter (fun p => v = p.1 ∨ v = p.2)).length = 1 := by
  induction matching with
  | nil => cases hv
  | cons q rest ih =>
      have hnd' : (q.1 :: q.2 :: pairNodes rest).Nodup := hnd
      rw [List.nodup_cons, List.nodup_cons] at hnd'
      obtain ⟨hq1, hq2, hndrest⟩ := hnd'
      have hq1' : q.1 ∉ pairNodes rest := fun h =>
        hq1 (List.mem_cons_of_mem _ h)
      rcases List.mem_cons.1 hv with hveq | hv'
      · rw [List.filter_cons_of_pos (by simp [hveq])]
        rw [List.length_cons, List.filter_eq_nil_iff.2 ?_]
        · rfl
        · intro p hp hc
          have hvor : v = p.1 ∨ v = p.2 := by simpa using hc
          exact hq1' (hveq ▸ (mem_pairNodes rest v).2 ⟨p, hp, hvor⟩)
      · rcases List.mem_cons.1 hv' with hveq | hv''
        · rw [List.filter_cons_of_pos (by simp [hveq])]
          rw [List.length_cons, List.filter_eq_nil_iff.2 ?_]
          · rfl
          · intro p hp hc
            have hvor : v = p.1 ∨ v = p.2 := by simpa using hc
            exact hq2 (hveq ▸ (mem_pairNodes rest v).2 ⟨p, hp, hvor⟩)
        · have hv1 : ¬(v = q.1) := fun h => hq1' (h ▸ hv'')
          have hv2 : ¬(v = q.2) := fun h => hq2 (h ▸ hv'')
          rw [List.filter_cons_of_neg (by simp [hv1, hv2])]
          exact ih hndrest hv''

theorem filter_bool_split (f : ℕ → Bool) (l : List ℕ) :
    (l.filter (fun v => f v)).length
      + (l.filter (fun v => f v = false)).length = l.length := by
  induction l with
  | nil => rfl
  | cons a t ih =>
      rcases Bool.eq_false_or_eq_true (f a) with h | h
      · rw [List.filter_cons_of_pos (by simp [h]),
          List.filter_cons_of_neg (by simp [h])]
        simp only [List.length_cons]
        omega
      · rw [List.filter_cons_of_neg (by simp [h]),
          List.filter_cons_of_pos (by simp [h])]
        simp only [List.length_cons]
        omega

theorem nodup_all_eq_length_le_one {l : List ℕ} {a : ℕ} (hnd : l.Nodup)
    (h : ∀ w ∈ l, w = a) : l.length ≤ 1 := by
  cases l with
  | nil => simp
  | cons b t =>
      cases t with
      | nil => simp
      | cons c t' =>
          have hb := h b (List.mem_cons_self _ _)
          have hc := h c (List.mem_cons_of_mem _ (List.mem_cons_self _ _))
          rw [List.nodup_cons] at hnd
          exact absurd (by rw [hb, hc]; exact List.mem_cons_self _ _) hnd.1

/-- The step of the `mwmInner` scan. -/
def mwmInnerStep (d : Mat α) (vertices : List ℕ) (used : ℕ → Bool) (i : ℕ)
    (acc : QInf α × Option ℕ) (j : ℕ) : QInf α × Option ℕ :=
  if used (vertices.getD j 0) then acc
  else if d (vertices.getD i 0) (vertices.getD j 0) < acc.1 then
    (d (vertices.getD i 0) (vertices.getD j 0), some j)
  else acc

theorem mwmInner_eq (d : Mat α) (vertices : List ℕ) (used : ℕ → Bool)
    (i : ℕ) :
    mwmInner d vertices used i
      = (List.range' (i + 1) (vertices.length - (i + 1))).foldl
          (mwmInnerStep d vertices used i) (⊤, none) := rfl

theorem mwmInner_shape (d : Mat α) (vertices : List ℕ) (used : ℕ → Bool)
    (i : ℕ) :
    ((mwmInner d vertices used i).2 = none
      → (mwmInner d vertices used i).1 = ⊤) ∧
    (∀ b, (mwmInner d vertices used i).2 = some b →
      i < b ∧ b < vertices.length ∧ used (vertices.getD b 0) = false) := by
  rw [mwmInner_eq]
  refine foldl_preserve_gen
    (P := fun acc : QInf α × Option ℕ =>
      (acc.2 = none → acc.1 = ⊤) ∧
      (∀ b, acc.2 = some b →
        i < b ∧ b < vertices.length ∧ used (vertices.getD b 0) = false))
    _ _ _ (fun acc j hj hacc => ?_)
    ⟨fun _ => rfl, fun b h => Option.noConfusion h⟩
  have hjr := List.mem_range'_1.1 hj
  unfold mwmInnerStep
  by_cases h1 : used (vertices.getD j 0)
  · rw [if_pos h1]
    exact hacc
  · rw [if_neg h1]
    by_cases h2 : d (vertices.getD i 0) (vertices.getD j 0) < acc.1
    · rw [if_pos h2]
      refine ⟨fun h => Option.noConfusion h, fun b hb => ?_⟩
      obtain rfl : j = b := Option.some_injective _ hb
      refine ⟨by omega, by omega, ?_⟩
      rcases Bool.eq_false_or_eq_true (used (vertices.getD j 0)) with h | h
      · exact absurd h h1
      · exact h
    · rw [if_neg h2]
      exact hacc

theorem mwmInnerStep_none_top {d : Mat α} {vertices : List ℕ}
    {used : ℕ → Bool} {i : ℕ} {acc : QInf α × Option ℕ} {j : ℕ}
    (hacc : acc.2 = none → acc.1 = ⊤) :
    (mwmInnerStep d vertices used i acc j).2 = none
      → (mwmInnerStep d vertices used i acc j).1 = ⊤ := by
  unfold mwmInnerStep
  by_cases h1 : used (vertices.getD j 0)
  · rw [if_pos h1]
    exact hacc
  · rw [if_neg h1]
    by_cases h2 : d (vertices.getD i 0) (vertices.getD j 0) < acc.1
    · rw [if_pos h2]
      exact fun h => Option.noConfusion h
    · rw [if_neg h2]
      exact hacc

theorem mwmInnerStep_some {d : Mat α} {vertices : List ℕ}
    {used : ℕ → Bool} {i : ℕ} {acc : QInf α × Option ℕ} {j : ℕ}
    (hacc : acc.2 ≠ none) :
    (mwmInnerStep d vertices used i acc j).2 ≠ none := by
  unfold mwmInnerStep
  by_cases h1 : used (vertices.getD j 0)
  · rw [if_pos h1]
    exact hacc
  · rw [if_neg h1]
    by_cases h2 : d (vertices.getD i 0) (vertices.getD j 0) < acc.1
    · rw [if_pos h2]
      exact fun h => Option.noConfusion h
    · rw [if_neg h2]
      exact hacc

theorem mwmInner_some (d : Mat α) (vertices : List ℕ) (used : ℕ → Bool)
    {i j₀ : ℕ} (hij : i < j₀) (hj₀ : j₀ < vertices.length)
    (hun : used (vertices.getD j₀ 0) = false)
    (hd : d (vertices.getD i 0) (vertices.getD j₀ 0) ≠ ⊤) :
    (mwmInner d vertices used i).2 ≠ none := by
  rw [mwmInner_eq]
  have hmem : j₀ ∈ List.range' (i + 1) (vertices.length - (i + 1)) := by
    rw [List.mem_range'_1]
    omega
  obtain ⟨s, t, hsplit⟩ := List.append_of_mem hmem
  rw [hsplit, List.foldl_append, List.foldl_cons]
  refine foldl_snd_ne_none _ _ _ (fun a b h => mwmInnerStep_some h) ?_
  have haccS : (s.foldl (mwmInnerStep d vertices used i) (⊤, none)).2 = none
      → (s.foldl (mwmInnerStep d vertices used i) (⊤, none)).1 = ⊤ :=
    foldl_preserve_gen
      (P := fun a : QInf α × Option ℕ => a.2 = none → a.1 = ⊤)
      _ _ _ (fun a b _ h => mwmInnerStep_none_top h) (fun _ => rfl)
  have hstep : ∀ (a : QInf α × Option ℕ),
      mwmInnerStep d vertices used i a j₀
        = if used (vertices.getD j₀ 0) then a
          else if d (vertices.getD i 0) (vertices.getD j₀ 0) < a.1 then
            (d (vertices.getD i 0) (vertices.getD j₀ 0), some j₀)
          else a := fun a => rfl
  rw [hstep]
  rw [if_neg (by rw [hun]; exact fun h => Bool.noConfusion h)]
  by_cases h2 : d (vertices.getD i 0) (vertices.getD j₀ 0)
      < (s.foldl (mwmInnerStep d vertices used i) (⊤, none)).1
  · rw [if_pos h2]
    exact fun h => Option.noConfusion h
  · rw [if_neg h2]
    intro hnone
    rw [haccS hnone] at h2
    exact h2 (lt_top_iff_ne_top.2 hd)

/-- The step of the greedy-matching outer loop. -/
def mwmStep (d : Mat α) (vertices : List ℕ)
    (st : List (ℕ × ℕ) × (ℕ → Bool)) (i : ℕ) :
    List (ℕ × ℕ) × (ℕ → Bool) :=
  if st.2 (vertices.getD i 0) then st
  else
    match (mwmInner d vertices st.2 i).2 with
    | none => st
    | some best =>
        (st.1 ++ [(vertices.getD i 0, vertices.getD best 0)],
         fun k =>
           if k = vertices.getD i 0 then true
           else if k = vertices.getD best 0 then true
           else st.2 k)

/-- The greedy-matching outer loop stopped after the indices `0 .. i-1`. -/
def mwmFold (d : Mat α) (vertices : List ℕ) (i : ℕ) :
    List (ℕ × ℕ) × (ℕ → Bool) :=
  (List.range i).foldl (mwmStep d vertices) ([], fun _ => false)

theorem mwm_eq_fold (d : Mat α) (vertices : List ℕ) :
    minimumWeightMatching d vertices
      = (mwmFold d vertices vertices.length).1 := rfl

theorem mwmFold_succ (d : Mat α) (vertices : List ℕ) (i : ℕ) :
    mwmFold d vertices (i + 1)
      = mwmStep d vertices (mwmFold d vertices i) i := by
  unfold mwmFold
  rw [List.range_succ, List.foldl_append, List.foldl_cons, List.foldl_nil]

/-- Loop invariant of the greedy matching. -/
structure MWMInv (vertices : List ℕ) (i : ℕ)
    (st : List (ℕ × ℕ) × (ℕ → Bool)) : Prop where
  mem : ∀ p ∈ st.1, p.1 ∈ vertices ∧ p.2 ∈ vertices ∧ p.1 ≠ p.2
  nodup : (pairNodes st.1).Nodup
  used_iff : ∀ v, st.2 v = true ↔ v ∈ pairNodes st.1
  before : ∀ j, j < i → st.2 (vertices.getD j 0) = true

theorem mwmStep_inv {d : Mat α} {n : ℕ} {vertices : List ℕ} {i : ℕ}
    {st : List (ℕ × ℕ) × (ℕ → Bool)} (hval : ValidMatrix d n)
    (hvnd : vertices.Nodup) (hvb : ∀ x ∈ vertices, x < n)
    (heven : Even vertices.length) (hi : i < vertices.length)
    (hinv : MWMInv vertices i st) :
    MWMInv vertices (i + 1) (mwmStep d vertices st i) := by
  unfold mwmStep
  by_cases hused : st.2 (vertices.getD i 0)
  · rw [if_pos hused]
    refine ⟨hinv.mem, hinv.nodup, hinv.used_iff, fun j hj => ?_⟩
    rcases Nat.lt_succ_iff_lt_or_eq.1 hj with hj | rfl
    · exact hinv.before j hj
    · exact hused
  · rw [if_neg hused]
    have husedf : st.2 (vertices.getD i 0) = false := by
      rcases Bool.eq_false_or_eq_true (st.2 (vertices.getD i 0)) with h | h
      · exact absurd h hused
      · exact h
    -- there is an unused partner of larger index at finite distance
    have hvi_mem : vertices.getD i 0 ∈ vertices := getD_mem hi 0
    have hpn_sub : ∀ v ∈ pairNodes st.1, v ∈ vertices := by
      intro v hv
      obtain ⟨p, hp, hvor⟩ := (mem_pairNodes st.1 v).1 hv
      rcases hvor with rfl | rfl
      · exact (hinv.mem p hp).1
      · exact (hinv.mem p hp).2.1
    have hfilter_used :
        (vertices.filter (fun v => st.2 v)).length
          = 2 * st.1.length := by
      have hperm : (vertices.filter (fun v => st.2 v)).Perm
          (pairNodes st.1) := by
        refine (List.perm_ext_iff_of_nodup (hvnd.filter _) hinv.nodup).2 ?_
        intro a
        rw [List.mem_filter]
        constructor
        · rintro ⟨-, ha⟩
          exact (hinv.used_iff a).1 (by simpa using ha)
        · intro ha
          exact ⟨hpn_sub a ha, by
            simpa using (hinv.used_iff a).2 ha⟩
      rw [hperm.length_eq, pairNodes_length]
    have hunused_even :
        Even (vertices.filter (fun v => st.2 v = false)).length := by
      have hsplit := filter_bool_split st.2 vertices
      rw [hfilter_used] at hsplit
      obtain ⟨m, hm⟩ := heven
      refine ⟨vertices.length / 2 - st.1.length, ?_⟩
      omega
    have hvi_unused : vertices.getD i 0
        ∈ vertices.filter (fun v => st.2 v = false) :=
      List.mem_filter.2 ⟨hvi_mem, by
        rw [decide_eq_true_eq]
        exact husedf⟩
    obtain ⟨w, hw_mem, hw_ne⟩ : ∃ w ∈ vertices.filter
        (fun v => st.2 v = false), w ≠ vertices.getD i 0 := by
      by_contra h
      push_neg at h
      have hle := nodup_all_eq_length_le_one (hvnd.filter _) h
      have hpos : 0 < (vertices.filter (fun v => st.2 v = false)).length :=
        List.length_pos.2 (fun he => by rw [he] at hvi_unused; cases hvi_unused)
      obtain ⟨m, hm⟩ := hunused_even
      omega
    have hw_v : w ∈ vertices := (List.mem_filter.1 hw_mem).1
    have hw_unused : st.2 w = false := by
      have hw2 := (List.mem_filter.1 hw_mem).2
      exact of_decide_eq_true hw2
    obtain ⟨j₀, hj₀len, hj₀w⟩ : ∃ j₀, j₀ < vertices.length ∧
        vertices.getD j₀ 0 = w := by
      obtain ⟨j₀, hj₀, hj₀w⟩ := List.mem_iff_getElem.1 hw_v
      exact ⟨j₀, hj₀, by rw [List.getD_eq_getElem _ _ hj₀, hj₀w]⟩
    have hij₀ : i < j₀ := by
      rcases Nat.lt_trichotomy j₀ i with h | h | h
      · have := hinv.before j₀ h
        rw [hj₀w, hw_unused] at this
        cases this
      · rw [← h, hj₀w] at hw_ne
        exact absurd rfl hw_ne
      · exact h
    have hd : d (vertices.getD i 0) (vertices.getD j₀ 0) ≠ ⊤ := by
      rw [hj₀w]
      exact (hval.2.1 _ (hvb _ hvi_mem) _ (hvb _ hw_v)).1
    have hsome := mwmInner_some d vertices st.2 hij₀ hj₀len
      (by rw [hj₀w]; exact hw_unused) hd
    obtain ⟨best, hbest⟩ := Option.ne_none_iff_exists'.1 hsome
    obtain ⟨hibest, hbestlen, hbest_unused⟩ :=
      (mwmInner_shape d vertices st.2 i).2 best hbest
    rw [hbest]
    have hvb_mem : vertices.getD best 0 ∈ vertices := getD_mem hbestlen 0
    have hvi_ne_vb : vertices.getD i 0 ≠ vertices.getD best 0 := by
      rw [List.getD_eq_getElem _ _ hi, List.getD_eq_getElem _ _ hbestlen]
      intro h
      have := (List.Nodup.getElem_inj_iff hvnd).1 h
      omega
    have hvi_notin : vertices.getD i 0 ∉ pairNodes st.1 := fun h => by
      rw [(hinv.used_iff _).2 h] at husedf
      cases husedf
    have hvb_notin : vertices.getD best 0 ∉ pairNodes st.1 := fun h => by
      rw [(hinv.used_iff _).2 h] at hbest_unused
      cases hbest_unused
    refine ⟨?_, ?_, ?_, ?_⟩
    · intro p hp
      rcases List.mem_append.1 hp with hp | hp
      · exact hinv.mem p hp
      · rw [List.mem_singleton] at hp
        rw [hp]
        exact ⟨hvi_mem, hvb_mem, hvi_ne_vb⟩
    · rw [pairNodes_append, List.nodup_append]
      refine ⟨hinv.nodup, ?_, ?_⟩
      · rw [List.nodup_cons, List.mem_singleton]
        exact ⟨hvi_ne_vb, List.nodup_singleton _⟩
      intro a ha hab
      rcases List.mem_cons.1 hab with rfl | hab
      · exact hvi_notin ha
      · rw [List.mem_singleton] at hab
        rw [hab] at ha
        exact hvb_notin ha
    · intro v
      dsimp only
      rw [pairNodes_append]
      by_cases hv1 : v = vertices.getD i 0
      · rw [if_pos hv1]
        subst hv1
        simp
      · rw [if_neg hv1]
        by_cases hv2 : v = vertices.getD best 0
        · rw [if_pos hv2]
          subst hv2
          simp
        · rw [if_neg hv2]
          rw [hinv.used_iff v, List.mem_append]
          constructor
          · exact Or.inl
          · rintro (h | h)
            · exact h
            · rcases List.mem_cons.1 h with h' | h'
              · exact absurd h' hv1
              · rw [List.mem_singleton] at h'
                exact absurd h' hv2
    · intro j hj
      dsimp only
      rcases Nat.lt_succ_iff_lt_or_eq.1 hj with hj | rfl
      · have hold := hinv.before j hj
        by_cases h1 : vertices.getD j 0 = vertices.getD i 0
        · rw [if_pos h1]
        · rw [if_neg h1]
          by_cases h2 : vertices.getD j 0 = vertices.getD best 0
          · rw [if_pos h2]
          · rw [if_neg h2]
            exact hold
      · rw [if_pos rfl]

theorem mwmFold_inv {d : Mat α} {n : ℕ} {vertices : List ℕ}
    (hval : ValidMatrix d n) (hvnd : vertices.Nodup)
    (hvb : ∀ x ∈ vertices, x < n) (heven : Even vertices.length)
    (i : ℕ) (hi : i ≤ vertices.length) :
    MWMInv vertices i (mwmFold d vertices i) := by
  induction i with
  | zero =>
      show MWMInv vertices 0
        (([], fun _ => false) : List (ℕ × ℕ) × (ℕ → Bool))
      refine ⟨?_, ?_, ?_, ?_⟩
      · intro p hp
        cases hp
      · exact List.nodup_nil
      · intro v
        constructor
        · intro h
          cases h
        · intro h
          cases h
      · intro j hj
        omega
  | succ k ih =>
      rw [mwmFold_succ]
      exact mwmStep_inv hval hvnd hvb heven (by omega) (ih (by omega))

/-- Every vertex of an even-length valid vertex list is matched, in
exactly one pair of the greedy matching. -/
theorem mwm_complete {d : Mat α} {n : ℕ} {vertices : List ℕ}
    (hval : ValidMatrix d n) (hvnd : vertices.Nodup)
    (hvb : ∀ x ∈ vertices, x < n) (heven : Even vertices.length) :
    (∀ v ∈ vertices, v ∈ pairNodes (minimumWeightMatching d vertices)) ∧
    (pairNodes (minimumWeightMatching d vertices)).Nodup ∧
    (∀ p ∈ minimumWeightMatching d vertices,
      p.1 ∈ vertices ∧ p.2 ∈ vertices ∧ p.1 ≠ p.2) := by
  have hinv := mwmFold_inv hval hvnd hvb heven vertices.length (le_refl _)
  rw [mwm_eq_fold]
  refine ⟨?_, hinv.nodup, hinv.mem⟩
  intro v hv
  obtain ⟨j, hj, hjv⟩ := List.mem_iff_getElem.1 hv
  have := hinv.before j hj
  rw [List.getD_eq_getElem _ _ hj, hjv] at this
  exact (hinv.used_iff v).1 this

/-! ## Machinery for Christofides: the Eulerian multigraph -/

/-- Occurrence count of a vertex in an adjacency list. -/
def cnt (v : ℕ) : List ℕ → ℕ
  | [] => 0
  | x :: t => (if x = v then 1 else 0) + cnt v t

theorem cnt_append (v : ℕ) (l₁ l₂ : List ℕ) :
    cnt v (l₁ ++ l₂) = cnt v l₁ + cnt v l₂ := by
  induction l₁ with
  | nil => simp [cnt]
  | cons x t ih =>
      show (if x = v then 1 else 0) + cnt v (t ++ l₂) = _
      rw [ih]
      show _ = (if x = v then 1 else 0) + cnt v t + cnt v l₂
      omega

theorem cnt_pos_iff_mem (v : ℕ) (l : List ℕ) : 0 < cnt v l ↔ v ∈ l := by
  induction l with
  | nil => simp [cnt]
  | cons x t ih =>
      show 0 < (if x = v then 1 else 0) + cnt v t ↔ _
      rw [List.mem_cons]
      by_cases h : x = v
      · rw [if_pos h]
        constructor
        · intro _
          exact Or.inl h.symm
        · intro _
          omega
      · rw [if_neg h]
        simp only [Nat.zero_add]
        rw [ih]
        constructor
        · exact Or.inr
        · rintro (rfl | hm)
          · exact absurd rfl h
          · exact hm

theorem cnt_eq_zero_of_not_mem {v : ℕ} {l : List ℕ} (h : v ∉ l) :
    cnt v l = 0 := by
  rcases Nat.eq_zero_or_pos (cnt v l) with h0 | h0
  · exact h0
  · exact absurd ((cnt_pos_iff_mem v l).1 h0) h

theorem cnt_eq_one_of_nodup_mem {v : ℕ} {l : List ℕ} (hnd : l.Nodup)
    (h : v ∈ l) : cnt v l = 1 := by
  induction l with
  | nil => cases h
  | cons x t ih =>
      rw [List.nodup_cons] at hnd
      show (if x = v then 1 else 0) + cnt v t = 1
      rcases List.mem_cons.1 h with rfl | hm
      · rw [if_pos rfl, cnt_eq_zero_of_not_mem hnd.1]
      · have hx : ¬(x = v) := fun he => hnd.1 (he ▸ hm)
        rw [if_neg hx, ih hnd.2 hm]

theorem cnt_erase_self (v : ℕ) (l : List ℕ) :
    cnt v (l.erase v) = cnt v l - 1 := by
  induction l with
  | nil => rfl
  | cons x t ih =>
      by_cases h : x = v
      · subst h
        rw [List.erase_cons_head]
        show cnt x t = (if x = x then 1 else 0) + cnt x t - 1
        rw [if_pos rfl]
        omega
      · rw [List.erase_cons_tail (by simpa using h)]
        show (if x = v then 1 else 0) + cnt v (t.erase v)
          = (if x = v then 1 else 0) + cnt v t - 1
        rw [if_neg h, ih]
        omega

theorem cnt_erase_ne {v w : ℕ} (hne : w ≠ v) (l : List ℕ) :
    cnt v (l.erase w) = cnt v l := by
  induction l with
  | nil => rfl
  | cons x t ih =>
      by_cases h : x = w
      · subst h
        rw [List.erase_cons_head]
        show cnt v t = (if x = v then 1 else 0) + cnt v t
        rw [if_neg hne]
        omega
      · rw [List.erase_cons_tail (by simpa using h)]
        show (if x = v then 1 else 0) + cnt v (t.erase w)
          = (if x = v then 1 else 0) + cnt v t
        rw [ih]

theorem cnt_dropLast_getLast {l : List ℕ} (h : l ≠ []) (v : ℕ) :
    cnt v l = cnt v l.dropLast + (if l.getLastD 0 = v then 1 else 0) := by
  have hdecomp : l = l.dropLast ++ [l.getLastD 0] := by
    rw [List.getLastD_eq_getLast?, List.getLast?_eq_getLast l h]
    simp only [Option.getD_some]
    exact (List.dropLast_append_getLast h).symm
  conv_lhs => rw [hdecomp]
  rw [cnt_append]
  show _ + ((if l.getLastD 0 = v then 1 else 0) + 0) = _
  omega

/-! ### `List.set` and `addEdgeAdj` -/

theorem getD_set_self (g : List (List ℕ)) (v : ℕ) (l : List ℕ)
    (h : v < g.length) : (g.set v l).getD v [] = l := by
  induction g generalizing v with
  | nil => simp at h
  | cons hd tl ih =>
      cases v with
      | zero => rfl
      | succ v =>
          show (tl.set v l).getD v [] = l
          exact ih v (by simpa using Nat.lt_of_succ_lt_succ h)

theorem getD_set_ne (g : List (List ℕ)) {v w : ℕ} (l : List ℕ)
    (h : v ≠ w) : (g.set v l).getD w [] = g.getD w [] := by
  induction g generalizing v w with
  | nil => rfl
  | cons hd tl ih =>
      cases v with
      | zero =>
          cases w with
          | zero => exact absurd rfl h
          | succ w => rfl
      | succ v =>
          cases w with
          | zero => rfl
          | succ w =>
              show (tl.set v l).getD w [] = tl.getD w []
              exact ih (fun he => h (by rw [he]))

theorem addEdgeAdj_length (g : List (List ℕ)) (a b : ℕ) :
    (addEdgeAdj g a b).length = g.length := by
  unfold addEdgeAdj
  rw [List.length_set, List.length_set]

theorem addEdgeAdj_getD_a (g : List (List ℕ)) {a b : ℕ} (hab : a ≠ b)
    (ha : a < g.length) :
    (addEdgeAdj g a b).getD a [] = g.getD a [] ++ [b] := by
  unfold addEdgeAdj
  rw [getD_set_ne _ _ (fun he => hab he.symm), getD_set_self _ _ _ ha]

theorem addEdgeAdj_getD_b (g : List (List ℕ)) {a b : ℕ} (hab : a ≠ b)
    (ha : a < g.length) (hb : b < g.length) :
    (addEdgeAdj g a b).getD b [] = g.getD b [] ++ [a] := by
  unfold addEdgeAdj
  rw [getD_set_self _ _ _ (by rwa [List.length_set]),
    getD_set_ne _ _ hab]

theorem addEdgeAdj_getD_other (g : List (List ℕ)) {a b v : ℕ}
    (hva : v ≠ a) (hvb : v ≠ b) :
    (addEdgeAdj g a b).getD v [] = g.getD v [] := by
  unfold addEdgeAdj
  rw [getD_set_ne _ _ (fun he => hvb he.symm),
    getD_set_ne _ _ (fun he => hva he.symm)]

/-- Overlay a list of undirected edges onto an adjacency multigraph. -/
def addEdges (g : List (List ℕ)) (es : List (ℕ × ℕ)) : List (List ℕ) :=
  es.foldl (fun g e => addEdgeAdj g e.1 e.2) g

theorem buildEulerianGraph_eq (n : ℕ) (mst : List (MSTEdge α))
    (matching : List (ℕ × ℕ)) :
    buildEulerianGraph n mst matching
      = addEdges (addEdges (List.replicate n ([] : List ℕ))
          (mst.map (fun e => (e.efrom, e.eto)))) matching := by
  unfold buildEulerianGraph addEdges
  rw [List.foldl_map]

theorem addEdges_length (g : List (List ℕ)) (es : List (ℕ × ℕ)) :
    (addEdges g es).length = g.length := by
  induction es generalizing g with
  | nil => rfl
  | cons e es ih =>
      show (addEdges (addEdgeAdj g e.1 e.2) es).length = _
      rw [ih, addEdgeAdj_length]

/-- Degree bookkeeping: overlaying edges adds, at each vertex, as many
adjacency entries as its occurrences among the edge endpoints. -/
theorem addEdges_deg (g : List (List ℕ)) (es : List (ℕ × ℕ))
    (hok : ∀ e ∈ es, e.1 < g.length ∧ e.2 < g.length ∧ e.1 ≠ e.2)
    (v : ℕ) :
    ((addEdges g es).getD v []).length
      = (g.getD v []).length + cnt v (pairNodes es) := by
  induction es generalizing g with
  | nil =>
      show (g.getD v []).length = (g.getD v []).length + cnt v []
      rfl
  | cons e es ih =>
      obtain ⟨ha, hb, hab⟩ := hok e (List.mem_cons_self _ _)
      have hok' : ∀ e' ∈ es, e'.1 < (addEdgeAdj g e.1 e.2).length ∧
          e'.2 < (addEdgeAdj g e.1 e.2).length ∧ e'.1 ≠ e'.2 := by
        intro e' he'
        rw [addEdgeAdj_length]
        exact hok e' (List.mem_cons_of_mem _ he')
      show ((addEdges (addEdgeAdj g e.1 e.2) es).getD v []).length = _
      rw [ih _ hok']
      have hstep : ((addEdgeAdj g e.1 e.2).getD v []).length
          = (g.getD v []).length + (if e.1 = v then 1 else 0)
            + (if e.2 = v then 1 else 0) := by
        by_cases hva : v = e.1
        · rw [← hva] at ha hab ⊢
          rw [addEdgeAdj_getD_a g hab ha, List.length_append,
            if_pos rfl, if_neg (fun he => hab he.symm)]
          rfl
        · by_cases hvb : v = e.2
          · rw [← hvb] at hb hab ⊢
            rw [addEdgeAdj_getD_b g hab ha hb, List.length_append,
              if_neg (fun he => hva he.symm), if_pos rfl]
            rfl
          · rw [addEdgeAdj_getD_other g hva hvb,
              if_neg (fun he => hva he.symm), if_neg (fun he => hvb he.symm)]
            omega
      rw [hstep]
      show _ = _ + ((if e.1 = v then 1 else 0)
        + ((if e.2 = v then 1 else 0) + cnt v (pairNodes es)))
      omega

/-- Count-symmetry of an adjacency multigraph. -/
def SymAdj (g : List (List ℕ)) : Prop :=
  ∀ x y, cnt y (g.getD x []) = cnt x (g.getD y [])

/-- Absence of self-loops. -/
def NSL (g : List (List ℕ)) : Prop := ∀ v, v ∉ g.getD v []

/-- All adjacency entries below `n`. -/
def AllLtAdj (n : ℕ) (g : List (List ℕ)) : Prop :=
  ∀ v, ∀ x ∈ g.getD v [], x < n

theorem addEdgeAdj_cnt (g : List (List ℕ)) {a b : ℕ} (hab : a ≠ b)
    (ha : a < g.length) (hb : b < g.length) (x y : ℕ) :
    cnt y ((addEdgeAdj g a b).getD x [])
      = cnt y (g.getD x []) + (if x = a ∧ y = b then 1 else 0)
        + (if x = b ∧ y = a then 1 else 0) := by
  by_cases hxa : x = a
  · subst hxa
    rw [addEdgeAdj_getD_a g hab ha, cnt_append]
    show _ + ((if b = y then 1 else 0) + 0) = _
    split_ifs <;> omega
  · by_cases hxb : x = b
    · subst hxb
      rw [addEdgeAdj_getD_b g hab ha hb, cnt_append]
      show _ + ((if a = y then 1 else 0) + 0) = _
      split_ifs <;> omega
    · rw [addEdgeAdj_getD_other g hxa hxb]
      split_ifs <;> omega

theorem addEdgeAdj_sym {g : List (List ℕ)} {a b : ℕ} (hab : a ≠ b)
    (ha : a < g.length) (hb : b < g.length) (hs : SymAdj g) :
    SymAdj (addEdgeAdj g a b) := by
  intro x y
  rw [addEdgeAdj_cnt g hab ha hb x y, addEdgeAdj_cnt g hab ha hb y x,
    hs x y]
  split_ifs <;> omega

theorem addEdgeAdj_nsl {g : List (List ℕ)} {a b : ℕ} (hab : a ≠ b)
    (ha : a < g.length) (hb : b < g.length) (h : NSL g) :
    NSL (addEdgeAdj g a b) := by
  intro v hv
  by_cases hva : v = a
  · subst hva
    rw [addEdgeAdj_getD_a g hab ha] at hv
    rcases List.mem_append.1 hv with hv | hv
    · exact h v hv
    · rw [List.mem_singleton] at hv
      exact hab hv
  · by_cases hvb : v = b
    · subst hvb
      rw [addEdgeAdj_getD_b g hab ha hb] at hv
      rcases List.mem_append.1 hv with hv | hv
      · exact h v hv
      · rw [List.mem_singleton] at hv
        exact hab hv.symm
    · rw [addEdgeAdj_getD_other g hva hvb] at hv
      exact h v hv

theorem addEdgeAdj_alllt {n : ℕ} {g : List (List ℕ)} {a b : ℕ}
    (hab : a ≠ b) (ha : a < g.length) (hb : b < g.length)
    (han : a < n) (hbn : b < n) (h : AllLtAdj n g) :
    AllLtAdj n (addEdgeAdj g a b) := by
  intro v x hx
  by_cases hva : v = a
  · subst hva
    rw [addEdgeAdj_getD_a g hab ha] at hx
    rcases List.mem_append.1 hx with hx | hx
    · exact h v x hx
    · rw [List.mem_singleton] at hx
      omega
  · by_cases hvb : v = b
    · subst hvb
      rw [addEdgeAdj_getD_b g hab ha hb] at hx
      rcases List.mem_append.1 hx with hx | hx
      · exact h v x hx
      · rw [List.mem_singleton] at hx
        omega
    · rw [addEdgeAdj_getD_other g hva hvb] at hx
      exact h v x hx

theorem addEdgeAdj_mem_mono {g : List (List ℕ)} {a b v x : ℕ}
    (hab : a ≠ b) (ha : a < g.length) (hb : b < g.length)
    (hx : x ∈ g.getD v []) : x ∈ (addEdgeAdj g a b).getD v [] := by
  by_cases hva : v = a
  · subst hva
    rw [addEdgeAdj_getD_a g hab ha]
    exact List.mem_append_left _ hx
  · by_cases hvb : v = b
    · subst hvb
      rw [addEdgeAdj_getD_b g hab ha hb]
      exact List.mem_append_left _ hx
    · rw [addEdgeAdj_getD_other g hva hvb]
      exact hx

theorem addEdges_sym {g : List (List ℕ)} {es : List (ℕ × ℕ)}
    (hok : ∀ e ∈ es, e.1 < g.length ∧ e.2 < g.length ∧ e.1 ≠ e.2)
    (hs : SymAdj g) : SymAdj (addEdges g es) := by
  induction es generalizing g with
  | nil => exact hs
  | cons e es ih =>
      obtain ⟨ha, hb, hab⟩ := hok e (List.mem_cons_self _ _)
      refine ih (fun e' he' => ?_) (addEdgeAdj_sym hab ha hb hs)
      rw [addEdgeAdj_length]
      exact hok e' (List.mem_cons_of_mem _ he')

theorem addEdges_nsl {g : List (List ℕ)} {es : List (ℕ × ℕ)}
    (hok : ∀ e ∈ es, e.1 < g.length ∧ e.2 < g.length ∧ e.1 ≠ e.2)
    (h : NSL g) : NSL (addEdges g es) := by
  induction es generalizing g with
  | nil => exact h
  | cons e es ih =>
      obtain ⟨ha, hb, hab⟩ := hok e (List.mem_cons_self _ _)
      refine ih (fun e' he' => ?_) (addEdgeAdj_nsl hab ha hb h)
      rw [addEdgeAdj_length]
      exact hok e' (List.mem_cons_of_mem _ he')

theorem addEdges_alllt {n : ℕ} {g : List (List ℕ)} {es : List (ℕ × ℕ)}
    (hok : ∀ e ∈ es, e.1 < g.length ∧ e.2 < g.length ∧ e.1 ≠ e.2)
    (hokn : ∀ e ∈ es, e.1 < n ∧ e.2 < n)
    (h : AllLtAdj n g) : AllLtAdj n (addEdges g es) := by
  induction es generalizing g with
  | nil => exact h
  | cons e es ih =>
      obtain ⟨ha, hb, hab⟩ := hok e (List.mem_cons_self _ _)
      obtain ⟨han, hbn⟩ := hokn e (List.mem_cons_self _ _)
      refine ih (fun e' he' => ?_) (fun e' he' =>
          hokn e' (List.mem_cons_of_mem _ he'))
        (addEdgeAdj_alllt hab ha hb han hbn h)
      rw [addEdgeAdj_length]
      exact hok e' (List.mem_cons_of_mem _ he')

theorem addEdges_mem_mono {g : List (List ℕ)} {es : List (ℕ × ℕ)}
    (hok : ∀ e ∈ es, e.1 < g.length ∧ e.2 < g.length ∧ e.1 ≠ e.2)
    {v x : ℕ} (hx : x ∈ g.getD v []) :
    x ∈ (addEdges g es).getD v [] := by
  induction es generalizing g with
  | nil => exact hx
  | cons e es ih =>
      obtain ⟨ha, hb, hab⟩ := hok e (List.mem_cons_self _ _)
      refine ih (fun e' he' => ?_) (addEdgeAdj_mem_mono hab ha hb hx)
      rw [addEdgeAdj_length]
      exact hok e' (List.mem_cons_of_mem _ he')

theorem addEdges_edge_mem {g : List (List ℕ)} {es : List (ℕ × ℕ)}
    (hok : ∀ e ∈ es, e.1 < g.length ∧ e.2 < g.length ∧ e.1 ≠ e.2) :
    ∀ e ∈ es, e.2 ∈ (addEdges g es).getD e.1 [] ∧
      e.1 ∈ (addEdges g es).getD e.2 [] := by
  induction es generalizing g with
  | nil => intro e he; cases he
  | cons e₀ es ih =>
      obtain ⟨ha, hb, hab⟩ := hok e₀ (List.mem_cons_self _ _)
      have hok' : ∀ e' ∈ es, e'.1 < (addEdgeAdj g e₀.1 e₀.2).length ∧
          e'.2 < (addEdgeAdj g e₀.1 e₀.2).length ∧ e'.1 ≠ e'.2 := by
        intro e' he'
        rw [addEdgeAdj_length]
        exact hok e' (List.mem_cons_of_mem _ he')
      intro e he
      rcases List.mem_cons.1 he with rfl | he
      · constructor
        · refine addEdges_mem_mono hok' ?_
          rw [addEdgeAdj_getD_a g hab ha]
          exact List.mem_append_right _ (List.mem_singleton_self _)
        · refine addEdges_mem_mono hok' ?_
          rw [addEdgeAdj_getD_b g hab ha hb]
          exact List.mem_append_right _ (List.mem_singleton_self _)
      · exact ih hok' e he

theorem replicate_getD (n v : ℕ) :
    (List.replicate n ([] : List ℕ)).getD v [] = [] := by
  rcases Nat.lt_or_ge v n with h | h
  · rw [List.getD_eq_getElem _ _ (by simpa using h)]
    simp
  · exact List.getD_eq_default _ _ (by simpa using h)

theorem bumpDeg_two (deg : ℕ → ℕ) (a b v : ℕ) :
    bumpDeg (bumpDeg deg a) b v
      = deg v + (if a = v then 1 else 0) + (if b = v then 1 else 0) := by
  unfold bumpDeg
  split_ifs <;> omega

theorem mstDegree_eq_cnt (mst : List (MSTEdge α)) (v : ℕ) :
    mstDegree mst v
      = cnt v (pairNodes (mst.map (fun e => (e.efrom, e.eto)))) := by
  induction mst using List.reverseRecOn with
  | nil => rfl
  | append_singleton mst e ih =>
      rw [mstDegree_append, bumpDeg_two, ih, List.map_append,
        List.map_singleton, pairNodes_append, cnt_append]
      show _ = _ + ((if e.efrom = v then 1 else 0)
        + ((if e.eto = v then 1 else 0) + 0))
      omega

/-! ## Machinery for Christofides: shortcutting -/

/-- The step of the shortcut fold (skip vertices already emitted). -/
def shortcutStep (st : List ℕ × (ℕ → Bool)) (v : ℕ) :
    List ℕ × (ℕ → Bool) :=
  if st.2 v then st
  else (st.1 ++ [v], fun k => if k = v then true else st.2 k)

theorem shortcut_eq (c : List ℕ) :
    shortcut c = (c.foldl shortcutStep ([], fun _ => false)).1 := rfl

theorem shortcut_aux (c : List ℕ) :
    ∀ acc : List ℕ × (ℕ → Bool), acc.1.Nodup →
      (∀ v, acc.2 v = true ↔ v ∈ acc.1) →
      (c.foldl shortcutStep acc).1.Nodup ∧
      (∀ v, (c.foldl shortcutStep acc).2 v = true ↔
        v ∈ (c.foldl shortcutStep acc).1) ∧
      (∀ x, x ∈ (c.foldl shortcutStep acc).1 ↔ x ∈ acc.1 ∨ x ∈ c) := by
  induction c with
  | nil =>
      intro acc hnd hiff
      refine ⟨hnd, hiff, fun x => ?_⟩
      simp
  | cons v c ih =>
      intro acc hnd hiff
      rw [List.foldl_cons]
      by_cases hv : acc.2 v
      · have hstep : shortcutStep acc v = acc := by
          unfold shortcutStep
          rw [if_pos hv]
        rw [hstep]
        obtain ⟨h1, h2, h3⟩ := ih acc hnd hiff
        refine ⟨h1, h2, fun x => ?_⟩
        rw [h3 x, List.mem_cons]
        constructor
        · rintro (hx | hx)
          · exact Or.inl hx
          · exact Or.inr (Or.inr hx)
        · rintro (hx | rfl | hx)
          · exact Or.inl hx
          · exact Or.inl ((hiff x).1 hv)
          · exact Or.inr hx
      · have hstep : shortcutStep acc v
            = (acc.1 ++ [v], fun k => if k = v then true else acc.2 k) := by
          unfold shortcutStep
          rw [if_neg hv]
        rw [hstep]
        have hvnotin : v ∉ acc.1 := fun h => hv ((hiff v).2 h)
        have hnd' : (acc.1 ++ [v]).Nodup := by
          rw [← List.concat_eq_append]
          exact hnd.concat hvnotin
        have hiff' : ∀ w, (if w = v then true else acc.2 w) = true ↔
            w ∈ acc.1 ++ [v] := by
          intro w
          by_cases hw : w = v
          · rw [if_pos hw, hw]
            simp
          · rw [if_neg hw, List.mem_append, List.mem_singleton]
            rw [hiff w]
            exact ⟨Or.inl, fun h => h.resolve_right hw⟩
        obtain ⟨h1, h2, h3⟩ := ih
          (acc.1 ++ [v], fun k => if k = v then true else acc.2 k)
          hnd' hiff'
        refine ⟨h1, h2, fun x => ?_⟩
        rw [h3 x]
        dsimp only
        rw [List.mem_append, List.mem_singleton, List.mem_cons]
        constructor
        · rintro ((hx | rfl) | hx)
          · exact Or.inl hx
          · exact Or.inr (Or.inl rfl)
          · exact Or.inr (Or.inr hx)
        · rintro (hx | rfl | hx)
          · exact Or.inl (Or.inl hx)
          · exact Or.inl (Or.inr rfl)
          · exact Or.inr hx

theorem shortcut_spec (c : List ℕ) :
    (shortcut c).Nodup ∧ (∀ x, x ∈ shortcut c ↔ x ∈ c) := by
  rw [shortcut_eq]
  obtain ⟨h1, h2, h3⟩ := shortcut_aux c ([], fun _ => false)
    List.nodup_nil (fun v => by constructor <;> intro h <;> cases h)
  refine ⟨h1, fun x => ?_⟩
  rw [h3 x]
  constructor
  · rintro (hx | hx)
    · cases hx
    · exact hx
  · exact Or.inr

/-! ## The Eulerian multigraph of `christofidesTSP` -/

theorem buildEulerianGraph_length (n : ℕ) (mst : List (MSTEdge α))
    (matching : List (ℕ × ℕ)) :
    (buildEulerianGraph n mst matching).length = n := by
  rw [buildEulerianGraph_eq, addEdges_length, addEdges_length,
    List.length_replicate]

/-- Degree identity for the overlay multigraph: the adjacency degree is
the MST degree plus the number of matched-pair occurrences. -/
theorem buildEulerianGraph_deg {n : ℕ} {mst : List (MSTEdge α)}
    {matching : List (ℕ × ℕ)}
    (hmst : ∀ e ∈ mst, e.efrom < n ∧ e.eto < n ∧ e.efrom ≠ e.eto)
    (hmatch : ∀ p ∈ matching, p.1 < n ∧ p.2 < n ∧ p.1 ≠ p.2) (v : ℕ) :
    ((buildEulerianGraph n mst matching).getD v []).length
      = mstDegree mst v + cnt v (pairNodes matching) := by
  have hok1 : ∀ e ∈ mst.map (fun e => (e.efrom, e.eto)),
      e.1 < (List.replicate n ([] : List ℕ)).length ∧
      e.2 < (List.replicate n ([] : List ℕ)).length ∧ e.1 ≠ e.2 := by
    intro e he
    obtain ⟨e', he', rfl⟩ := List.mem_map.1 he
    rw [List.length_replicate]
    exact hmst e' he'
  have hok2 : ∀ p ∈ matching,
      p.1 < (addEdges (List.replicate n ([] : List ℕ))
        (mst.map (fun e => (e.efrom, e.eto)))).length ∧
      p.2 < (addEdges (List.replicate n ([] : List ℕ))
        (mst.map (fun e => (e.efrom, e.eto)))).length ∧ p.1 ≠ p.2 := by
    intro p hp
    rw [addEdges_length, List.length_replicate]
    exact hmatch p hp
  rw [buildEulerianGraph_eq, addEdges_deg _ _ hok2 v,
    addEdges_deg _ _ hok1 v, replicate_getD, mstDegree_eq_cnt]
  simp

/-! ## Claim C4: the Christofides structural invariants -/

/-- Claim C4: on a valid matrix, the odd-MST-degree vertex set has even
size; every odd vertex lies in exactly one matching pair; the overlay
multigraph has even degree at every vertex; and the shortcut path has no
repeated entries. -/
theorem claim_C4 (d : Mat α) (n : ℕ) (t : ℚ) (hval : ValidMatrix d n) :
    Even (oddVertices n (mstDegree (primMST d n))).length ∧
    (∀ v ∈ oddVertices n (mstDegree (primMST d n)),
      ((minimumWeightMatching d
        (oddVertices n (mstDegree (primMST d n)))).filter
          (fun p => v = p.1 ∨ v = p.2)).length = 1) ∧
    (∀ v, Even (((buildEulerianGraph n (primMST d n)
        (minimumWeightMatching d
          (oddVertices n (mstDegree (primMST d n))))).getD v []).length)) ∧
    (christofidesTSP d n t).path.Nodup := by
  have hmst := primMST_edges hval
  have hoddnd : (oddVertices n (mstDegree (primMST d n))).Nodup :=
    (List.nodup_range n).filter _
  have hoddb : ∀ x ∈ oddVertices n (mstDegree (primMST d n)), x < n := by
    intro x hx
    unfold oddVertices at hx
    exact List.mem_range.1 (List.mem_of_mem_filter hx)
  have hoddmem : ∀ x, x ∈ oddVertices n (mstDegree (primMST d n)) ↔
      x < n ∧ mstDegree (primMST d n) x % 2 = 1 := by
    intro x
    unfold oddVertices
    rw [List.mem_filter, List.mem_range]
    constructor
    · rintro ⟨h1, h2⟩
      exact ⟨h1, by simpa using h2⟩
    · rintro ⟨h1, h2⟩
      exact ⟨h1, by simpa using h2⟩
  have heven := oddVertices_even_length hval
  obtain ⟨hcomplete, hpnnd, hpairs⟩ :=
    mwm_complete hval hoddnd hoddb heven
  have hmatchok : ∀ p ∈ minimumWeightMatching d
      (oddVertices n (mstDegree (primMST d n))),
      p.1 < n ∧ p.2 < n ∧ p.1 ≠ p.2 := by
    intro p hp
    obtain ⟨h1, h2, h3⟩ := hpairs p hp
    exact ⟨hoddb _ h1, hoddb _ h2, h3⟩
  refine ⟨heven, ?_, ?_, ?_⟩
  · intro v hv
    exact filter_pairs_eq_one _ hpnnd v (hcomplete v hv)
  · intro v
    rw [buildEulerianGraph_deg hmst hmatchok v]
    by_cases hvodd : v ∈ oddVertices n (mstDegree (primMST d n))
    · have hcnt1 : cnt v (pairNodes (minimumWeightMatching d
          (oddVertices n (mstDegree (primMST d n))))) = 1 :=
        cnt_eq_one_of_nodup_mem hpnnd (hcomplete v hvodd)
      have hodd : mstDegree (primMST d n) v % 2 = 1 :=
        ((hoddmem v).1 hvodd).2
      rw [hcnt1, Nat.even_iff]
      omega
    · have hcnt0 : cnt v (pairNodes (minimumWeightMatching d
          (oddVertices n (mstDegree (primMST d n))))) = 0 := by
        refine cnt_eq_zero_of_not_mem (fun hmem => ?_)
        obtain ⟨p, hp, hvor⟩ := (mem_pairNodes _ v).1 hmem
        obtain ⟨h1, h2, -⟩ := hpairs p hp
        rcases hvor with rfl | rfl
        · exact hvodd h1
        · exact hvodd h2
      rw [hcnt0, Nat.even_iff]
      by_cases hvn : v < n
      · have : ¬(mstDegree (primMST d n) v % 2 = 1) := fun h =>
          hvodd ((hoddmem v).2 ⟨hvn, h⟩)
        omega
      · -- vertices at or beyond n have MST degree 0
        have hdeg0 : mstDegree (primMST d n) v = 0 := by
          rw [mstDegree_eq_cnt]
          refine cnt_eq_zero_of_not_mem (fun hmem => ?_)
          obtain ⟨p, hp, hvor⟩ := (mem_pairNodes _ v).1 hmem
          obtain ⟨e, he, rfl⟩ := List.mem_map.1 hp
          obtain ⟨h1, h2, -⟩ := hmst e he
          rcases hvor with rfl | rfl
          · omega
          · omega
        omega
  · have hpath : (christofidesTSP d n t).path
        = shortcut (findEulerianCircuit (buildEulerianGraph n (primMST d n)
            (minimumWeightMatching d
              (oddVertices n (mstDegree (primMST d n))))) 0) := rfl
    rw [hpath]
    exact (shortcut_spec _).1

/-- Claim C4 witnessed on a concrete 3-node matrix. -/
theorem claim_C4_witness :
    ValidMatrix exMat3 3 ∧
    (Even (oddVertices 3 (mstDegree (primMST exMat3 3))).length ∧
    (∀ v ∈ oddVertices 3 (mstDegree (primMST exMat3 3)),
      ((minimumWeightMatching exMat3
        (oddVertices 3 (mstDegree (primMST exMat3 3)))).filter
          (fun p => v = p.1 ∨ v = p.2)).length = 1) ∧
    (∀ v, Even (((buildEulerianGraph 3 (primMST exMat3 3)
        (minimumWeightMatching exMat3
          (oddVertices 3 (mstDegree (primMST exMat3 3))))).getD v []).length)) ∧
    (christofidesTSP exMat3 3 0).path.Nodup) :=
  ⟨by decide, claim_C4 exMat3 3 0 (by decide)⟩

/-! ## Machinery for Christofides: the Eulerian walk -/

/-- Support adjacency of a multigraph. -/
def Adj (g : List (List ℕ)) (a b : ℕ) : Prop := b ∈ g.getD a []

/-- The post-traversal graph of the walk: one copy of the edge between
the stack top `v` and the last entry `u` of its list removed in both
directions. -/
def eulerTraverse (g : List (List ℕ)) (v : ℕ) : List (List ℕ) :=
  (g.set v (g.getD v []).dropLast).set ((g.getD v []).getLastD 0)
    (((g.set v (g.getD v []).dropLast).getD
      ((g.getD v []).getLastD 0) []).erase v)

theorem eulerStep_traverse (g : List (List ℕ)) (v : ℕ)
    (rest circuit : List ℕ) (h : g.getD v [] ≠ []) :
    eulerStep g (v :: rest) circuit
      = (eulerTraverse g v,
         (g.getD v []).getLastD 0 :: v :: rest, circuit) := by
  unfold eulerTraverse
  show (if g.getD v [] = [] then (g, rest, circuit ++ [v])
    else ((g.set v (g.getD v []).dropLast).set ((g.getD v []).getLastD 0)
        (((g.set v (g.getD v []).dropLast).getD
          ((g.getD v []).getLastD 0) []).erase v),
      (g.getD v []).getLastD 0 :: v :: rest, circuit)) = _
  rw [if_neg h]

theorem eulerStep_pop (g : List (List ℕ)) (v : ℕ)
    (rest circuit : List ℕ) (h : g.getD v [] = []) :
    eulerStep g (v :: rest) circuit = (g, rest, circuit ++ [v]) := by
  show (if g.getD v [] = [] then (g, rest, circuit ++ [v])
    else ((g.set v (g.getD v []).dropLast).set ((g.getD v []).getLastD 0)
        (((g.set v (g.getD v []).dropLast).getD
          ((g.getD v []).getLastD 0) []).erase v),
      (g.getD v []).getLastD 0 :: v :: rest, circuit)) = _
  rw [if_pos h]

theorem adjv_decomp {g : List (List ℕ)} {v : ℕ} (h : g.getD v [] ≠ []) :
    g.getD v [] = (g.getD v []).dropLast ++ [(g.getD v []).getLastD 0] := by
  rw [List.getLastD_eq_getLast?, List.getLast?_eq_getLast _ h]
  simp only [Option.getD_some]
  exact (List.dropLast_append_getLast h).symm

theorem euler_u_mem {g : List (List ℕ)} {v : ℕ} (h : g.getD v [] ≠ []) :
    (g.getD v []).getLastD 0 ∈ g.getD v [] := mem_getLastD h 0

theorem euler_u_ne_v {g : List (List ℕ)} {v : ℕ} (h : g.getD v [] ≠ [])
    (hnsl : NSL g) : (g.getD v []).getLastD 0 ≠ v := by
  intro he
  have hm := euler_u_mem h
  rw [he] at hm
  exact hnsl v hm

theorem euler_v_mem_adju {g : List (List ℕ)} {v : ℕ}
    (h : g.getD v [] ≠ []) (hsym : SymAdj g) :
    v ∈ g.getD ((g.getD v []).getLastD 0) [] := by
  have h1 : 0 < cnt ((g.getD v []).getLastD 0) (g.getD v []) :=
    (cnt_pos_iff_mem _ _).2 (euler_u_mem h)
  rw [hsym v ((g.getD v []).getLastD 0)] at h1
  exact (cnt_pos_iff_mem _ _).1 h1

theorem euler_u_lt {g : List (List ℕ)} {v : ℕ} (h : g.getD v [] ≠ [])
    (hsym : SymAdj g) : (g.getD v []).getLastD 0 < g.length :=
  getD_ne_nil_lt (List.ne_nil_of_mem (euler_v_mem_adju h hsym))

theorem eulerTraverse_getD_v {g : List (List ℕ)} {v : ℕ}
    (h : g.getD v [] ≠ []) (hnsl : NSL g) :
    (eulerTraverse g v).getD v [] = (g.getD v []).dropLast := by
  unfold eulerTraverse
  rw [getD_set_ne _ _ (euler_u_ne_v h hnsl),
    getD_set_self _ _ _ (getD_ne_nil_lt h)]

theorem eulerTraverse_getD_u {g : List (List ℕ)} {v : ℕ}
    (h : g.getD v [] ≠ []) (hsym : SymAdj g) (hnsl : NSL g) :
    (eulerTraverse g v).getD ((g.getD v []).getLastD 0) []
      = (g.getD ((g.getD v []).getLastD 0) []).erase v := by
  unfold eulerTraverse
  rw [getD_set_self _ _ _ (by
      rw [List.length_set]
      exact euler_u_lt h hsym),
    getD_set_ne _ _ (fun he => euler_u_ne_v h hnsl he.symm)]

theorem eulerTraverse_getD_other {g : List (List ℕ)} {v w : ℕ}
    (hwv : w ≠ v) (hwu : w ≠ (g.getD v []).getLastD 0) :
    (eulerTraverse g v).getD w [] = g.getD w [] := by
  unfold eulerTraverse
  rw [getD_set_ne _ _ (fun he => hwu he.symm),
    getD_set_ne _ _ (fun he => hwv he.symm)]

theorem eulerTraverse_length (g : List (List ℕ)) (v : ℕ) :
    (eulerTraverse g v).length = g.length := by
  unfold eulerTraverse
  rw [List.length_set, List.length_set]

/-- Removing the traversed edge only deletes the two directed copies
between `v` and `u`. -/
theorem eulerTraverse_support {g : List (List ℕ)} {v : ℕ}
    (h : g.getD v [] ≠ []) (hsym : SymAdj g) (hnsl : NSL g) :
    ∀ a b, Adj g a b → Adj (eulerTraverse g v) a b ∨
      (a = v ∧ b = (g.getD v []).getLastD 0) ∨
      (a = (g.getD v []).getLastD 0 ∧ b = v) := by
  intro a b hab
  unfold Adj at hab ⊢
  by_cases hav : a = v
  · subst hav
    rw [adjv_decomp h] at hab
    rcases List.mem_append.1 hab with hb | hb
    · left
      rw [eulerTraverse_getD_v h hnsl]
      exact hb
    · rw [List.mem_singleton] at hb
      exact Or.inr (Or.inl ⟨rfl, hb⟩)
  · by_cases hau : a = (g.getD v []).getLastD 0
    · subst hau
      by_cases hbv : b = v
      · exact Or.inr (Or.inr ⟨rfl, hbv⟩)
      · left
        rw [eulerTraverse_getD_u h hsym hnsl]
        exact (List.mem_erase_of_ne hbv).2 hab
    · left
      rw [eulerTraverse_getD_other hav hau]
      exact hab

/-- The traversal only shrinks adjacency lists. -/
theorem eulerTraverse_subset {g : List (List ℕ)} {v : ℕ}
    (h : g.getD v [] ≠ []) (hsym : SymAdj g) (hnsl : NSL g) :
    ∀ a b, b ∈ (eulerTraverse g v).getD a [] → b ∈ g.getD a [] := by
  intro a b hab
  by_cases hav : a = v
  · subst hav
    rw [eulerTraverse_getD_v h hnsl] at hab
    exact (List.dropLast_sublist _).mem hab
  · by_cases hau : a = (g.getD v []).getLastD 0
    · subst hau
      rw [eulerTraverse_getD_u h hsym hnsl] at hab
      exact (List.erase_sublist _ _).mem hab
    · rw [eulerTraverse_getD_other hav hau] at hab
      exact hab

theorem eulerTraverse_nsl {g : List (List ℕ)} {v : ℕ}
    (h : g.getD v [] ≠ []) (hsym : SymAdj g) (hnsl : NSL g) :
    NSL (eulerTraverse g v) := fun a ha =>
  hnsl a (eulerTraverse_subset h hsym hnsl a a ha)

theorem eulerTraverse_alllt {n : ℕ} {g : List (List ℕ)} {v : ℕ}
    (h : g.getD v [] ≠ []) (hsym : SymAdj g) (hnsl : NSL g)
    (hlt : AllLtAdj n g) : AllLtAdj n (eulerTraverse g v) :=
  fun a x hx => hlt a x (eulerTraverse_subset h hsym hnsl a x hx)

theorem eulerTraverse_cnt_v {g : List (List ℕ)} {v : ℕ}
    (h : g.getD v [] ≠ []) (hnsl : NSL g) (y : ℕ) :
    cnt y ((eulerTraverse g v).getD v [])
      = cnt y (g.getD v [])
        - (if (g.getD v []).getLastD 0 = y then 1 else 0) := by
  rw [eulerTraverse_getD_v h hnsl]
  have := cnt_dropLast_getLast h y
  omega

theorem eulerTraverse_cnt_u {g : List (List ℕ)} {v : ℕ}
    (h : g.getD v [] ≠ []) (hsym : SymAdj g) (hnsl : NSL g) (y : ℕ) :
    cnt y ((eulerTraverse g v).getD ((g.getD v []).getLastD 0) [])
      = cnt y (g.getD ((g.getD v []).getLastD 0) [])
        - (if v = y then 1 else 0) := by
  rw [eulerTraverse_getD_u h hsym hnsl]
  by_cases hyv : v = y
  · rw [if_pos hyv, ← hyv, cnt_erase_self]
  · rw [if_neg hyv, cnt_erase_ne hyv]
    omega

theorem eulerTraverse_cnt_all {g : List (List ℕ)} {v : ℕ}
    (h : g.getD v [] ≠ []) (hsym : SymAdj g) (hnsl : NSL g)
    (x y : ℕ) :
    cnt y ((eulerTraverse g v).getD x [])
      = cnt y (g.getD x [])
        - (if x = v then (if (g.getD v []).getLastD 0 = y then 1 else 0)
            else 0)
        - (if x = (g.getD v []).getLastD 0
            then (if v = y then 1 else 0) else 0) := by
  have huv := euler_u_ne_v h hnsl
  by_cases hxv : x = v
  · rw [hxv, if_pos rfl,
      if_neg (show ¬v = (g.getD v []).getLastD 0 from fun he => huv he.symm),
      eulerTraverse_cnt_v h hnsl]
    omega
  · by_cases hxu : x = (g.getD v []).getLastD 0
    · rw [hxu, if_neg huv,
        if_pos (show (g.getD v []).getLastD 0
          = (g.getD v []).getLastD 0 from rfl),
        eulerTraverse_cnt_u h hsym hnsl]
      omega
    · rw [eulerTraverse_getD_other hxv hxu, if_neg hxv, if_neg hxu]
      omega

theorem eulerTraverse_sym {g : List (List ℕ)} {v : ℕ}
    (h : g.getD v [] ≠ []) (hsym : SymAdj g) (hnsl : NSL g) :
    SymAdj (eulerTraverse g v) := by
  intro x y
  have huv := euler_u_ne_v h hnsl
  have hcnt_uv : 1 ≤ cnt ((g.getD v []).getLastD 0) (g.getD v []) :=
    (cnt_pos_iff_mem _ _).2 (euler_u_mem h)
  have hcnt_vu : 1 ≤ cnt v (g.getD ((g.getD v []).getLastD 0) []) :=
    (cnt_pos_iff_mem _ _).2 (euler_v_mem_adju h hsym)
  have hsv := hsym x y
  have hsu := hsym v ((g.getD v []).getLastD 0)
  have hsxv := hsym x v
  have hsxu := hsym x ((g.getD v []).getLastD 0)
  have hsyv := hsym y v
  have hsyu := hsym y ((g.getD v []).getLastD 0)
  rw [eulerTraverse_cnt_all h hsym hnsl x y,
    eulerTraverse_cnt_all h hsym hnsl y x, hsv]
  split_ifs <;> omega

/-- Removing the single (undirected) edge `t - u` from a relation can
only cut a walk at `t` or `u`. -/
theorem reach_of_support {r r' : ℕ → ℕ → Prop} {t u : ℕ}
    (hsup : ∀ a b, r a b → r' a b ∨ (a = t ∧ b = u) ∨ (a = u ∧ b = t))
    {s v : ℕ} (hr : Relation.ReflTransGen r s v) :
    Relation.ReflTransGen r' s v ∨ Relation.ReflTransGen r' t v ∨
      Relation.ReflTransGen r' u v := by
  induction hr with
  | refl => exact Or.inl Relation.ReflTransGen.refl
  | tail hab hbc ih =>
      rcases hsup _ _ hbc with h' | ⟨rfl, rfl⟩ | ⟨rfl, rfl⟩
      · rcases ih with h2 | h2 | h2
        · exact Or.inl (h2.tail h')
        · exact Or.inr (Or.inl (h2.tail h'))
        · exact Or.inr (Or.inr (h2.tail h'))
      · exact Or.inr (Or.inr Relation.ReflTransGen.refl)
      · exact Or.inr (Or.inl Relation.ReflTransGen.refl)

theorem eulerLoopF_circuit_mono (fuel : ℕ) :
    ∀ (g : List (List ℕ)) (stack circuit : List ℕ) (x : ℕ),
      x ∈ circuit → x ∈ eulerLoopF fuel g stack circuit := by
  induction fuel with
  | zero => exact fun g stack c x hx => hx
  | succ fuel ih =>
      intro g stack c x hx
      match stack with
      | [] => exact hx
      | v :: rest =>
          show x ∈ eulerLoopF fuel (eulerStep g (v :: rest) c).1
            (eulerStep g (v :: rest) c).2.1 (eulerStep g (v :: rest) c).2.2
          by_cases h : g.getD v [] = []
          · rw [eulerStep_pop g v rest c h]
            exact ih g rest (c ++ [v]) x (List.mem_append.2 (Or.inl hx))
          · rw [eulerStep_traverse g v rest c h]
            exact ih (eulerTraverse g v)
              ((g.getD v []).getLastD 0 :: v :: rest) c x hx

theorem eulerLoopF_bound (n fuel : ℕ) :
    ∀ (g : List (List ℕ)) (stack circuit : List ℕ),
      SymAdj g → NSL g → AllLtAdj n g →
      (∀ x ∈ stack, x < n) → (∀ x ∈ circuit, x < n) →
      ∀ x ∈ eulerLoopF fuel g stack circuit, x < n := by
  induction fuel with
  | zero => exact fun g stack c _ _ _ _ hc x hx => hc x hx
  | succ fuel ih =>
      intro g stack c hsym hnsl hlt hs hc
      match stack with
      | [] => exact hc
      | v :: rest =>
          intro x hx
          replace hx : x ∈ eulerLoopF fuel (eulerStep g (v :: rest) c).1
              (eulerStep g (v :: rest) c).2.1
              (eulerStep g (v :: rest) c).2.2 := hx
          by_cases h : g.getD v [] = []
          · rw [eulerStep_pop g v rest c h] at hx
            refine ih g rest (c ++ [v]) hsym hnsl hlt
              (fun y hy => hs y (List.mem_cons_of_mem v hy))
              (fun y hy => ?_) x hx
            rcases List.mem_append.1 hy with hy' | hy'
            · exact hc y hy'
            · rw [List.mem_singleton] at hy'
              exact hy' ▸ hs v (List.mem_cons_self v rest)
          · rw [eulerStep_traverse g v rest c h] at hx
            refine ih (eulerTraverse g v)
              ((g.getD v []).getLastD 0 :: v :: rest) c
              (eulerTraverse_sym h hsym hnsl)
              (eulerTraverse_nsl h hsym hnsl)
              (eulerTraverse_alllt h hsym hnsl hlt)
              (fun y hy => ?_) hc x hx
            rcases List.mem_cons.1 hy with hy' | hy'
            · exact hy' ▸ hlt v _ (euler_u_mem h)
            · exact hs y hy'

/-- Every vertex reachable from a stack entry ends up in the walk's
output. -/
theorem eulerLoopF_visits (fuel : ℕ) :
    ∀ (g : List (List ℕ)) (stack circuit : List ℕ),
      2 * adjTotal g + stack.length ≤ fuel →
      SymAdj g → NSL g →
      ∀ s v, s ∈ stack → Relation.ReflTransGen (Adj g) s v →
        v ∈ eulerLoopF fuel g stack circuit := by
  induction fuel with
  | zero =>
      intro g stack c hm _ _ s v hs _
      have hnil : stack = [] :=
        List.eq_nil_of_length_eq_zero (by omega)
      rw [hnil] at hs
      exact absurd hs (List.not_mem_nil s)
  | succ fuel ih =>
      intro g stack c hm hsym hnsl s v hs hreach
      match stack with
      | [] => exact absurd hs (List.not_mem_nil s)
      | t :: rest =>
          show v ∈ eulerLoopF fuel (eulerStep g (t :: rest) c).1
            (eulerStep g (t :: rest) c).2.1 (eulerStep g (t :: rest) c).2.2
          have hmc : 2 * adjTotal g + (t :: rest).length ≤ fuel + 1 := hm
          rw [List.length_cons] at hmc
          by_cases h : g.getD t [] = []
          · rw [eulerStep_pop g t rest c h]
            rcases List.mem_cons.1 hs with rfl | hs'
            · rcases Relation.ReflTransGen.cases_head hreach with rfl |
                ⟨w, haw, _⟩
              · exact eulerLoopF_circuit_mono fuel g rest (c ++ [s]) s
                  (List.mem_append.2 (Or.inr (List.mem_singleton.2 rfl)))
              · unfold Adj at haw
                rw [h] at haw
                exact absurd haw (List.not_mem_nil w)
            · exact ih g rest (c ++ [t]) (by omega) hsym hnsl s v hs' hreach
          · rw [eulerStep_traverse g t rest c h]
            have hmeas := eulerStep_measure g t rest c
            rw [eulerStep_traverse g t rest c h] at hmeas
            have hm2 : 2 * adjTotal (eulerTraverse g t)
                + ((g.getD t []).getLastD 0 :: t :: rest).length ≤ fuel := by
              have hmeas2 : 2 * adjTotal (eulerTraverse g t)
                  + ((g.getD t []).getLastD 0 :: t :: rest).length
                  < 2 * adjTotal g + (t :: rest).length := hmeas
              simp only [List.length_cons] at hmeas2 ⊢
              omega
            have hsym2 := eulerTraverse_sym h hsym hnsl
            have hnsl2 := eulerTraverse_nsl h hsym hnsl
            rcases reach_of_support (eulerTraverse_support h hsym hnsl)
                hreach with h1 | h1 | h1
            · exact ih (eulerTraverse g t) _ c hm2 hsym2 hnsl2 s v
                (List.mem_cons_of_mem _ hs) h1
            · exact ih (eulerTraverse g t) _ c hm2 hsym2 hnsl2 t v
                (List.mem_cons_of_mem _ (List.mem_cons_self t rest)) h1
            · exact ih (eulerTraverse g t) _ c hm2 hsym2 hnsl2
                ((g.getD t []).getLastD 0) v
                (List.mem_cons_self _ _) h1

theorem findEulerianCircuit_visits {g : List (List ℕ)} {start v : ℕ}
    (hsym : SymAdj g) (hnsl : NSL g)
    (hreach : Relation.ReflTransGen (Adj g) start v) :
    v ∈ findEulerianCircuit g start := by
  unfold findEulerianCircuit
  rw [List.mem_reverse]
  refine eulerLoopF_visits (2 * adjTotal g + 2) g [start] [] ?_ hsym hnsl
    start v (List.mem_cons_self _ _) hreach
  rw [List.length_singleton]
  omega

theorem findEulerianCircuit_bound {n : ℕ} {g : List (List ℕ)}
    (hsym : SymAdj g) (hnsl : NSL g) (hlt : AllLtAdj n g)
    {start : ℕ} (hstart : start < n) :
    ∀ x ∈ findEulerianCircuit g start, x < n := by
  intro x hx
  rw [findEulerianCircuit, List.mem_reverse] at hx
  refine eulerLoopF_bound n (2 * adjTotal g + 2) g [start] [] hsym hnsl hlt
    (fun y hy => ?_) (fun y hy => absurd hy (List.not_mem_nil y)) x hx
  rw [List.mem_singleton] at hy
  exact hy ▸ hstart

/-- The overlay multigraph is symmetric, has no self-loops, keeps all
entries below `n`, and contains every MST edge in both directions. -/
theorem buildEulerianGraph_props {n : ℕ} {mst : List (MSTEdge α)}
    {matching : List (ℕ × ℕ)}
    (hmst : ∀ e ∈ mst, e.efrom < n ∧ e.eto < n ∧ e.efrom ≠ e.eto)
    (hmatch : ∀ p ∈ matching, p.1 < n ∧ p.2 < n ∧ p.1 ≠ p.2) :
    SymAdj (buildEulerianGraph n mst matching) ∧
    NSL (buildEulerianGraph n mst matching) ∧
    AllLtAdj n (buildEulerianGraph n mst matching) ∧
    ∀ e ∈ mst,
      e.eto ∈ (buildEulerianGraph n mst matching).getD e.efrom [] ∧
      e.efrom ∈ (buildEulerianGraph n mst matching).getD e.eto [] := by
  have hok1 : ∀ p ∈ mst.map (fun e => (e.efrom, e.eto)),
      p.1 < (List.replicate n ([] : List ℕ)).length ∧
      p.2 < (List.replicate n ([] : List ℕ)).length ∧ p.1 ≠ p.2 := by
    intro p hp
    obtain ⟨e, he, rfl⟩ := List.mem_map.1 hp
    obtain ⟨h1, h2, h3⟩ := hmst e he
    rw [List.length_replicate]
    exact ⟨h1, h2, h3⟩
  have hok2 : ∀ p ∈ matching,
      p.1 < (addEdges (List.replicate n ([] : List ℕ))
        (mst.map (fun e => (e.efrom, e.eto)))).length ∧
      p.2 < (addEdges (List.replicate n ([] : List ℕ))
        (mst.map (fun e => (e.efrom, e.eto)))).length ∧ p.1 ≠ p.2 := by
    intro p hp
    obtain ⟨h1, h2, h3⟩ := hmatch p hp
    rw [addEdges_length, List.length_replicate]
    exact ⟨h1, h2, h3⟩
  have hbsym : SymAdj (List.replicate n ([] : List ℕ)) := by
    intro x y
    rw [replicate_getD, replicate_getD]
    rfl
  have hbnsl : NSL (List.replicate n ([] : List ℕ)) := by
    intro v
    rw [replicate_getD]
    exact List.not_mem_nil v
  have hblt : AllLtAdj n (List.replicate n ([] : List ℕ)) := by
    intro v x hx
    rw [replicate_getD] at hx
    exact absurd hx (List.not_mem_nil x)
  refine ⟨?_, ?_, ?_, ?_⟩
  · rw [buildEulerianGraph_eq]
    exact addEdges_sym hok2 (addEdges_sym hok1 hbsym)
  · rw [buildEulerianGraph_eq]
    exact addEdges_nsl hok2 (addEdges_nsl hok1 hbnsl)
  · rw [buildEulerianGraph_eq]
    refine addEdges_alllt hok2 (fun p hp => ?_)
      (addEdges_alllt hok1 (fun p hp => ?_) hblt)
    · obtain ⟨h1, h2, -⟩ := hmatch p hp
      exact ⟨h1, h2⟩
    · obtain ⟨e, he, rfl⟩ := List.mem_map.1 hp
      obtain ⟨h1, h2, -⟩ := hmst e he
      exact ⟨h1, h2⟩
  · intro e he
    rw [buildEulerianGraph_eq]
    have hin := addEdges_edge_mem hok1 (e.efrom, e.eto)
      (List.mem_map.2 ⟨e, he, rfl⟩)
    exact ⟨addEdges_mem_mono hok2 hin.1, addEdges_mem_mono hok2 hin.2⟩

/-- The Christofides tour is a permutation of the vertex set. -/
theorem christofides_path_perm {d : Mat α} {n : ℕ}
    (hval : ValidMatrix d n) (t : ℚ) :
    (christofidesTSP d n t).path.Perm (List.range n) := by
  have hmst := primMST_edges hval
  have hoddnd : (oddVertices n (mstDegree (primMST d n))).Nodup :=
    (List.nodup_range n).filter _
  have hoddb : ∀ x ∈ oddVertices n (mstDegree (primMST d n)), x < n := by
    intro x hx
    unfold oddVertices at hx
    exact List.mem_range.1 (List.mem_of_mem_filter hx)
  have heven := oddVertices_even_length hval
  obtain ⟨-, -, hpairs⟩ := mwm_complete hval hoddnd hoddb heven
  have hmatchok : ∀ p ∈ minimumWeightMatching d
      (oddVertices n (mstDegree (primMST d n))),
      p.1 < n ∧ p.2 < n ∧ p.1 ≠ p.2 := by
    intro p hp
    obtain ⟨h1, h2, h3⟩ := hpairs p hp
    exact ⟨hoddb _ h1, hoddb _ h2, h3⟩
  obtain ⟨hgsym, hgnsl, hglt, hgedge⟩ :=
    buildEulerianGraph_props hmst hmatchok
  have hpath : (christofidesTSP d n t).path
      = shortcut (findEulerianCircuit (buildEulerianGraph n (primMST d n)
          (minimumWeightMatching d
            (oddVertices n (mstDegree (primMST d n))))) 0) := rfl
  obtain ⟨hnd, hmem⟩ := shortcut_spec (findEulerianCircuit
    (buildEulerianGraph n (primMST d n)
      (minimumWeightMatching d
        (oddVertices n (mstDegree (primMST d n))))) 0)
  have hsub : ∀ a b, EdgeRel (primMST d n) a b →
      Adj (buildEulerianGraph n (primMST d n)
        (minimumWeightMatching d
          (oddVertices n (mstDegree (primMST d n))))) a b := by
    intro a b hab
    obtain ⟨e, he, hor⟩ := hab
    unfold Adj
    rcases hor with ⟨rfl, rfl⟩ | ⟨rfl, rfl⟩
    · exact (hgedge e he).1
    · exact (hgedge e he).2
  rw [hpath]
  rw [List.perm_ext_iff_of_nodup hnd (List.nodup_range n)]
  intro x
  rw [hmem x, List.mem_range]
  constructor
  · intro hx
    exact findEulerianCircuit_bound hgsym hgnsl hglt hval.1 x hx
  · intro hx
    exact findEulerianCircuit_visits hgsym hgnsl
      (Relation.ReflTransGen.mono hsub (primMST_spanning hval x hx))

/-- C1: on every valid distance matrix the `path` returned by
`greedyTSP` and `christofidesTSP` is a permutation of `0 .. n-1` of
length `n`, and so is the one returned by `heldKarpTSP` whenever
`n ≤ 15` and the returned cost is finite. -/
theorem claim_C1 (d : Mat α) (n : ℕ) (t : ℚ) (hval : ValidMatrix d n) :
    ((greedyTSP d n t).path.Perm (List.range n) ∧
      (greedyTSP d n t).path.length = n) ∧
    ((christofidesTSP d n t).path.Perm (List.range n) ∧
      (christofidesTSP d n t).path.length = n) ∧
    (n ≤ 15 → (heldKarpTSP d n t).cost ≠ ⊤ →
      (heldKarpTSP d n t).path.Perm (List.range n) ∧
      (heldKarpTSP d n t).path.length = n) := by
  refine ⟨⟨greedy_path_perm hval t, ?_⟩,
    ⟨christofides_path_perm hval t, ?_⟩, fun h15 hcost => ?_⟩
  · rw [(greedy_path_perm hval t).length_eq, List.length_range]
  · rw [(christofides_path_perm hval t).length_eq, List.length_range]
  · refine ⟨heldKarp_path_perm hval t h15 hcost, ?_⟩
    rw [(heldKarp_path_perm hval t h15 hcost).length_eq,
      List.length_range]

/-- Claim C1 witnessed on a concrete 3-node matrix. -/
theorem claim_C1_witness :
    ValidMatrix exMat3 3 ∧
    (((greedyTSP exMat3 3 0).path.Perm (List.range 3) ∧
        (greedyTSP exMat3 3 0).path.length = 3) ∧
      ((christofidesTSP exMat3 3 0).path.Perm (List.range 3) ∧
        (christofidesTSP exMat3 3 0).path.length = 3) ∧
      (3 ≤ 15 → (heldKarpTSP exMat3 3 0).cost ≠ ⊤ →
        (heldKarpTSP exMat3 3 0).path.Perm (List.range 3) ∧
        (heldKarpTSP exMat3 3 0).path.length = 3)) :=
  ⟨by decide, claim_C1 exMat3 3 0 (by decide)⟩

/-! ## Machinery for the step sequences (claim C5) -/

theorem head_append_of_ne_nil {β : Type} {l : List β} (l' : List β)
    (h : l ≠ []) : (l ++ l').head? = l.head? := by
  cases l with
  | nil => exact absurd rfl h
  | cons a t => rfl

theorem getLastD_append_single {β : Type} (q : List β) (x dflt : β) :
    (q ++ [x]).getLastD dflt = x := by
  rw [List.getLastD_eq_getLast?, List.getLast?_concat]
  rfl

/-- `greedyStep` only ever appends to the recorded step list. -/
theorem greedyStep_steps (d : Mat α) (n : ℕ) {s : GreedyState α}
    (hne : s.steps ≠ []) :
    (greedyStep d n s).steps ≠ [] ∧
    (greedyStep d n s).steps.head? = s.steps.head? := by
  cases hfk : (findNearest d n (s.path.getLastD 0) s.visited).1 with
  | none =>
      simp only [greedyStep, hfk]
      exact ⟨fun h => hne (List.append_eq_nil.1 h).1,
        head_append_of_ne_nil _ hne⟩
  | some u =>
      simp only [greedyStep, hfk, List.append_assoc]
      exact ⟨fun h => hne (List.append_eq_nil.1 h).1,
        head_append_of_ne_nil _ hne⟩

/-- Along the greedy main loop the step list stays nonempty and keeps the
initial "Start at node 0" snapshot in front. -/
theorem greedyFold_steps (d : Mat α) (n i : ℕ) :
    (greedyFold d n i).steps ≠ [] ∧
    (greedyFold d n i).steps.head? = (greedyInit (α := α)).steps.head? := by
  induction i with
  | zero => exact ⟨by simp [greedyFold, greedyInit], rfl⟩
  | succ i ih =>
      obtain ⟨hne, hh⟩ := ih
      obtain ⟨hne', hh'⟩ := greedyStep_steps d n hne
      rw [greedyFold_succ]
      exact ⟨hne', hh'.trans hh⟩

theorem greedyTSP_steps (d : Mat α) (n : ℕ) (t : ℚ) :
    (greedyTSP d n t).steps
      = (greedyFold d n (n - 1)).steps ++
        [{ description := "Return to start node 0"
           currentNode := some 0
           visitedNodes := (greedyFold d n (n - 1)).path ++ [0]
           currentPath := (greedyFold d n (n - 1)).path ++ [0]
           highlightEdge := some ((greedyFold d n (n - 1)).path.getLastD 0, 0)
           cost := some ((greedyFold d n (n - 1)).totalCost
             + d ((greedyFold d n (n - 1)).path.getLastD 0)
                 ((greedyFold d n (n - 1)).path.headD 0))
           additionalInfo := some "Complete the tour" }] := rfl

/-- A valid 16-node matrix (all off-diagonal distances 1). -/
def exMat16 : Mat ℤ := fun i j => if i = j then 0 else 1

/-- C5 as stated is false: on a valid 16-node input, `heldKarpTSP` takes
the size-guard branch, whose only step carries no cost field, while the
result's cost is `⊤` — so the last step's cost does not equal the
result's cost. -/
theorem claim_C5_counterexample :
    ValidMatrix exMat16 16 ∧
    ¬(((heldKarpTSP exMat16 16 0).steps.getLastD default).cost
        = some (heldKarpTSP exMat16 16 0).cost) :=
  ⟨by decide, by decide⟩

/-- C5, amended: for every valid matrix the greedy and Christofides
solvers and — restricted to `n ≤ 15`, where the size guard does not
fire — the Held-Karp solver return a nonempty step list whose first
element is the solver's initial snapshot and whose last element carries
the full final path and a cost equal to the result's cost (the greedy
final step stores the closed tour `path ++ [0]`, of which the result
path is a prefix). -/
theorem claim_C5 (d : Mat α) (n : ℕ) (t : ℚ) (hval : ValidMatrix d n) :
    ((greedyTSP d n t).steps ≠ [] ∧
      (greedyTSP d n t).steps.head? = (greedyInit (α := α)).steps.head? ∧
      (greedyTSP d n t).path <+:
        ((greedyTSP d n t).steps.getLastD default).currentPath ∧
      ((greedyTSP d n t).steps.getLastD default).cost
        = some (greedyTSP d n t).cost) ∧
    ((christofidesTSP d n t).steps ≠ [] ∧
      ((christofidesTSP d n t).steps.headD default).currentPath = [] ∧
      ((christofidesTSP d n t).steps.headD default).cost = none ∧
      ((christofidesTSP d n t).steps.getLastD default).currentPath
        = (christofidesTSP d n t).path ∧
      ((christofidesTSP d n t).steps.getLastD default).cost
        = some (christofidesTSP d n t).cost) ∧
    (n ≤ 15 →
      (heldKarpTSP d n t).steps ≠ [] ∧
      ((heldKarpTSP d n t).steps.headD default).currentPath = [0] ∧
      ((heldKarpTSP d n t).steps.getLastD default).currentPath
        = (heldKarpTSP d n t).path ∧
      ((heldKarpTSP d n t).steps.getLastD default).cost
        = some (heldKarpTSP d n t).cost) := by
  obtain ⟨hne, hh⟩ := greedyFold_steps d n (n - 1)
  refine ⟨⟨?_, ?_, ?_, ?_⟩, ⟨?_, rfl, rfl, rfl, rfl⟩, fun h15 => ?_⟩
  · rw [greedyTSP_steps]
    intro hcontr
    exact hne (List.append_eq_nil.1 hcontr).1
  · rw [greedyTSP_steps, head_append_of_ne_nil _ hne, hh]
  · rw [greedyTSP_steps, getLastD_append_single]
    exact List.prefix_append _ _
  · rw [greedyTSP_steps, getLastD_append_single]
    exact congrArg some (greedyTSP_cost d n t).symm
  · exact List.cons_ne_nil _ _
  · have hng : ¬(n > 15) := by omega
    rw [heldKarpTSP, if_neg hng]
    exact ⟨List.cons_ne_nil _ _, rfl, rfl, rfl⟩

/-- Amended claim C5 witnessed on a concrete 3-node matrix. -/
theorem claim_C5_witness :
    ValidMatrix exMat3 3 ∧
    (((greedyTSP exMat3 3 0).steps ≠ [] ∧
      (greedyTSP exMat3 3 0).steps.head?
        = (greedyInit (α := ℤ)).steps.head? ∧
      (greedyTSP exMat3 3 0).path <+:
        ((greedyTSP exMat3 3 0).steps.getLastD default).currentPath ∧
      ((greedyTSP exMat3 3 0).steps.getLastD default).cost
        = some (greedyTSP exMat3 3 0).cost) ∧
    ((christofidesTSP exMat3 3 0).steps ≠ [] ∧
      ((christofidesTSP exMat3 3 0).steps.headD default).currentPath
        = [] ∧
      ((christofidesTSP exMat3 3 0).steps.headD default).cost = none ∧
      ((christofidesTSP exMat3 3 0).steps.getLastD default).currentPath
        = (christofidesTSP exMat3 3 0).path ∧
      ((christofidesTSP exMat3 3 0).steps.getLastD default).cost
        = some (christofidesTSP exMat3 3 0).cost) ∧
    (3 ≤ 15 →
      (heldKarpTSP exMat3 3 0).steps ≠ [] ∧
      ((heldKarpTSP exMat3 3 0).steps.headD default).currentPath = [0] ∧
      ((heldKarpTSP exMat3 3 0).steps.getLastD default).currentPath
        = (heldKarpTSP exMat3 3 0).path ∧
      ((heldKarpTSP exMat3 3 0).steps.getLastD default).cost
        = some (heldKarpTSP exMat3 3 0).cost)) :=
  ⟨by decide, claim_C5 exMat3 3 0 (by decide)⟩

end TSP

